import Mathlib

/-! # DBC signal codec and database parser (namespace `stage4` of `dbc_simple.cpp`)

A shallow embedding of `src/firmware/solution/src/dbc_simple.cpp`:

* the bit extractors `extract_le` / `extract_be` and `mask_nbits`,
* the physical value decoder `decode_signal_phys` and the frame decoder
  `decode_frame_and_write`,
* the text parser `parse_dbc_file`, one `getline` iteration at a time.

The extractors are also given with checked payload access (`readByte`), and the round-trip
statements come with the encoders `encode_le` / `encode_be` written from the specification.

Conventions of the embedding.

* A payload (`std::vector<uint8_t>`) is a `List Nat`; the extractors only ever
  look at `(b >> bit) & 1` with `bit ≤ 7`.
* `uint64_t` arithmetic is `Nat` arithmetic reduced `% 2 ^ 64`, `unsigned` is
  reduced `% 2 ^ 32`, `int` is `Int`.
* `double` is `Float`; `std::stod` is a parameter of the parser.
* A `std::string` is a `List Char` (one `Char` per `char`).
-/

namespace stage4

/-! ## Strings, streams and number conversion -/

/-- A `std::string`: one `Char` per `char`. -/
abbrev Str := List Char

/-- `std::isspace` in the "C" locale: the delimiter set of `operator>>` and of the regex
class `\s`. -/
def isspace (c : Char) : Bool :=
  c == ' ' || c == '\t' || c == '\n' || c == '\x0b' || c == '\x0c' || c == '\r'

/-- Membership in the set `" \t\r\n"` that `trim` strips. -/
def isTrimChar (c : Char) : Bool :=
  c == ' ' || c == '\t' || c == '\r' || c == '\n'

/-- `trim(s)`: the substring from the first to the last character outside `" \t\r\n"`,
empty when there is none. -/
def trim (s : Str) : Str :=
  (s.dropWhile isTrimChar).rdropWhile isTrimChar

/-- `starts_with(s, pfx)`, i.e. `s.rfind(pfx, 0) == 0`. -/
def starts_with (s pfx : Str) : Bool :=
  pfx.isPrefixOf s

/-- `s.find(c)`: index of the first occurrence, `none` for `npos`. -/
def find (c : Char) : Str → Option Nat
  | [] => none
  | x :: xs => if x = c then some 0 else (find c xs).map (· + 1)

/-- `s.find(c, pos)`. -/
def findFrom (c : Char) (s : Str) (pos : Nat) : Option Nat :=
  (find c (s.drop pos)).map (· + pos)

/-- `s.substr(pos, count)` for `pos ≤ s.size()`. -/
def substr (s : Str) (pos count : Nat) : Str :=
  (s.drop pos).take count

/-- A `std::istringstream`: the characters not yet consumed and the value of `good()`. -/
structure IStream where
  rest : Str
  good : Bool

/-- `std::istringstream ls(s)`. -/
def IStream.ofStr (s : Str) : IStream := ⟨s, true⟩

/-- `ls >> tok` for a `std::string` target that is empty before the call (true of every
extraction in the parser). Returns the token and the stream afterwards. When the stream is
not `good()` the sentry fails and the target stays empty; otherwise leading whitespace is
skipped and characters are taken up to the next whitespace; reaching the end of the input
(while skipping or while extracting) sets `eofbit`, so `good()` becomes false. -/
def IStream.read (ls : IStream) : Str × IStream :=
  if ls.good then
    let r := ls.rest.dropWhile isspace
    match r with
    | [] => ([], ⟨[], false⟩)
    | _ =>
      let r2 := r.dropWhile (fun c => !isspace c)
      (r.takeWhile (fun c => !isspace c), ⟨r2, !r2.isEmpty⟩)
  else ([], ls)

/-- The exceptions `std::stoul` throws. -/
inductive StdExn where
  | invalid_argument
  | out_of_range
  deriving DecidableEq, Repr

/-- Value of a character as a digit (letters count from 10, either case), as `strtoul`
reads it; 36 for a character that is not alphanumeric. -/
def digitVal (c : Char) : Nat :=
  if '0' ≤ c ∧ c ≤ '9' then c.toNat - '0'.toNat
  else if 'a' ≤ c ∧ c ≤ 'z' then c.toNat - 'a'.toNat + 10
  else if 'A' ≤ c ∧ c ≤ 'Z' then c.toNat - 'A'.toNat + 10
  else 36

/-- Base and remaining text after the optional `0x` / `0` prefix handling of `strtoul`:
base 0 auto-detects hexadecimal (`0x` followed by a hex digit), octal (leading `0`) and
decimal; base 16 accepts an optional `0x`. -/
def stoulBase (s : Str) (base : Nat) : Nat × Str :=
  match s with
  | '0' :: x :: h :: r =>
    if (x = 'x' ∨ x = 'X') ∧ digitVal h < 16 ∧ (base = 0 ∨ base = 16) then (16, h :: r)
    else if base = 0 then (8, s) else (base, s)
  | '0' :: _ => if base = 0 then (8, s) else (base, s)
  | _ => if base = 0 then (10, s) else (base, s)

/-- `std::stoul(s, nullptr, base)` with a 64-bit `unsigned long`: skip leading whitespace,
accept one sign, read the longest run of digits of the base; `invalid_argument` when there
is no digit, `out_of_range` when the magnitude exceeds `2 ^ 64 - 1`; a leading `-` negates
the value modulo `2 ^ 64`. -/
def stoul (s : Str) (base : Nat) : Except StdExn Nat :=
  let s1 := s.dropWhile isspace
  let (neg, s2) : Bool × Str :=
    match s1 with
    | '-' :: r => (true, r)
    | '+' :: r => (false, r)
    | _ => (false, s1)
  let (b, s3) := stoulBase s2 base
  let digits := s3.takeWhile (fun c => digitVal c < b)
  if digits.isEmpty then .error .invalid_argument
  else
    let v := digits.foldl (fun acc c => acc * b + digitVal c) 0
    if v ≥ 2 ^ 64 then .error .out_of_range
    else .ok (if neg then (2 ^ 64 - v) % 2 ^ 64 else v)

/-! ## Regular expression of the scale/offset fallback -/

/-- The class `[\d\.eE]`. -/
def isNumClass (c : Char) : Bool :=
  c.isDigit || c == '.' || c == 'e' || c == 'E'

/-- Match of the group `([-+]?[\d\.eE]+)` at the head of `s`: the captured text and the
text after it. -/
def re_number (s : Str) : Option (Str × Str) :=
  let (sign, r) : Str × Str :=
    match s with
    | c :: r => if c = '-' ∨ c = '+' then ([c], r) else ([], s)
    | [] => ([], s)
  let body := r.takeWhile isNumClass
  if body.isEmpty then none else some (sign ++ body, r.dropWhile isNumClass)

/-- Anchored match of
`\(\s*([-+]?[\d\.eE]+)\s*,\s*([-+]?[\d\.eE]+)\s*\)` at the head of `s`, returning the two
captures. The character sets of consecutive pieces are disjoint, so the greedy match is the
only candidate and no backtracking is involved. -/
def re_match_here (s : Str) : Option (Str × Str) :=
  match s with
  | '(' :: r =>
    match re_number (r.dropWhile isspace) with
    | none => none
    | some (g1, r1) =>
      match r1.dropWhile isspace with
      | ',' :: r2 =>
        match re_number (r2.dropWhile isspace) with
        | none => none
        | some (g2, r3) =>
          match r3.dropWhile isspace with
          | ')' :: _ => some (g1, g2)
          | _ => none
      | _ => none
  | _ => none

/-- `std::regex_search` with that pattern: the captures of the leftmost match. -/
def regex_search : Str → Option (Str × Str)
  | [] => none
  | c :: r =>
    match re_match_here (c :: r) with
    | some g => some g
    | none => regex_search r

/-! ## Data model (`dbc_simple.hpp`) -/

/-- `struct Signal`. `start_bit` and `bit_len` are `uint16_t`. -/
structure Signal where
  name : Str
  start_bit : Nat
  bit_len : Nat
  little_endian : Bool
  is_signed : Bool
  scale : Float
  offset : Float

/-- `struct Message`. `id` is `uint32_t`, `dlc` is `uint8_t`. -/
structure Message where
  id : Nat
  name : Str
  dlc : Nat
  signals : List Signal

/-- `struct Network`: the map `msgs` from identifier to message. -/
structure Network where
  msgs : Nat → Option Message

/-- `out.msgs[id] = msg`. -/
def Network.assign (net : Network) (id : Nat) (msg : Message) : Network :=
  ⟨fun k => if k = id then some msg else net.msgs k⟩

/-- `net.msgs[id].signals.push_back(s)` for an existing entry. -/
def Network.push_signal (net : Network) (id : Nat) (s : Signal) : Network :=
  ⟨fun k => if k = id then (net.msgs id).map (fun m => { m with signals := m.signals ++ [s] })
    else net.msgs k⟩

/-! ## Bit extractors -/

/-- One iteration of the `for` loop of `extract_le` (loop counter `k`). The shift
`uint64_t(b) << k` is reduced modulo `2 ^ 64`; the source only defines it for `k < 64`. -/
def extract_le_step (data : List Nat) (start : Nat) (result k : Nat) : Nat :=
  let bit_index := (start + k) % 2 ^ 32
  let byte := bit_index / 8
  let bit := bit_index % 8
  if byte < data.length then
    let b := (data.getD byte 0 >>> bit) &&& 1
    result ||| ((b <<< k) % 2 ^ 64)
  else
    result

/-- `extract_le(data, start, length)`: `result = 0; for (k = 0; k < length; ++k) ...`. -/
def extract_le (data : List Nat) (start length : Nat) : Nat :=
  (List.range length).foldl (extract_le_step data start) 0

/-- Bit `bit` of payload byte `byte`, read as 0 outside the payload: the value the
specification assigns to an absolute bit position. -/
def payloadBit (data : List Nat) (byte bit : Nat) : Bool :=
  if byte < data.length then (data.getD byte 0).testBit bit else false

/-- One iteration of the `for` loop of `extract_be`; the state is
`(result, (byte, bit))` with `byte` and `bit` the two `int` variables. -/
def extract_be_step (data : List Nat) (st : Nat × (Int × Int)) : Nat × (Int × Int) :=
  let result := st.1
  let byte := st.2.1
  let bit := st.2.2
  let v : Nat :=
    if byte ≥ 0 ∧ byte.toNat < data.length ∧ bit ≥ 0 ∧ bit ≤ 7 then
      (data.getD byte.toNat 0 >>> bit.toNat) &&& 1
    else 0
  let result := ((result <<< 1) % 2 ^ 64) ||| v
  let bit := bit - 1
  if bit < 0 then (result, (byte - 1, 7)) else (result, (byte, bit))

/-- `extract_be(data, start, length)`: the loop body does not use its counter, so the
loop is the `length`-fold iterate of the body from
`(0, (start / 8, 7 - start % 8))`. -/
def extract_be (data : List Nat) (start length : Nat) : Nat :=
  ((extract_be_step data)^[length] (0, (((start / 8 : Nat) : Int), 7 - ((start % 8 : Nat) : Int)))).1

/-- The specification's walk for big-endian signals: decrement the bit index, and on
crossing below bit 0 continue at bit 7 of the previous byte. A position is `(byte, bit)`. -/
def be_dec (pos : Int × Int) : Int × Int :=
  if pos.2 = 0 then (pos.1 - 1, 7) else (pos.1, pos.2 - 1)

/-- Position of the `i`-th bit of a big-endian signal (0 = most significant):
`i` decrements from byte `start / 8`, bit `7 - start % 8`. -/
def be_pos (start i : Nat) : Int × Int :=
  be_dec^[i] (((start / 8 : Nat) : Int), 7 - ((start % 8 : Nat) : Int))

/-- Payload bit at a position with a signed byte index: 0 when the byte index is negative
or past the end of the payload. -/
def payloadBitAt (data : List Nat) (pos : Int × Int) : Bool :=
  if 0 ≤ pos.1 ∧ pos.1.toNat < data.length then (data.getD pos.1.toNat 0).testBit pos.2.toNat
  else false

/-! ## Physical value decoder -/

/-- `mask_nbits(n)`: `if (n == 64) return ~0ULL; return (1ULL << n) - 1ULL;`. -/
def mask_nbits (n : Nat) : Nat :=
  if n = 64 then 2 ^ 64 - 1 else ((1 <<< n) % 2 ^ 64 + (2 ^ 64 - 1)) % 2 ^ 64

/-- `static_cast<int64_t>` of a `uint64_t`: the two's-complement reading of 64 bits. -/
def toInt64 (x : Nat) : Int :=
  if x % 2 ^ 64 < 2 ^ 63 then ((x % 2 ^ 64 : Nat) : Int) else ((x % 2 ^ 64 : Nat) : Int) - 2 ^ 64

/-- `decode_signal_phys(sig, data)`. `~m` on `uint64_t` is `2 ^ 64 - 1 - m`. -/
def decode_signal_phys (sig : Signal) (data : List Nat) : Float :=
  let raw_u :=
    if sig.little_endian then extract_le data sig.start_bit sig.bit_len
    else extract_be data sig.start_bit sig.bit_len
  let raw_u := raw_u &&& mask_nbits sig.bit_len
  if sig.is_signed then
    let sign_bit := (1 <<< (sig.bit_len - 1)) % 2 ^ 64
    let raw_s : Int :=
      if raw_u &&& sign_bit ≠ 0 then
        let full := raw_u ||| (2 ^ 64 - 1 - mask_nbits sig.bit_len)
        toInt64 full
      else toInt64 raw_u
    Float.ofInt raw_s * sig.scale + sig.offset
  else
    Float.ofNat raw_u * sig.scale + sig.offset

/-- The extracted raw value of the specification: the extractor selected by the byte order,
reduced to `bit_len` bits. -/
def rawUnsigned (sig : Signal) (data : List Nat) : Nat :=
  (if sig.little_endian then extract_le data sig.start_bit sig.bit_len
   else extract_be data sig.start_bit sig.bit_len) % 2 ^ sig.bit_len

/-- The integer the specification converts to a physical value: `u` for an unsigned signal or
a clear top bit, `u - 2 ^ bit_len` for a signed signal whose top bit is set. -/
def rawValue (sig : Signal) (data : List Nat) : Int :=
  if sig.is_signed ∧ 2 ^ (sig.bit_len - 1) ≤ rawUnsigned sig data then
    ((rawUnsigned sig data : Nat) : Int) - 2 ^ sig.bit_len
  else ((rawUnsigned sig data : Nat) : Int)

/-! ## Frame decoder -/

/-- One line written to the output stream, `(<timestamp>): <name>: <phys>`, kept as its three
fields instead of the formatted text. -/
structure OutLine where
  timestamp : Float
  name : Str
  phys : Float

/-- `decode_frame_and_write(net, can_id, timestamp, data, os)`: the returned count and the
output stream afterwards (`os` is the stream before the call). -/
def decode_frame_and_write (net : Network) (can_id : Nat) (timestamp : Float) (data : List Nat)
    (os : List OutLine) : Nat × List OutLine :=
  match net.msgs can_id with
  | none => (0, os)
  | some msg =>
    msg.signals.foldl
      (fun (acc : Nat × List OutLine) sig =>
        (acc.1 + 1, acc.2 ++ [⟨timestamp, sig.name, decode_signal_phys sig data⟩]))
      (0, os)

/-! ## Parser (`parse_dbc_file`) -/

/-- The loop variables of `parse_dbc_file`: the catalog `out` and the pointer `current`,
kept as the key of the entry it points to (`none` for `nullptr`). -/
structure PState where
  net : Network
  current : Option Nat

/-- The stitching loop of the `BO_` branch:
`while (!name_colon.empty() && name_colon.back() != ':' && ls.good())`. Every iteration
either consumes a character or leaves the stream not `good()`, so `rest.length + 1`
iterations of fuel are never exhausted. -/
def stitch : Nat → Str → IStream → Str × IStream
  | 0, name_colon, ls => (name_colon, ls)
  | fuel + 1, name_colon, ls =>
    if !name_colon.isEmpty && name_colon.getLast? != some ':' && ls.good then
      let (extra, ls2) := ls.read
      stitch fuel (name_colon ++ extra) ls2
    else (name_colon, ls)

/-- The tokens `(id_str, name_colon, dlc_str)` the `BO_` branch reads from the line. -/
def bo_tokens (line : Str) : Str × Str × Str :=
  let ls := IStream.ofStr line
  let (_tag, ls) := ls.read
  let (id_str, ls) := ls.read
  let (name_colon, ls) := ls.read
  let (name_colon, ls) := stitch (ls.rest.length + 1) name_colon ls
  let (dlc_str, _) := ls.read
  (id_str, name_colon, dlc_str)

/-- The `BO_` branch. The conversion of `id_str` is outside any `try`, so its exception
leaves `parse_dbc_file`; the conversion of `dlc_str` falls back to 8. -/
def parse_bo (st : PState) (line : Str) : Except StdExn PState :=
  let (id_str, name_colon, dlc_str) := bo_tokens line
  if id_str.isEmpty || name_colon.isEmpty || dlc_str.isEmpty then
    .ok { st with current := none }
  else
    let name_colon := if name_colon.getLast? = some ':' then name_colon.dropLast else name_colon
    match stoul id_str 0 with
    | .error e => .error e
    | .ok v =>
      let id := v % 2 ^ 32
      let dlc :=
        match stoul dlc_str 10 with
        | .ok d => d % 2 ^ 8
        | .error _ => 8
      .ok { net := st.net.assign id ⟨id, name_colon, dlc, []⟩, current := some id }

/-- The scale/offset part of the `SG_` branch on the text `right`: the direct parse of the
first parenthesised pair, then the regex fallback when the values compare equal to the
defaults. `stod s = none` stands for `std::stod` throwing. -/
def parse_scale_offset (stod : Str → Option Float) (right : Str) : Float × Float :=
  let direct : Float × Float :=
    match find '(' right with
    | none => (1.0, 0.0)
    | some lpar =>
      match findFrom ')' right (lpar + 1) with
      | none => (1.0, 0.0)
      | some rpar =>
        if rpar > lpar + 1 then
          let so := substr right (lpar + 1) (rpar - lpar - 1)
          match find ',' so with
          | none => (1.0, 0.0)
          | some comma =>
            match stod (trim (substr so 0 comma)), stod (trim (so.drop (comma + 1))) with
            | some sc, some off => (sc, off)
            | _, _ => (1.0, 0.0)
        else (1.0, 0.0)
  if direct.1 == 1.0 && direct.2 == 0.0 then
    match regex_search right with
    | none => direct
    | some (g1, g2) =>
      match stod g1 with
      | none => direct
      | some sc =>
        match stod g2 with
        | none => (sc, direct.2)
        | some off => (sc, off)
  else direct

/-- The field parsing of the `SG_` branch (from `line.find(':')` to the construction of the
`Signal`); `none` stands for `continue`. The optional third token of `left` (the multiplex
marker) is read by the source and then dropped: no variable depends on it. `count` is the
`size_t` difference `at_pos - (pipe_pos + 1)`, which wraps when `@` precedes `|`. -/
def parse_sg_fields (stod : Str → Option Float) (line : Str) : Option Signal :=
  match find ':' line with
  | none => none
  | some colon_pos =>
    let left := trim (substr line 0 colon_pos)
    let right := trim (line.drop (colon_pos + 1))
    let ll := IStream.ofStr left
    let (_tag, ll) := ll.read
    let (name, _) := ll.read
    let (bitspec, _) := (IStream.ofStr right).read
    match find '|' bitspec, find '@' bitspec with
    | some pipe_pos, some at_pos =>
      if at_pos + 2 > bitspec.length then none
      else
        let start_str := substr bitspec 0 pipe_pos
        let count :=
          if pipe_pos + 1 ≤ at_pos then at_pos - (pipe_pos + 1)
          else 2 ^ 64 - (pipe_pos + 1 - at_pos)
        let len_str := substr bitspec (pipe_pos + 1) count
        let endian_ch := bitspec.getD (at_pos + 1) '\x00'
        let sign_ch := bitspec.getD (at_pos + 2) '\x00'
        let so := parse_scale_offset stod right
        match stoul (trim start_str) 10, stoul (trim len_str) 10 with
        | .ok a, .ok b =>
          some ⟨name, a % 2 ^ 16, b % 2 ^ 16, endian_ch == '1', sign_ch == '-', so.1, so.2⟩
        | _, _ => none
    | _, _ => none

/-- The `SG_` branch. -/
def parse_sg (stod : Str → Option Float) (st : PState) (line : Str) : PState :=
  match st.current with
  | none => st
  | some cur =>
    match parse_sg_fields stod line with
    | none => st
    | some s => { st with net := st.net.push_signal cur s }

/-- One iteration of the `getline` loop. -/
def parse_line (stod : Str → Option Float) (st : PState) (raw : Str) : Except StdExn PState :=
  let line := trim raw
  if line.isEmpty then .ok st
  else if starts_with line "BO_".toList then parse_bo st line
  else if starts_with line "SG_".toList then .ok (parse_sg stod st line)
  else .ok st

/-- The `getline` loop over the lines of the file. -/
def parse_lines (stod : Str → Option Float) : PState → List Str → Except StdExn PState
  | st, [] => .ok st
  | st, l :: ls =>
    match parse_line stod st l with
    | .error e => .error e
    | .ok st2 => parse_lines stod st2 ls

/-- What `parse_dbc_file` leaves behind when it returns: the return value, the catalog
`out` and the string `*err`. -/
structure ParseOutcome where
  ok : Bool
  out : Network
  err : Str

/-- `parse_dbc_file(path, out, &err)`. `file` is the content of the file at `path` as its
list of lines, `none` when the file cannot be opened.
An exception of the body is the `.error` result. -/
def parse_dbc_file (stod : Str → Option Float) (path : Str) (file : Option (List Str))
    (out : Network) : Except StdExn ParseOutcome :=
  match file with
  | none => .ok ⟨false, out, "Failed to open ".toList ++ path⟩
  | some lines =>
    match parse_lines stod ⟨out, none⟩ lines with
    | .error e => .error e
    | .ok st => .ok ⟨true, st.net, []⟩

/-- `Network net;`: the empty catalog. -/
def Network.empty : Network := ⟨fun _ => none⟩

/-- The decimal fragment of `std::stod`: optional whitespace and sign, digits with an
optional fraction, an optional exponent; `none` when no digit is found. It instantiates the
`stod` parameter at concrete inputs. -/
def stod_dec (s : Str) : Option Float :=
  let s1 := s.dropWhile isspace
  let (neg, s2) : Bool × Str :=
    match s1 with
    | '-' :: r => (true, r)
    | '+' :: r => (false, r)
    | _ => (false, s1)
  let ip := s2.takeWhile Char.isDigit
  let r := s2.dropWhile Char.isDigit
  let (fp, r) : Str × Str :=
    match r with
    | '.' :: r2 => (r2.takeWhile Char.isDigit, r2.dropWhile Char.isDigit)
    | _ => ([], r)
  if ip.isEmpty && fp.isEmpty then none
  else
    let mant := (ip ++ fp).foldl (fun acc c => acc * 10 + digitVal c) 0
    let (eneg, ex) : Bool × Nat :=
      match r with
      | c :: r3 =>
        if c = 'e' ∨ c = 'E' then
          let (en, r4) : Bool × Str :=
            match r3 with
            | '-' :: r5 => (true, r5)
            | '+' :: r5 => (false, r5)
            | _ => (false, r3)
          let ed := r4.takeWhile Char.isDigit
          if ed.isEmpty then (false, 0)
          else (en, ed.foldl (fun acc c => acc * 10 + digitVal c) 0)
        else (false, 0)
      | [] => (false, 0)
    let e10 : Int := (if eneg then -(ex : Int) else (ex : Int)) - (fp.length : Int)
    let x : Float := if e10 < 0 then Float.ofScientific mant true e10.natAbs
      else Float.ofScientific mant false e10.natAbs
    some (if neg then -x else x)

/-! ## Bit extractors with checked payload access -/

/-- The element access `data[i]` with its precondition made explicit: a value for an index
inside the vector, `none` for any other index (where the source would read out of
bounds). -/
def readByte (data : List Nat) (i : Int) : Option Nat :=
  if 0 ≤ i then data[i.toNat]? else none

/-- One iteration of the loop of `extract_le`, with `data[byte]` read through `readByte`;
`none` records an out-of-bounds read. -/
def extract_le_step_checked (data : List Nat) (start : Nat) (result : Option Nat) (k : Nat) :
    Option Nat :=
  match result with
  | none => none
  | some result =>
    let bit_index := (start + k) % 2 ^ 32
    let byte := bit_index / 8
    let bit := bit_index % 8
    if byte < data.length then
      match readByte data (byte : Int) with
      | none => none
      | some x => some (result ||| ((((x >>> bit) &&& 1) <<< k) % 2 ^ 64))
    else
      some result

/-- `extract_le` with checked payload access. -/
def extract_le_checked (data : List Nat) (start length : Nat) : Option Nat :=
  (List.range length).foldl (extract_le_step_checked data start) (some 0)

/-- One iteration of the loop of `extract_be`, with `data[byte]` read through `readByte`. -/
def extract_be_step_checked (data : List Nat) (st : Option (Nat × (Int × Int))) :
    Option (Nat × (Int × Int)) :=
  match st with
  | none => none
  | some st =>
    let result := st.1
    let byte := st.2.1
    let bit := st.2.2
    let v : Option Nat :=
      if byte ≥ 0 ∧ byte.toNat < data.length ∧ bit ≥ 0 ∧ bit ≤ 7 then
        (readByte data byte).map (fun x => (x >>> bit.toNat) &&& 1)
      else some 0
    match v with
    | none => none
    | some v =>
      let result := ((result <<< 1) % 2 ^ 64) ||| v
      let bit := bit - 1
      if bit < 0 then some (result, (byte - 1, 7)) else some (result, (byte, bit))

/-- `extract_be` with checked payload access. -/
def extract_be_checked (data : List Nat) (start length : Nat) : Option Nat :=
  ((extract_be_step_checked data)^[length]
    (some (0, (((start / 8 : Nat) : Int), 7 - ((start % 8 : Nat) : Int))))).map (fun st => st.1)

/-! ## Vocabulary of the statements -/

/-- A remainder at which a token ends: empty, or starting with whitespace. -/
def AtBreak (r : Str) : Prop := ∀ c, r.head? = some c → isspace c = true

/-- Text of a message line `BO_ <id> <name>: <dlc><rest>` without its indentation. -/
def boLine (idTxt name dlcTxt rest : Str) : Str :=
  "BO_ ".toList ++ (idTxt ++ (' ' :: (name ++ (':' :: ' ' :: (dlcTxt ++ rest)))))

/-- Text of a bit-spec token `<start>|<length>@<endian><sign>`. -/
def bitSpec (startTxt lenTxt : Str) (e s : Char) : Str :=
  startTxt ++ ('|' :: (lenTxt ++ ['@', e, s]))

/-- Text of a signal line `SG_ <name><mid>: <bitspec><rest>` without its indentation; `mid`
is what stands between the name and the colon (a blank, or a multiplex marker between
blanks). -/
def sgLine (name mid bitspec rest : Str) : Str :=
  "SG_ ".toList ++ (name ++ (mid ++ (':' :: ' ' :: (bitspec ++ rest))))

/-- Value of a decimal numeral: the number a run of digits `0`..`9` denotes. -/
def decVal (t : Str) : Nat := t.foldl (fun acc c => acc * 10 + (c.toNat - 48)) 0

/-- A decimal numeral: a non-empty run of digits `0`..`9`. -/
def isDigits (t : Str) : Bool := !t.isEmpty && t.all Char.isDigit

/-- A number in the notation the fallback regex recognises: an optional sign followed by a
non-empty run of digits, dots and exponent letters. -/
def isNumberToken (t : Str) : Bool :=
  match t with
  | [] => false
  | c :: r =>
    if c = '-' ∨ c = '+' then !r.isEmpty && r.all isNumClass
    else (c :: r).all isNumClass

/-- A plain token: non-empty, without blanks, parentheses or commas. -/
def isPlainToken (t : Str) : Bool :=
  !t.isEmpty && t.all (fun c => !isspace c && c != '(' && c != ')' && c != ',')

/-- A signal line of the grammar,
`<lead>SG_ <name><mid>: <start>|<length>@<e><s> (<sc>,<off>)<tail>`, by its pieces. -/
structure SgLineSpec where
  lead : Str
  name : Str
  mid : Str
  startTxt : Str
  lenTxt : Str
  e : Char
  s : Char
  sc : Str
  off : Str
  tail : Str

/-- The text of the line. -/
def SgLineSpec.text (l : SgLineSpec) : Str :=
  l.lead ++ sgLine l.name l.mid (bitSpec l.startTxt l.lenTxt l.e l.s)
    (' ' :: '(' :: (l.sc ++ ',' :: (l.off ++ ')' :: l.tail)))

/-- Well-formedness of a signal line: blank indentation; a non-empty name without blanks or
colon; between name and colon a text without colon that is empty or starts with a blank
(a blank, or a multiplex marker between blanks); start and length decimal numerals below
`2 ^ 16`; endian flag `0` or `1`, sign flag `+` or `-`; scale and offset plain tokens that
`std::stod` converts, and that either both have the notation the fallback regex recognises
or do not compare equal to the defaults 1 and 0 (the condition under which the fallback
runs). -/
structure SgLineSpec.WellFormed (stod : Str → Option Float) (l : SgLineSpec) : Prop where
  lead_blank : ∀ c ∈ l.lead, isTrimChar c = true
  name_ne : l.name ≠ []
  name_plain : ∀ c ∈ l.name, isspace c = false ∧ c ≠ ':'
  mid_break : AtBreak l.mid
  mid_plain : ∀ c ∈ l.mid, c ≠ ':'
  start_digits : isDigits l.startTxt = true
  start_fits : decVal l.startTxt < 2 ^ 16
  len_digits : isDigits l.lenTxt = true
  len_fits : decVal l.lenTxt < 2 ^ 16
  endian_flag : l.e = '0' ∨ l.e = '1'
  sign_flag : l.s = '+' ∨ l.s = '-'
  scale_plain : isPlainToken l.sc = true
  offset_plain : isPlainToken l.off = true
  scale_conv : (stod l.sc).isSome = true
  offset_conv : (stod l.off).isSome = true
  fallback_safe : (isNumberToken l.sc = true ∧ isNumberToken l.off = true) ∨
    ((stod l.sc).getD 1.0 == 1.0 && (stod l.off).getD 0.0 == 0.0) = false

/-- The signal a well-formed signal line denotes. -/
def SgLineSpec.signal (stod : Str → Option Float) (l : SgLineSpec) : Signal :=
  ⟨l.name, decVal l.startTxt, decVal l.lenTxt, l.e == '1', l.s == '-',
    (stod l.sc).getD 1.0, (stod l.off).getD 0.0⟩

/-- A message line of the grammar, `<lead>BO_ <id> <name>: <dlc><rest>`, by its pieces. -/
structure BoLineSpec where
  lead : Str
  idTxt : Str
  name : Str
  dlcTxt : Str
  rest : Str

/-- The text of the line. -/
def BoLineSpec.text (b : BoLineSpec) : Str :=
  b.lead ++ boLine b.idTxt b.name b.dlcTxt b.rest

/-- Well-formedness of a message line with identifier `id`: blank indentation; identifier,
name and length tokens without blanks, the identifier and length tokens non-empty; the rest
empty or starting with a blank; `std::stoul` in base 0 converts the identifier token, to
`id` after the cast to `uint32_t`. -/
structure BoLineSpec.WellFormed (b : BoLineSpec) (id : Nat) : Prop where
  lead_blank : ∀ c ∈ b.lead, isTrimChar c = true
  id_ne : b.idTxt ≠ []
  id_plain : ∀ c ∈ b.idTxt, isspace c = false
  name_plain : ∀ c ∈ b.name, isspace c = false
  dlc_ne : b.dlcTxt ≠ []
  dlc_plain : ∀ c ∈ b.dlcTxt, isspace c = false
  rest_break : AtBreak b.rest
  id_conv : (stoul b.idTxt 0).toOption.map (· % 2 ^ 32) = some id

/-- The declared length the `BO_` branch stores: the converted token cast to `uint8_t`, or
the fallback 8. -/
def BoLineSpec.dlc (b : BoLineSpec) : Nat :=
  match stoul b.dlcTxt 10 with
  | .ok d => d % 2 ^ 8
  | .error _ => 8

/-- The catalog entry a well-formed message line creates. -/
def BoLineSpec.message (b : BoLineSpec) (id : Nat) : Message :=
  ⟨id, b.name, b.dlc, []⟩

/-- What a parse leaves in the catalog under `id`, reduced to its comparable part: the
message name, the declared length and the signal names in order; `none` when the parse threw
or the identifier is absent. -/
def catalogEntry (r : Except StdExn ParseOutcome) (id : Nat) : Option (Str × Nat × List Str) :=
  match r with
  | .error _ => none
  | .ok o => (o.out.msgs id).map (fun m => (m.name, m.dlc, m.signals.map (fun s => s.name)))

/-- The count returned and the signal names written, in order, when a frame is decoded
against the catalog of a parse. -/
def emittedNames (r : Except StdExn ParseOutcome) (can_id : Nat) (data : List Nat) :
    Option (Nat × List Str) :=
  match r with
  | .error _ => none
  | .ok o =>
    let res := decode_frame_and_write o.out can_id 0.0 data []
    some (res.1, res.2.map (fun l => l.name))

/-- The raw unsigned value of the signal named `name` of message `can_id` in the catalog of a
parse. -/
def rawOf (r : Except StdExn ParseOutcome) (can_id : Nat) (name : Str) (data : List Nat) :
    Option Nat :=
  match r with
  | .error _ => none
  | .ok o =>
    match o.out.msgs can_id with
    | none => none
    | some m => (m.signals.find? (fun s => s.name == name)).map (fun s => rawUnsigned s data)

/-- The database of the multiplexing scenario: one switch signal `Sw` (marker `M`) in byte 0
and two multiplexed signals `A` (`m0`) and `B` (`m1`) in byte 1. -/
def muxDb : List Str :=
  ["BO_ 256 Msg: 8 ECU".toList,
   " SG_ Sw M : 0|8@1+ (1,0) [0|255] \"\" ECU".toList,
   " SG_ A m0 : 8|8@1+ (1,0) [0|255] \"\" ECU".toList,
   " SG_ B m1 : 8|8@1+ (1,0) [0|255] \"\" ECU".toList]

/-- The message line `BO_ 256 Msg: 8 ECU` of the tests. -/
def boMsg256 : BoLineSpec := ⟨[], "256".toList, "Msg".toList, "8".toList, " ECU".toList⟩

/-- The message line `BO_ 512 Msg: 8 ECU` of the tests. -/
def boMsg512 : BoLineSpec := ⟨[], "512".toList, "Msg".toList, "8".toList, " ECU".toList⟩

/-- The signal line ` SG_ SigLE : 0|16@1+ (0.1,0) [0|6553.5] "u" ECU` of the tests. -/
def sgSigLE : SgLineSpec :=
  ⟨" ".toList, "SigLE".toList, " ".toList, "0".toList, "16".toList, '1', '+',
    "0.1".toList, "0".toList, " [0|6553.5] \"u\" ECU".toList⟩

/-- The signal line ` SG_ SigBE : 0|12@0- (1,0) [-2048|2047] "" ECU` of the tests. -/
def sgSigBE : SgLineSpec :=
  ⟨" ".toList, "SigBE".toList, " ".toList, "0".toList, "12".toList, '0', '-',
    "1".toList, "0".toList, " [-2048|2047] \"\" ECU".toList⟩

/-- The signal line ` SG_ A m0 : 8|8@1+ (1,0) [0|255] "" ECU`, with a multiplex marker. -/
def sgMuxA : SgLineSpec :=
  ⟨" ".toList, "A".toList, " m0 ".toList, "8".toList, "8".toList, '1', '+',
    "1".toList, "0".toList, " [0|255] \"\" ECU".toList⟩

/-- The bit lengths of the signals a parse leaves under `id`, in order. -/
def bitLens (r : Except StdExn ParseOutcome) (id : Nat) : Option (List Nat) :=
  match r with
  | .error _ => none
  | .ok o => (o.out.msgs id).map (fun m => m.signals.map (fun s => s.bit_len))

/-- The return value and the error detail string of a parse that returned. -/
def errOf (r : Except StdExn ParseOutcome) : Option (Bool × Str) :=
  match r with
  | .error _ => none
  | .ok o => some (o.ok, o.err)

/-- The bound the type of `bit_len` (`uint16_t`) puts on every signal of a catalog. -/
def Network.BitLenBounded (net : Network) : Prop :=
  ∀ id m s, net.msgs id = some m → s ∈ m.signals → s.bit_len < 2 ^ 16

/-- A hexadecimal digit: `0`..`9`, `a`..`f` or `A`..`F`. -/
def isHexDigit (c : Char) : Bool :=
  (48 ≤ c.toNat && c.toNat ≤ 57) || (97 ≤ c.toNat && c.toNat ≤ 102) ||
    (65 ≤ c.toNat && c.toNat ≤ 70)

/-- Value of a hexadecimal digit. -/
def hexDigitVal (c : Char) : Nat :=
  if c.toNat ≤ 57 then c.toNat - 48 else if 97 ≤ c.toNat then c.toNat - 87 else c.toNat - 55

/-- A non-empty run of hexadecimal digits. -/
def isHexDigits (t : Str) : Bool := !t.isEmpty && t.all isHexDigit

/-- Value of a hexadecimal numeral. -/
def hexVal (t : Str) : Nat := t.foldl (fun acc c => acc * 16 + hexDigitVal c) 0

/-- The number an identifier token denotes in the database grammar: the hexadecimal value
of `0x` followed by hexadecimal digits, the decimal value of a decimal numeral written
without a leading zero (the numeral `0` included); `none` for any other token. -/
def idTokenValue (t : Str) : Option Nat :=
  match t with
  | '0' :: 'x' :: hs => if isHexDigits hs then some (hexVal hs) else none
  | _ => if isDigits t && (t.head? != some '0' || t == ['0']) then some (decVal t) else none

/-- The shape of a message line apart from its identifier token: blank indentation, a name
without blanks, a non-empty length token without blanks, the rest empty or starting with a
blank. -/
structure BoLineSpec.Shaped (b : BoLineSpec) : Prop where
  lead_blank : ∀ c ∈ b.lead, isTrimChar c = true
  name_plain : ∀ c ∈ b.name, isspace c = false
  dlc_ne : b.dlcTxt ≠ []
  dlc_plain : ∀ c ∈ b.dlcTxt, isspace c = false
  rest_break : AtBreak b.rest

/-- The message line `BO_ 0x705 Msg: 8 ECU`, with a hexadecimal identifier. -/
def boMsgHex705 : BoLineSpec := ⟨[], "0x705".toList, "Msg".toList, "8".toList, " ECU".toList⟩

/-- The byte `x` with bit `bit` set to `b` and every other bit kept. -/
def writeBit (x bit : Nat) (b : Bool) : Nat :=
  if x.testBit bit = b then x else x ^^^ 2 ^ bit

/-- The payload with bit `bit` of byte `byte` set to `b`; a byte index outside the payload
writes nothing. -/
def setPayloadBit (data : List Nat) (byte bit : Nat) (b : Bool) : List Nat :=
  data.set byte (writeBit (data.getD byte 0) bit b)

/-- The encoder of the little-endian round trip: bit `k` of `v` is written into absolute bit
`s + k` of the payload (byte `(s + k) / 8`, bit `(s + k) % 8`), for every `k < n`. -/
def encode_le (data : List Nat) (s n v : Nat) : List Nat :=
  (List.range n).foldl
    (fun d k => setPayloadBit d ((s + k) / 8) ((s + k) % 8) (v.testBit k)) data

/-- The payload with the bit at a position with signed byte index set to `b`; a negative
byte index writes nothing. -/
def setPayloadBitAt (data : List Nat) (pos : Int × Int) (b : Bool) : List Nat :=
  if 0 ≤ pos.1 then setPayloadBit data pos.1.toNat pos.2.toNat b else data

/-- The first `m` writes of the big-endian encoder of an `n`-bit value: the `i`-th bit of `v`
counted from its most significant bit (bit `n - 1 - i`) goes to the `i`-th position of the
Motorola walk from `s`. -/
def encode_be_upto (data : List Nat) (s n v m : Nat) : List Nat :=
  (List.range m).foldl
    (fun d i => setPayloadBitAt d (be_pos s i) (v.testBit (n - 1 - i))) data

/-- The encoder of the big-endian round trip: the bits of `v`, most significant first, are
written along the Motorola walk from `s`. -/
def encode_be (data : List Nat) (s n v : Nat) : List Nat :=
  encode_be_upto data s n v n

/-- The message line `BO_ 256 Other: 4 ECU`: the identifier of `boMsg256` with another name
and length. -/
def boMsg256b : BoLineSpec := ⟨[], "256".toList, "Other".toList, "4".toList, " ECU".toList⟩


/-- The shape of a signal line that the field conversions of the `SG_` branch rely on: blank
indentation; a non-empty name without blanks or colon; between name and colon a text without
colon that is empty or starts with a blank; start and length decimal numerals that
`std::stoul` converts (value below `2 ^ 64`, no other bound); endian flag `0` or `1`, sign
flag `+` or `-`. Nothing is required of the scale/offset pair or of the text after it. -/
structure SgLineSpec.Shaped (l : SgLineSpec) : Prop where
  lead_blank : ∀ c ∈ l.lead, isTrimChar c = true
  name_ne : l.name ≠ []
  name_plain : ∀ c ∈ l.name, isspace c = false ∧ c ≠ ':'
  mid_break : AtBreak l.mid
  mid_plain : ∀ c ∈ l.mid, c ≠ ':'
  start_digits : isDigits l.startTxt = true
  start_conv : decVal l.startTxt < 2 ^ 64
  len_digits : isDigits l.lenTxt = true
  len_conv : decVal l.lenTxt < 2 ^ 64
  endian_flag : l.e = '0' ∨ l.e = '1'
  sign_flag : l.s = '+' ∨ l.s = '-'

/-- The text `right` of the `SG_` branch for a signal line: what follows the colon,
trimmed. -/
def SgLineSpec.right (l : SgLineSpec) : Str :=
  bitSpec l.startTxt l.lenTxt l.e l.s ++
    (' ' :: '(' :: (l.sc ++ ',' :: (l.off ++ ')' :: l.tail))).rdropWhile isTrimChar

/-- The signal the `SG_` branch builds from a signal line: the name of the line, start and
length numerals cast to `uint16_t`, the flags compared with `1` and `-`, scale and offset as
the scale/offset part of the branch reads them from `right`. -/
def SgLineSpec.stored (stod : Str → Option Float) (l : SgLineSpec) : Signal :=
  ⟨l.name, decVal l.startTxt % 2 ^ 16, decVal l.lenTxt % 2 ^ 16, l.e == '1', l.s == '-',
    (parse_scale_offset stod l.right).1, (parse_scale_offset stod l.right).2⟩

/-- The signal line ` SG_ S : 0|8@1+ (1e+0,0) [0|1] "(2,3)" ECU`: scale 1 written with an
exponent, offset 0, and a unit text that contains a parenthesised pair. -/
def sgFallback : SgLineSpec :=
  ⟨" ".toList, "S".toList, " ".toList, "0".toList, "8".toList, '1', '+',
    "1e+0".toList, "0".toList, " [0|1] \"(2,3)\" ECU".toList⟩

/-- The signal line ` SG_ W : 0|70000@1+ (1,0) [0|1] "" ECU`, with a length above the range
of `uint16_t`. -/
def sgWide : SgLineSpec :=
  ⟨" ".toList, "W".toList, " ".toList, "0".toList, "70000".toList, '1', '+',
    "1".toList, "0".toList, " [0|1] \"\" ECU".toList⟩
end stage4

/-! # Dump-line reader and library-based decoder (namespace `rbk` of `can_decode.cpp`)

`parse_line` and `canonical_iface` are embedded as they stand. `decode_and_write` works on
the types of the third-party library dbcppp, which is not part of the repository: the
functions of `dbcppp::ISignal` and `dbcppp::IMessage` it calls are fields of the structures
`ISignal` and `IMessage`, so every statement holds whatever the library computes.
-/

namespace rbk

open stage4 (Str StdExn OutLine isspace stoul digitVal isHexDigit hexDigitVal hexVal isDigits
  isHexDigits)

/-- `struct ParsedLine`. `can_id` is `uint32_t`. -/
structure ParsedLine where
  timestamp : Float
  iface : Str
  can_id : Nat
  data : List Nat

/-- `canonical_iface(s)`. -/
def canonical_iface (s : Str) : Str :=
  if s = "can0".toList ∨ s = "vcan0".toList then "can0".toList
  else if s = "can1".toList ∨ s = "vcan1".toList then "can1".toList
  else if s = "can2".toList ∨ s = "vcan2".toList then "can2".toList
  else s

/-- The class `[A-Za-z0-9_]`. -/
def isWordChar (c : Char) : Bool :=
  c.isAlphanum || c == '_'

/-- A literal character of the pattern at the head of `s`: the text after it. -/
def expectChar (c : Char) (s : Str) : Option Str :=
  match s with
  | x :: r => if x = c then some r else none
  | [] => none

/-- A piece `[class]+` of the pattern at the head of `s`, matched greedily: the run and the
text after it. -/
def takeRun (p : Char → Bool) (s : Str) : Option (Str × Str) :=
  if (s.takeWhile p).isEmpty then none else some (s.takeWhile p, s.dropWhile p)

/-- `std::regex_match` of the whole line against
`^\(([\d]+\.[\d]+)\)\s+([A-Za-z0-9_]+)\s+([0-9A-Fa-f]+)#([0-9A-Fa-f]+)\s*$`, returning the
four captures. Each piece is followed by a character outside its class (or by the end of the
line), so the greedy match is the only candidate and no backtracking is involved. -/
def dump_regex_match (line : Str) : Option (Str × Str × Str × Str) := do
  let r ← expectChar '(' line
  let (d1, r) ← takeRun Char.isDigit r
  let r ← expectChar '.' r
  let (d2, r) ← takeRun Char.isDigit r
  let r ← expectChar ')' r
  let (_, r) ← takeRun isspace r
  let (m2, r) ← takeRun isWordChar r
  let (_, r) ← takeRun isspace r
  let (m3, r) ← takeRun isHexDigit r
  let r ← expectChar '#' r
  let (m4, r) ← takeRun isHexDigit r
  if (r.dropWhile isspace).isEmpty then some (d1 ++ '.' :: d2, m2, m3, m4) else none

/-- `ss << std::hex << s; ss >> id_hex` for a `uint32_t` and a text `s` of hexadecimal
digits: the value of the digits when it fits 32 bits; otherwise the extraction fails and
stores the largest `uint32_t`. -/
def read_hex_uint32 (s : Str) : Nat :=
  if s.foldl (fun acc c => acc * 16 + digitVal c) 0 < 2 ^ 32 then
    s.foldl (fun acc c => acc * 16 + digitVal c) 0
  else 2 ^ 32 - 1

/-- The loop `for (i = 0; i + 1 < hex.size(); i += 2)` of `parse_line`: each pair of
characters is converted by `std::stoul(byte_str, nullptr, 16)` and cast to `uint8_t`; a last
single character is left out. -/
def hex_bytes : Str → Except StdExn (List Nat)
  | a :: b :: r =>
    match stoul [a, b] 16 with
    | .error e => .error e
    | .ok v =>
      match hex_bytes r with
      | .error e => .error e
      | .ok rest => .ok (v % 2 ^ 8 :: rest)
  | _ => .ok []

/-- `parse_line(line, out)`: `.ok none` is the return value false (`out` untouched),
`.ok (some pl)` is true with `out = pl`, `.error` is an exception leaving the function.
`stod s = none` stands for `std::stod` throwing. -/
def parse_line (stod : Str → Option Float) (line : Str) : Except StdExn (Option ParsedLine) :=
  match dump_regex_match line with
  | none => .ok none
  | some (m1, m2, m3, m4) =>
    match stod m1 with
    | none => .error .out_of_range
    | some ts =>
      match hex_bytes m4 with
      | .error e => .error e
      | .ok data => .ok (some ⟨ts, canonical_iface m2, read_hex_uint32 m3, data⟩)

/-- `dbcppp::ISignal::EMultiplexer`. -/
inductive EMultiplexer where
  | NoMux
  | MuxSwitch
  | MuxValue
  deriving DecidableEq

/-- The part of `dbcppp::ISignal` that `decode_and_write` uses. `Decode` maps the 64-byte
buffer to the raw value, `RawToPhys` the raw value to the physical value. -/
structure ISignal where
  Name : Str
  MultiplexerIndicator : EMultiplexer
  MultiplexerSwitchValue : Nat
  Decode : List Nat → Nat
  RawToPhys : Nat → Float

/-- The part of `dbcppp::IMessage` that `decode_and_write` uses; `MuxSignal` is the mux
switch signal of the message, `none` for a null pointer. -/
structure IMessage where
  Id : Nat
  Signals : List ISignal
  MuxSignal : Option ISignal

/-- `MsgMap`: message id to message pointer. -/
abbrev MsgMap := Nat → Option IMessage

/-- `uint8_t data_buf[64] = {0}` after the `memcpy` of the first
`min(pl.data.size(), 64)` payload bytes. -/
def data_buf (data : List Nat) : List Nat :=
  data.take 64 ++ List.replicate (64 - min data.length 64) 0

/-- The flag `take` of the loop of `decode_and_write` for the signal `sig`. -/
def take_signal (msg : IMessage) (buf : List Nat) (sig : ISignal) : Bool :=
  if sig.MultiplexerIndicator = EMultiplexer.MuxValue then
    match msg.MuxSignal with
    | some mux_sig => decide (mux_sig.Decode buf = sig.MultiplexerSwitchValue)
    | none => false
  else true

/-- `decode_and_write(pl, net, mmap, os)`: the returned count and the output stream
afterwards (`os` is the stream before the call; `net` is unused by the source). -/
def decode_and_write (pl : ParsedLine) (mmap : MsgMap) (os : List OutLine) :
    Nat × List OutLine :=
  match mmap pl.can_id with
  | none => (0, os)
  | some msg =>
    msg.Signals.foldl
      (fun (acc : Nat × List OutLine) sig =>
        if take_signal msg (data_buf pl.data) sig then
          (acc.1 + 1,
            acc.2 ++ [⟨pl.timestamp, sig.Name, sig.RawToPhys (sig.Decode (data_buf pl.data))⟩])
        else acc)
      (0, os)

/-! ## Vocabulary of the statements about `rbk` -/

/-- A dump line `(<d1>.<d2>)<ws1><iface><ws2><hexid>#<hexdata><ws3>` by its pieces. -/
structure DumpLineSpec where
  d1 : Str
  d2 : Str
  ws1 : Str
  iface : Str
  ws2 : Str
  hexid : Str
  hexdata : Str
  ws3 : Str

/-- The text of the line. -/
def DumpLineSpec.text (l : DumpLineSpec) : Str :=
  '(' :: (l.d1 ++ '.' :: (l.d2 ++ ')' :: (l.ws1 ++ (l.iface ++ (l.ws2 ++
    (l.hexid ++ '#' :: (l.hexdata ++ l.ws3)))))))

/-- Well-formedness of a dump line: the two parts of the timestamp are decimal numerals,
the blanks between the fields are non-empty runs of whitespace, the interface name is a
non-empty run of letters, digits and underscores, identifier and data are non-empty runs of
hexadecimal digits, the identifier fits 32 bits, and only whitespace follows the data. -/
structure DumpLineSpec.WellFormed (l : DumpLineSpec) : Prop where
  d1_digits : isDigits l.d1 = true
  d2_digits : isDigits l.d2 = true
  ws1_ne : l.ws1 ≠ []
  ws1_blank : ∀ c ∈ l.ws1, isspace c = true
  iface_ne : l.iface ≠ []
  iface_word : ∀ c ∈ l.iface, isWordChar c = true
  ws2_ne : l.ws2 ≠ []
  ws2_blank : ∀ c ∈ l.ws2, isspace c = true
  id_hex : isHexDigits l.hexid = true
  id_fits : hexVal l.hexid < 2 ^ 32
  data_hex : isHexDigits l.hexdata = true
  ws3_blank : ∀ c ∈ l.ws3, isspace c = true

/-- The selection rule of the specification: a signal is written when it is not a
`MuxValue` signal, or the message has a mux switch signal whose decoded value on the buffer
equals the signal's multiplexer switch value. -/
def Selected (msg : IMessage) (buf : List Nat) (sig : ISignal) : Prop :=
  sig.MultiplexerIndicator ≠ EMultiplexer.MuxValue ∨
    ∃ mux, msg.MuxSignal = some mux ∧ mux.Decode buf = sig.MultiplexerSwitchValue

/-- A library signal that decodes byte `i` of the buffer, for the examples. -/
def byteSignal (name : Str) (ind : EMultiplexer) (v i : Nat) : ISignal :=
  ⟨name, ind, v, fun buf => buf.getD i 0, fun raw => Float.ofNat raw⟩

/-- A message with the switch `Sw` in byte 0 and the multiplexed signals `A` (value 0) and
`B` (value 1) in byte 1, followed by the plain signal `C` in byte 2. -/
def exMuxMsg : IMessage :=
  ⟨0x100,
    [byteSignal "Sw".toList .MuxSwitch 0 0, byteSignal "A".toList .MuxValue 0 1,
      byteSignal "B".toList .MuxValue 1 1, byteSignal "C".toList .NoMux 0 2],
    some (byteSignal "Sw".toList .MuxSwitch 0 0)⟩

end rbk

namespace stage4

/-! ## Lemmas on the little-endian extractor -/

theorem testBit_and_one (x j : Nat) : (x &&& 1).testBit j = (decide (j = 0) && x.testBit 0) := by
  rw [Nat.testBit_and]
  cases j with
  | zero => simp
  | succ j =>
    have h1 : Nat.testBit 1 (j + 1) = false := by
      rw [Nat.testBit_succ]; simp
    simp [h1]

theorem extract_le_step_testBit (data : List Nat) (start result k j : Nat)
    (hs : start < 2 ^ 16) (hk : k < 64) :
    (extract_le_step data start result k).testBit j =
      (result.testBit j || (decide (j = k) && payloadBit data ((start + k) / 8) ((start + k) % 8))) := by
  have hmod : (start + k) % 2 ^ 32 = start + k := Nat.mod_eq_of_lt (by norm_num at hs ⊢; omega)
  unfold extract_le_step payloadBit
  simp only [hmod]
  by_cases hb : (start + k) / 8 < data.length
  · simp only [hb, if_true]
    rw [Nat.testBit_or, Nat.testBit_mod_two_pow, Nat.testBit_shiftLeft, testBit_and_one,
      Nat.testBit_shiftRight]
    by_cases hjk : j = k
    · subst hjk
      simp [hk]
    · by_cases hge : j ≥ k
      · have : j - k ≠ 0 := by omega
        simp [hjk, this]
      · simp [hjk, hge]
  · simp [hb]

theorem extract_le_testBit (data : List Nat) (start : Nat) (hs : start < 2 ^ 16) :
    ∀ (length : Nat), length ≤ 64 → ∀ j,
      (extract_le data start length).testBit j =
        (decide (j < length) && payloadBit data ((start + j) / 8) ((start + j) % 8)) := by
  intro length
  induction length with
  | zero => intro _ j; simp [extract_le]
  | succ n ih =>
    intro hn j
    have ih' := ih (by omega) j
    unfold extract_le at ih' ⊢
    rw [List.range_succ, List.foldl_append, List.foldl_cons, List.foldl_nil,
      extract_le_step_testBit data start _ n j hs (by omega), ih']
    by_cases hjn : j = n
    · subst hjn; simp
    · by_cases hlt : j < n
      · have : j < n + 1 := by omega
        simp [hlt, this, hjn]
      · have : ¬ j < n + 1 := by omega
        simp [hlt, this, hjn]

/-! ## Lemmas on the big-endian extractor -/

theorem be_pos_succ (start i : Nat) : be_pos start (i + 1) = be_dec (be_pos start i) := by
  unfold be_pos
  rw [Function.iterate_succ_apply']

theorem be_pos_bit_range (start : Nat) : ∀ i, 0 ≤ (be_pos start i).2 ∧ (be_pos start i).2 ≤ 7 := by
  intro i
  induction i with
  | zero => simp only [be_pos, Function.iterate_zero, id]; omega
  | succ i ih =>
    rw [be_pos_succ]
    unfold be_dec
    split
    · simp
    · simp only; omega

theorem extract_be_iter (data : List Nat) (start : Nat) :
    ∀ n, n ≤ 64 →
      ((extract_be_step data)^[n]
          (0, (((start / 8 : Nat) : Int), 7 - ((start % 8 : Nat) : Int)))).2 = be_pos start n ∧
      ∀ j, ((extract_be_step data)^[n]
          (0, (((start / 8 : Nat) : Int), 7 - ((start % 8 : Nat) : Int)))).1.testBit j =
        (decide (j < n) && payloadBitAt data (be_pos start (n - 1 - j))) := by
  intro n
  induction n with
  | zero => intro _; simp [be_pos]
  | succ n ih =>
    intro hn
    obtain ⟨hpos, hbits⟩ := ih (by omega)
    rw [Function.iterate_succ_apply']
    generalize (extract_be_step data)^[n]
      (0, (((start / 8 : Nat) : Int), 7 - ((start % 8 : Nat) : Int))) = st at hpos hbits
    obtain ⟨r, byte, bit⟩ := st
    simp only at hpos hbits
    have hrange := be_pos_bit_range start n
    rw [← hpos] at hrange
    simp only at hrange
    constructor
    · rw [be_pos_succ, ← hpos]
      unfold extract_be_step be_dec
      simp only
      by_cases hb : bit = 0
      · subst hb; simp
      · have : ¬ (bit - 1 < 0) := by omega
        simp [hb, this]
    · intro j
      have hv : ∀ j, (if byte ≥ 0 ∧ byte.toNat < data.length ∧ bit ≥ 0 ∧ bit ≤ 7 then
            (data.getD byte.toNat 0 >>> bit.toNat) &&& 1 else 0).testBit j =
          (decide (j = 0) && payloadBitAt data (be_pos start n)) := by
        intro j
        rw [← hpos]
        unfold payloadBitAt
        simp only
        by_cases hc : 0 ≤ byte ∧ byte.toNat < data.length
        · have hc' : byte ≥ 0 ∧ byte.toNat < data.length ∧ bit ≥ 0 ∧ bit ≤ 7 :=
            ⟨hc.1, hc.2, hrange.1, hrange.2⟩
          rw [if_pos hc', if_pos hc, testBit_and_one, Nat.testBit_shiftRight]
          simp
        · have hc' : ¬ (byte ≥ 0 ∧ byte.toNat < data.length ∧ bit ≥ 0 ∧ bit ≤ 7) := by
            intro h; exact hc ⟨h.1, h.2.1⟩
          rw [if_neg hc', if_neg hc]
          simp
      have hres : (extract_be_step data (r, byte, bit)).1 =
          ((r <<< 1) % 2 ^ 64) ||| (if byte ≥ 0 ∧ byte.toNat < data.length ∧ bit ≥ 0 ∧ bit ≤ 7 then
            (data.getD byte.toNat 0 >>> bit.toNat) &&& 1 else 0) := by
        unfold extract_be_step
        simp only
        split <;> rfl
      rw [hres, Nat.testBit_or, hv, Nat.testBit_mod_two_pow, Nat.testBit_shiftLeft]
      cases j with
      | zero => simp
      | succ j =>
        rw [Nat.add_sub_cancel, hbits j]
        have e1 : n + 1 - 1 - (j + 1) = n - 1 - j := by omega
        rw [e1]
        by_cases hj : j < n
        · have h1 : j + 1 < 64 := by omega
          simp [hj, h1]
        · simp [hj]

/-! ## Lemmas on masking and sign extension -/

theorem mask_nbits_eq (n : Nat) (h : n ≤ 64) : mask_nbits n = 2 ^ n - 1 := by
  unfold mask_nbits
  by_cases h64 : n = 64
  · simp [h64]
  · have hlt : n < 64 := by omega
    have hp : 2 ^ n < 2 ^ 64 := Nat.pow_lt_pow_right (by decide) hlt
    have hpos : 0 < 2 ^ n := Nat.two_pow_pos n
    rw [if_neg h64, Nat.one_shiftLeft, Nat.mod_eq_of_lt hp]
    have e : 2 ^ n + (2 ^ 64 - 1) = (2 ^ n - 1) + 2 ^ 64 := by omega
    rw [e, Nat.add_mod_right, Nat.mod_eq_of_lt (by omega)]

theorem and_two_pow_ne_zero_iff (u k : Nat) : u &&& 2 ^ k ≠ 0 ↔ u.testBit k = true := by
  constructor
  · intro h
    by_contra hb
    apply h
    apply Nat.eq_of_testBit_eq
    intro i
    rw [Nat.testBit_and, Nat.testBit_two_pow, Nat.zero_testBit]
    by_cases hki : k = i
    · subst hki; simp [hb]
    · simp [hki]
  · intro hb h
    have := congrArg (fun x => Nat.testBit x k) h
    simp [Nat.testBit_and, Nat.testBit_two_pow, hb] at this

theorem testBit_top_iff (u n : Nat) (hn : 1 ≤ n) (hu : u < 2 ^ n) :
    u.testBit (n - 1) = true ↔ 2 ^ (n - 1) ≤ u := by
  constructor
  · intro h; exact Nat.testBit_implies_ge h
  · intro h
    obtain ⟨i, hi, hbit⟩ := Nat.ge_two_pow_implies_high_bit_true h
    have hlt : i < n := by
      by_contra hge
      have : u < 2 ^ i := lt_of_lt_of_le hu (Nat.pow_le_pow_right (by decide) (by omega))
      rw [Nat.testBit_lt_two_pow this] at hbit
      exact Bool.noConfusion hbit
    have : i = n - 1 := by omega
    rw [← this]; exact hbit

theorem sign_extend_eq (u n : Nat) (hn : 1 ≤ n) (h64 : n ≤ 64) (hu : u < 2 ^ n)
    (htop : 2 ^ (n - 1) ≤ u) :
    toInt64 (u ||| (2 ^ 64 - 1 - (2 ^ n - 1))) = (u : Int) - 2 ^ n := by
  have hle : 2 ^ n ≤ 2 ^ 64 := Nat.pow_le_pow_right (by decide) h64
  have hpos : 0 < 2 ^ n := Nat.two_pow_pos n
  have hmul : 2 ^ 64 - 1 - (2 ^ n - 1) = 2 ^ n * (2 ^ (64 - n) - 1) := by
    have : 2 ^ n * 2 ^ (64 - n) = 2 ^ 64 := by rw [← Nat.pow_add]; congr 1; omega
    rw [Nat.mul_sub, this]; omega
  have hor : u ||| (2 ^ 64 - 1 - (2 ^ n - 1)) = u + (2 ^ 64 - 2 ^ n) := by
    rw [hmul, Nat.lor_comm, ← Nat.mul_add_lt_is_or hu]
    have : 2 ^ n * 2 ^ (64 - n) = 2 ^ 64 := by rw [← Nat.pow_add]; congr 1; omega
    rw [Nat.mul_sub, this]; omega
  have hhalf : 2 ^ n = 2 * 2 ^ (n - 1) := by
    rw [← Nat.pow_succ']; congr 1; omega
  have h63 : 2 ^ (n - 1) ≤ 2 ^ 63 := Nat.pow_le_pow_right (by decide) (by omega)
  rw [hor]
  unfold toInt64
  have hlt : u + (2 ^ 64 - 2 ^ n) < 2 ^ 64 := by omega
  rw [Nat.mod_eq_of_lt hlt]
  have hge : ¬ (u + (2 ^ 64 - 2 ^ n) < 2 ^ 63) := by omega
  rw [if_neg hge]
  have e : ((2 : Int) ^ n) = ((2 ^ n : Nat) : Int) := by push_cast; rfl
  rw [e]
  generalize 2 ^ n = p at *
  omega

theorem toInt64_small (u : Nat) (h : u < 2 ^ 63) : toInt64 u = (u : Int) := by
  unfold toInt64
  have : u % 2 ^ 64 = u := Nat.mod_eq_of_lt (by omega)
  rw [this, if_pos h]

/-! ## Lemmas on strings and streams -/

theorem isspace_of_isTrimChar {c : Char} (h : isTrimChar c = true) : isspace c = true := by
  simp only [isTrimChar, Bool.or_eq_true, beq_iff_eq] at h
  simp only [isspace, Bool.or_eq_true, beq_iff_eq]
  rcases h with ((h | h) | h) | h <;> simp [h]

theorem not_isTrimChar_of_not_isspace {c : Char} (h : isspace c = false) : isTrimChar c = false := by
  cases h2 : isTrimChar c with
  | false => rfl
  | true => rw [isspace_of_isTrimChar h2] at h; exact Bool.noConfusion h

theorem rdropWhile_append_of_last (p : Char → Bool) (a b : Str) (ha : a ≠ [])
    (hl : p (a.getLast ha) = false) :
    (a ++ b).rdropWhile p = a ++ b.rdropWhile p := by
  induction b using List.reverseRecOn with
  | nil =>
    simp only [List.append_nil, List.rdropWhile_nil]
    rw [List.rdropWhile_eq_self_iff]
    intro _; simp [hl]
  | append_singleton b x ih =>
    rw [← List.append_assoc]
    by_cases hx : p x = true
    · rw [List.rdropWhile_concat_pos _ _ _ hx, List.rdropWhile_concat_pos _ _ _ hx, ih]
    · rw [List.rdropWhile_concat_neg _ _ _ hx, List.rdropWhile_concat_neg _ _ _ hx,
        List.append_assoc]

theorem atBreak_rdropWhile (p : Char → Bool) (r : Str) (h : AtBreak r) :
    AtBreak (r.rdropWhile p) := by
  intro c hc
  apply h
  obtain ⟨t, ht⟩ := List.rdropWhile_prefix p (l := r)
  cases hr : r.rdropWhile p with
  | nil => rw [hr] at hc; simp at hc
  | cons x xs =>
    rw [hr] at hc ht
    simp only [List.head?_cons, Option.some.injEq] at hc
    rw [← ht, ← hc]; rfl

theorem atBreak_nil : AtBreak [] := by
  intro c h; simp at h

theorem atBreak_cons {c : Char} (r : Str) (h : isspace c = true) : AtBreak (c :: r) := by
  intro d hd
  simp only [List.head?_cons, Option.some.injEq] at hd
  rw [← hd]; exact h

theorem dropWhile_eq_self_of_head (p : Char → Bool) (c : Char) (r : Str) (h : p c = false) :
    (c :: r).dropWhile p = c :: r := by
  simp [List.dropWhile_cons, h]

theorem takeWhile_token (tok rest : Str) (ht : ∀ c ∈ tok, isspace c = false) (hr : AtBreak rest) :
    (tok ++ rest).takeWhile (fun c => !isspace c) = tok := by
  induction tok with
  | nil =>
    cases rest with
    | nil => rfl
    | cons c r =>
      have := hr c rfl
      simp [List.takeWhile_cons, this]
  | cons x xs ih =>
    have hx := ht x (List.mem_cons_self _ _)
    simp only [List.cons_append, List.takeWhile_cons, hx, Bool.not_false, if_true]
    rw [ih (fun c hc => ht c (List.mem_cons_of_mem _ hc))]

theorem dropWhile_token (tok rest : Str) (ht : ∀ c ∈ tok, isspace c = false) (hr : AtBreak rest) :
    (tok ++ rest).dropWhile (fun c => !isspace c) = rest := by
  induction tok with
  | nil =>
    cases rest with
    | nil => rfl
    | cons c r =>
      have := hr c rfl
      simp [List.dropWhile_cons, this]
  | cons x xs ih =>
    have hx := ht x (List.mem_cons_self _ _)
    simp only [List.cons_append, List.dropWhile_cons, hx, Bool.not_false, if_true]
    rw [ih (fun c hc => ht c (List.mem_cons_of_mem _ hc))]

/-- Reading a token: after optional whitespace `sp`, a non-empty run `tok` of non-space
characters that ends at a break is extracted, and the stream stays `good()` exactly when
characters remain. -/
theorem read_token (sp tok rest : Str) (hsp : ∀ c ∈ sp, isspace c = true) (hne : tok ≠ [])
    (ht : ∀ c ∈ tok, isspace c = false) (hr : AtBreak rest) :
    IStream.read ⟨sp ++ (tok ++ rest), true⟩ = (tok, ⟨rest, !rest.isEmpty⟩) := by
  unfold IStream.read
  simp only [if_true]
  rw [List.dropWhile_append_of_pos hsp]
  cases tok with
  | nil => exact absurd rfl hne
  | cons x xs =>
    have hx := ht x (List.mem_cons_self _ _)
    have h1 : ((x :: xs) ++ rest).dropWhile isspace = (x :: xs) ++ rest := by
      simp [List.dropWhile_cons, hx]
    rw [h1]
    have h2 := takeWhile_token (x :: xs) rest ht hr
    have h3 := dropWhile_token (x :: xs) rest ht hr
    simp only [List.cons_append] at h2 h3 ⊢
    rw [h2, h3]

theorem find_append (c : Char) (a b : Str) (ha : ∀ x ∈ a, x ≠ c) :
    find c (a ++ c :: b) = some a.length := by
  induction a with
  | nil => simp [find]
  | cons x xs ih =>
    have hx := ha x (List.mem_cons_self _ _)
    have e : find c (x :: xs ++ c :: b) = (find c (xs ++ c :: b)).map (· + 1) := by
      show find c (x :: (xs ++ c :: b)) = _
      simp only [find, hx, if_false]
    rw [e, ih (fun y hy => ha y (List.mem_cons_of_mem _ hy))]
    rfl

theorem find_none (c : Char) (a : Str) (ha : ∀ x ∈ a, x ≠ c) : find c a = none := by
  induction a with
  | nil => rfl
  | cons x xs ih =>
    have hx := ha x (List.mem_cons_self _ _)
    simp only [find, hx, if_false]
    rw [ih (fun y hy => ha y (List.mem_cons_of_mem _ hy))]
    rfl

theorem trim_shape (lead core tail : Str) (hlead : ∀ c ∈ lead, isTrimChar c = true)
    (hne : core ≠ []) (hhead : ∀ c, core.head? = some c → isTrimChar c = false)
    (hlast : isTrimChar (core.getLast hne) = false) :
    trim (lead ++ (core ++ tail)) = core ++ tail.rdropWhile isTrimChar := by
  unfold trim
  rw [List.dropWhile_append_of_pos hlead]
  cases core with
  | nil => exact absurd rfl hne
  | cons x xs =>
    have hx := hhead x rfl
    have h1 : ((x :: xs) ++ tail).dropWhile isTrimChar = (x :: xs) ++ tail := by
      simp [List.dropWhile_cons, hx]
    rw [h1]
    exact rdropWhile_append_of_last isTrimChar (x :: xs) tail hne hlast

theorem trim_eq_self (s : Str) (h : ∀ c ∈ s, isspace c = false) : trim s = s := by
  cases s with
  | nil => rfl
  | cons x xs =>
    have hne : (x :: xs) ≠ [] := by simp
    have := trim_shape [] (x :: xs) [] (by simp) hne
      (by intro c hc; simp only [List.head?_cons, Option.some.injEq] at hc
          rw [← hc]; exact not_isTrimChar_of_not_isspace (h x (List.mem_cons_self _ _)))
      (not_isTrimChar_of_not_isspace (h _ (List.getLast_mem hne)))
    simpa using this

/-! ## The stitching loop never runs out of fuel -/

theorem dropWhile_length_le (p : Char → Bool) (s : Str) : (s.dropWhile p).length ≤ s.length := by
  induction s with
  | nil => simp
  | cons x xs ih =>
    rw [List.dropWhile_cons]
    split
    · simp only [List.length_cons]; omega
    · exact Nat.le_refl _

/-- An extraction from a `good()` stream either ends it or consumes at least one character. -/
theorem read_progress (ls : IStream) (hg : ls.good = true) :
    (ls.read).2.good = false ∨ (ls.read).2.rest.length < ls.rest.length := by
  unfold IStream.read
  rw [if_pos hg]
  have hle := dropWhile_length_le isspace ls.rest
  cases hr : ls.rest.dropWhile isspace with
  | nil => left; rfl
  | cons x xs =>
    right
    rw [hr] at hle
    have hx : isspace x = false := by
      have := List.head_dropWhile_not isspace ls.rest (by rw [hr]; simp)
      simpa [hr] using this
    simp only
    have h2 : (x :: xs).dropWhile (fun c => !isspace c) = xs.dropWhile (fun c => !isspace c) := by
      simp [List.dropWhile_cons, hx]
    rw [h2]
    have h3 := dropWhile_length_le (fun c => !isspace c) xs
    simp only [List.length_cons] at hle
    omega

/-- With fuel above the number of unread characters the stitching loop stops because its
condition fails, as the `while` of the source does: on return the name is empty, or ends
with a colon, or the stream is no longer `good()`. -/
theorem stitch_exits : ∀ (fuel : Nat) (name_colon : Str) (ls : IStream),
    ls.rest.length < fuel →
    (!(stitch fuel name_colon ls).1.isEmpty &&
      (stitch fuel name_colon ls).1.getLast? != some ':' &&
      (stitch fuel name_colon ls).2.good) = false := by
  intro fuel
  induction fuel with
  | zero => intro nc ls h; omega
  | succ n ih =>
    intro nc ls h
    unfold stitch
    by_cases hc : (!nc.isEmpty && nc.getLast? != some ':' && ls.good) = true
    · rw [if_pos hc]
      have hg : ls.good = true := by
        simp only [Bool.and_eq_true] at hc; exact hc.2
      rcases read_progress ls hg with hbad | hlt
      · cases n with
        | zero => simp [stitch, hbad]
        | succ k =>
          unfold stitch
          simp [hbad]
      · exact ih (nc ++ ls.read.1) ls.read.2 (by omega)
    · rw [if_neg hc]
      simpa using hc
/-! ## Shape of a message line -/

theorem bo_tokens_boLine (idTxt name dlcTxt rest : Str)
    (hid : idTxt ≠ []) (hid2 : ∀ c ∈ idTxt, isspace c = false)
    (hname : ∀ c ∈ name, isspace c = false)
    (hdlc : dlcTxt ≠ []) (hdlc2 : ∀ c ∈ dlcTxt, isspace c = false) (hrest : AtBreak rest) :
    bo_tokens (boLine idTxt name dlcTxt rest) = (idTxt, name ++ [':'], dlcTxt) := by
  have h1 : IStream.read (IStream.ofStr (boLine idTxt name dlcTxt rest)) =
      ("BO_".toList,
        ⟨' ' :: (idTxt ++ (' ' :: (name ++ (':' :: ' ' :: (dlcTxt ++ rest))))), true⟩) := by
    have := read_token [] "BO_".toList
      (' ' :: (idTxt ++ (' ' :: (name ++ (':' :: ' ' :: (dlcTxt ++ rest))))))
      (by simp) (by decide) (by decide) (atBreak_cons _ (by decide))
    simpa [boLine, IStream.ofStr] using this
  have h2 : IStream.read
      ⟨' ' :: (idTxt ++ (' ' :: (name ++ (':' :: ' ' :: (dlcTxt ++ rest))))), true⟩ =
      (idTxt, ⟨' ' :: (name ++ (':' :: ' ' :: (dlcTxt ++ rest))), true⟩) := by
    have := read_token [' '] idTxt (' ' :: (name ++ (':' :: ' ' :: (dlcTxt ++ rest))))
      (by decide) hid hid2 (atBreak_cons _ (by decide))
    simpa using this
  have h3 : IStream.read ⟨' ' :: (name ++ (':' :: ' ' :: (dlcTxt ++ rest))), true⟩ =
      (name ++ [':'], ⟨' ' :: (dlcTxt ++ rest), true⟩) := by
    have := read_token [' '] (name ++ [':']) (' ' :: (dlcTxt ++ rest))
      (by decide) (by simp)
      (by
        intro c hc
        rcases List.mem_append.1 hc with h | h
        · exact hname c h
        · simp only [List.mem_singleton] at h; subst h; decide)
      (atBreak_cons _ (by decide))
    simpa using this
  have h4 : ∀ fuel (ls : IStream), stitch fuel (name ++ [':']) ls = (name ++ [':'], ls) := by
    intro fuel ls
    cases fuel with
    | zero => rfl
    | succ n => simp [stitch]
  have h5 : IStream.read ⟨' ' :: (dlcTxt ++ rest), true⟩ = (dlcTxt, ⟨rest, !rest.isEmpty⟩) := by
    have := read_token [' '] dlcTxt rest (by decide) hdlc hdlc2 hrest
    simpa using this
  unfold bo_tokens
  simp only [h1, h2, h3, h4, h5]

theorem boLine_ne_nil (idTxt name dlcTxt rest : Str) : boLine idTxt name dlcTxt rest ≠ [] := by
  simp [boLine]

theorem boLine_starts (idTxt name dlcTxt rest : Str) :
    starts_with (boLine idTxt name dlcTxt rest) "BO_".toList = true := by
  simp [boLine, starts_with, List.isPrefixOf]

theorem trim_boLine (lead idTxt name dlcTxt rest : Str)
    (hlead : ∀ c ∈ lead, isTrimChar c = true)
    (hdlc : dlcTxt ≠ []) (hdlc2 : ∀ c ∈ dlcTxt, isspace c = false) :
    trim (lead ++ boLine idTxt name dlcTxt rest) =
      boLine idTxt name dlcTxt (rest.rdropWhile isTrimChar) := by
  have hne : "BO_ ".toList ++ (idTxt ++ (' ' :: (name ++ (':' :: ' ' :: dlcTxt)))) ≠ [] := by simp
  have hlast : ("BO_ ".toList ++ (idTxt ++ (' ' :: (name ++ (':' :: ' ' :: dlcTxt))))).getLast hne =
      dlcTxt.getLast hdlc := by
    simp [List.getLast_append, hdlc]
  have := trim_shape lead ("BO_ ".toList ++ (idTxt ++ (' ' :: (name ++ (':' :: ' ' :: dlcTxt))))) rest
    hlead hne (by intro c hc; simp at hc; subst hc; decide)
    (by rw [hlast]; exact not_isTrimChar_of_not_isspace (hdlc2 _ (List.getLast_mem hdlc)))
  simpa [boLine] using this

/-- A well-formed message line: the state after the `BO_` branch, in terms of the
conversions of its identifier and length tokens. -/
theorem parse_line_boLine (stod : Str → Option Float) (st : PState)
    (lead idTxt name dlcTxt rest : Str)
    (hlead : ∀ c ∈ lead, isTrimChar c = true)
    (hid : idTxt ≠ []) (hid2 : ∀ c ∈ idTxt, isspace c = false)
    (hname : ∀ c ∈ name, isspace c = false)
    (hdlc : dlcTxt ≠ []) (hdlc2 : ∀ c ∈ dlcTxt, isspace c = false) (hrest : AtBreak rest) :
    parse_line stod st (lead ++ boLine idTxt name dlcTxt rest) =
      match stoul idTxt 0 with
      | .error e => .error e
      | .ok v =>
        .ok { net := st.net.assign (v % 2 ^ 32)
                ⟨v % 2 ^ 32, name,
                  (match stoul dlcTxt 10 with
                    | .ok d => d % 2 ^ 8
                    | .error _ => 8), []⟩,
              current := some (v % 2 ^ 32) } := by
  unfold parse_line
  rw [trim_boLine lead idTxt name dlcTxt rest hlead hdlc hdlc2]
  have hne : (boLine idTxt name dlcTxt (rest.rdropWhile isTrimChar)).isEmpty = false := by
    simp [boLine]
  simp only [hne, boLine_starts, if_true, Bool.false_eq_true, if_false]
  unfold parse_bo
  rw [bo_tokens_boLine idTxt name dlcTxt _ hid hid2 hname hdlc hdlc2 (atBreak_rdropWhile _ _ hrest)]
  have e1 : idTxt.isEmpty = false := by cases idTxt <;> simp_all
  have e2 : dlcTxt.isEmpty = false := by cases dlcTxt <;> simp_all
  have e3 : (name ++ [':']).isEmpty = false := by cases name <;> rfl
  have e4 : (name ++ [':']).getLast? = some ':' := by simp
  have e5 : (name ++ [':']).dropLast = name := by simp
  simp only [e1, e2, e3, e4, e5, Bool.or_false, Bool.false_eq_true, if_false, if_true]

/-! ## Shape of a signal line -/

theorem bitSpec_ne_nil (startTxt lenTxt : Str) (e s : Char) : bitSpec startTxt lenTxt e s ≠ [] := by
  cases startTxt <;> simp [bitSpec]

theorem bitSpec_not_space (startTxt lenTxt : Str) (e s : Char)
    (hst : ∀ c ∈ startTxt, isspace c = false) (hlen : ∀ c ∈ lenTxt, isspace c = false)
    (he : isspace e = false) (hs : isspace s = false) :
    ∀ c ∈ bitSpec startTxt lenTxt e s, isspace c = false := by
  intro c hc
  simp only [bitSpec, List.mem_append, List.mem_cons, List.mem_singleton, List.not_mem_nil,
    or_false] at hc
  rcases hc with h | h | h | h | h | h
  · exact hst c h
  · subst h; decide
  · exact hlen c h
  · subst h; decide
  · subst h; exact he
  · subst h; exact hs

theorem bitSpec_getLast (startTxt lenTxt : Str) (e s : Char) :
    (bitSpec startTxt lenTxt e s).getLast (bitSpec_ne_nil startTxt lenTxt e s) = s := by
  have : bitSpec startTxt lenTxt e s = (startTxt ++ ('|' :: (lenTxt ++ ['@', e]))) ++ [s] := by
    simp [bitSpec]
  simp only [this, List.getLast_append_singleton]

theorem bitSpec_find_pipe (startTxt lenTxt : Str) (e s : Char)
    (hst : ∀ c ∈ startTxt, c ≠ '|') :
    find '|' (bitSpec startTxt lenTxt e s) = some startTxt.length :=
  find_append '|' startTxt (lenTxt ++ ['@', e, s]) hst

theorem bitSpec_find_at (startTxt lenTxt : Str) (e s : Char)
    (hst : ∀ c ∈ startTxt, c ≠ '@') (hlen : ∀ c ∈ lenTxt, c ≠ '@') :
    find '@' (bitSpec startTxt lenTxt e s) = some (startTxt.length + 1 + lenTxt.length) := by
  have h := find_append '@' (startTxt ++ ('|' :: lenTxt)) [e, s]
    (by
      intro c hc
      simp only [List.mem_append, List.mem_cons] at hc
      rcases hc with h | h | h
      · exact hst c h
      · subst h; decide
      · exact hlen c h)
  have e1 : (startTxt ++ ('|' :: lenTxt)) ++ '@' :: [e, s] = bitSpec startTxt lenTxt e s := by
    simp [bitSpec]
  rw [e1] at h
  rw [h]
  simp only [List.length_append, List.length_cons]
  congr 1
  omega

theorem bitSpec_length (startTxt lenTxt : Str) (e s : Char) :
    (bitSpec startTxt lenTxt e s).length = startTxt.length + 1 + lenTxt.length + 3 := by
  simp [bitSpec]; omega

theorem bitSpec_start (startTxt lenTxt : Str) (e s : Char) :
    substr (bitSpec startTxt lenTxt e s) 0 startTxt.length = startTxt := by
  simp [substr, bitSpec]

theorem bitSpec_len (startTxt lenTxt : Str) (e s : Char) :
    substr (bitSpec startTxt lenTxt e s) (startTxt.length + 1) lenTxt.length = lenTxt := by
  have : bitSpec startTxt lenTxt e s = (startTxt ++ ['|']) ++ (lenTxt ++ ['@', e, s]) := by
    simp [bitSpec]
  rw [substr, this]
  have hl : (startTxt ++ ['|']).length = startTxt.length + 1 := by simp
  rw [← hl, List.drop_left]
  simp

theorem bitSpec_endian (startTxt lenTxt : Str) (e s : Char) :
    (bitSpec startTxt lenTxt e s).getD (startTxt.length + 1 + lenTxt.length + 1) '\x00' = e := by
  have : bitSpec startTxt lenTxt e s = (startTxt ++ ('|' :: lenTxt) ++ ['@']) ++ (e :: [s]) := by
    simp [bitSpec]
  have hl : (startTxt ++ ('|' :: lenTxt) ++ ['@']).length = startTxt.length + 1 + lenTxt.length + 1 := by
    simp; omega
  rw [this, ← hl, List.getD_eq_getElem?_getD, List.getElem?_append_right (Nat.le_refl _)]
  simp

theorem bitSpec_sign (startTxt lenTxt : Str) (e s : Char) :
    (bitSpec startTxt lenTxt e s).getD (startTxt.length + 1 + lenTxt.length + 2) '\x00' = s := by
  have : bitSpec startTxt lenTxt e s = (startTxt ++ ('|' :: lenTxt) ++ ['@', e]) ++ [s] := by
    simp [bitSpec]
  have hl : (startTxt ++ ('|' :: lenTxt) ++ ['@', e]).length = startTxt.length + 1 + lenTxt.length + 2 := by
    simp; omega
  rw [this, ← hl, List.getD_eq_getElem?_getD, List.getElem?_append_right (Nat.le_refl _)]
  simp

theorem sgLine_find_colon (name mid bitspec rest : Str)
    (hname : ∀ c ∈ name, c ≠ ':') (hmid : ∀ c ∈ mid, c ≠ ':') :
    find ':' (sgLine name mid bitspec rest) = some ("SG_ ".toList ++ (name ++ mid)).length := by
  have h := find_append ':' ("SG_ ".toList ++ (name ++ mid)) (' ' :: (bitspec ++ rest))
    (by
      intro c hc
      rcases List.mem_append.1 hc with h | h
      · have : c = 'S' ∨ c = 'G' ∨ c = '_' ∨ c = ' ' := by simpa using h
        rcases this with h | h | h | h <;> subst h <;> decide
      · rcases List.mem_append.1 h with h | h
        · exact hname c h
        · exact hmid c h)
  have e : "SG_ ".toList ++ (name ++ mid) ++ ':' :: ' ' :: (bitspec ++ rest) =
      sgLine name mid bitspec rest := by
    simp [sgLine]
  rw [e] at h
  exact h

theorem sgLine_left (name mid bitspec rest : Str) :
    substr (sgLine name mid bitspec rest) 0 ("SG_ ".toList ++ (name ++ mid)).length =
      "SG_ ".toList ++ (name ++ mid) := by
  have e : sgLine name mid bitspec rest =
      ("SG_ ".toList ++ (name ++ mid)) ++ ':' :: ' ' :: (bitspec ++ rest) := by
    simp [sgLine]
  rw [substr, e, List.drop_zero, List.take_left]

theorem sgLine_right (name mid bitspec rest : Str) :
    (sgLine name mid bitspec rest).drop (("SG_ ".toList ++ (name ++ mid)).length + 1) =
      ' ' :: (bitspec ++ rest) := by
  have e : sgLine name mid bitspec rest =
      (("SG_ ".toList ++ (name ++ mid)) ++ [':']) ++ ' ' :: (bitspec ++ rest) := by
    simp [sgLine]
  have hl : (("SG_ ".toList ++ (name ++ mid)) ++ [':']).length =
      ("SG_ ".toList ++ (name ++ mid)).length + 1 := by
    rw [List.length_append]; rfl
  rw [e, ← hl, List.drop_left]

theorem sgLine_name_token (name mid : Str) (hne : name ≠ [])
    (hname : ∀ c ∈ name, isspace c = false) (hmid : AtBreak mid) :
    (IStream.read (IStream.read (IStream.ofStr
      (trim ("SG_ ".toList ++ (name ++ mid))))).2).1 = name := by
  have hcore : "SG_ ".toList ++ name ≠ [] := by simp
  have hlast : ("SG_ ".toList ++ name).getLast hcore = name.getLast hne := by
    simp [List.getLast_append, hne]
  have ht := trim_shape [] ("SG_ ".toList ++ name) mid (by simp) hcore
    (by intro c hc; simp at hc; subst hc; decide)
    (by rw [hlast]; exact not_isTrimChar_of_not_isspace (hname _ (List.getLast_mem hne)))
  have ht2 : trim ("SG_ ".toList ++ (name ++ mid)) =
      "SG_".toList ++ (' ' :: (name ++ mid.rdropWhile isTrimChar)) := by
    simpa using ht
  rw [ht2]
  have h1 := read_token [] "SG_".toList (' ' :: (name ++ mid.rdropWhile isTrimChar))
    (by simp) (by decide) (by decide) (atBreak_cons _ (by decide))
  have h2 := read_token [' '] name (mid.rdropWhile isTrimChar) (by decide) hne hname
    (atBreak_rdropWhile _ _ hmid)
  simp only [List.nil_append, List.isEmpty_cons, Bool.not_false] at h1
  simp only [List.singleton_append] at h2
  simp only [IStream.ofStr, h1, h2]

theorem sgLine_bitspec_token (bitspec rest : Str) (hne : bitspec ≠ [])
    (hb : ∀ c ∈ bitspec, isspace c = false) (hrest : AtBreak rest) :
    trim (' ' :: (bitspec ++ rest)) = bitspec ++ rest.rdropWhile isTrimChar ∧
    (IStream.read (IStream.ofStr (bitspec ++ rest.rdropWhile isTrimChar))).1 = bitspec := by
  constructor
  · have := trim_shape [' '] bitspec rest (by decide) hne
      (by
        intro c hc
        cases bitspec with
        | nil => exact absurd rfl hne
        | cons x xs =>
          simp only [List.head?_cons, Option.some.injEq] at hc
          rw [← hc]; exact not_isTrimChar_of_not_isspace (hb x (List.mem_cons_self _ _)))
      (not_isTrimChar_of_not_isspace (hb _ (List.getLast_mem hne)))
    simpa using this
  · have h := read_token [] bitspec (rest.rdropWhile isTrimChar) (by simp) hne hb
      (atBreak_rdropWhile _ _ hrest)
    simp only [List.nil_append] at h
    simp only [IStream.ofStr, h]

/-- The fields the `SG_` branch reads from a line of the shape
`SG_ <name><mid>: <start>|<length>@<e><s><rest>`. -/
theorem parse_sg_fields_sgLine (stod : Str → Option Float)
    (name mid startTxt lenTxt rest : Str) (e s : Char)
    (hne : name ≠ []) (hname : ∀ c ∈ name, isspace c = false ∧ c ≠ ':')
    (hmid : AtBreak mid) (hmid2 : ∀ c ∈ mid, c ≠ ':')
    (hst : ∀ c ∈ startTxt, isspace c = false ∧ c ≠ '|' ∧ c ≠ '@')
    (hlen : ∀ c ∈ lenTxt, isspace c = false ∧ c ≠ '@')
    (he : isspace e = false) (hs : isspace s = false) (hrest : AtBreak rest) :
    parse_sg_fields stod (sgLine name mid (bitSpec startTxt lenTxt e s) rest) =
      match stoul startTxt 10, stoul lenTxt 10 with
      | .ok a, .ok b =>
        some ⟨name, a % 2 ^ 16, b % 2 ^ 16, e == '1', s == '-',
          (parse_scale_offset stod
            (bitSpec startTxt lenTxt e s ++ rest.rdropWhile isTrimChar)).1,
          (parse_scale_offset stod
            (bitSpec startTxt lenTxt e s ++ rest.rdropWhile isTrimChar)).2⟩
      | _, _ => none := by
  have hbs := bitSpec_not_space startTxt lenTxt e s (fun c hc => (hst c hc).1)
    (fun c hc => (hlen c hc).1) he hs
  obtain ⟨hr1, hr2⟩ := sgLine_bitspec_token (bitSpec startTxt lenTxt e s) rest
    (bitSpec_ne_nil _ _ _ _) hbs hrest
  have hn := sgLine_name_token name mid hne (fun c hc => (hname c hc).1) hmid
  have hcnt : (if startTxt.length + 1 ≤ startTxt.length + 1 + lenTxt.length
      then startTxt.length + 1 + lenTxt.length - (startTxt.length + 1)
      else 2 ^ 64 - (startTxt.length + 1 - (startTxt.length + 1 + lenTxt.length))) =
      lenTxt.length := by
    rw [if_pos (by omega)]; omega
  have hsz : ¬ (startTxt.length + 1 + lenTxt.length + 2 >
      (bitSpec startTxt lenTxt e s).length) := by
    rw [bitSpec_length]; omega
  unfold parse_sg_fields
  simp only [sgLine_find_colon name mid _ rest (fun c hc => (hname c hc).2) hmid2,
    sgLine_left, sgLine_right, hr1]
  simp only [hr2, hn,
    bitSpec_find_pipe startTxt lenTxt e s (fun c hc => (hst c hc).2.1),
    bitSpec_find_at startTxt lenTxt e s (fun c hc => (hst c hc).2.2) (fun c hc => (hlen c hc).2),
    hsz, if_false, hcnt, bitSpec_start, bitSpec_len, bitSpec_endian, bitSpec_sign,
    trim_eq_self startTxt (fun c hc => (hst c hc).1),
    trim_eq_self lenTxt (fun c hc => (hlen c hc).1)]
/-! ## Decimal numerals and `stoul` -/

theorem isDigit_bounds {c : Char} (h : c.isDigit = true) : 48 ≤ c.toNat ∧ c.toNat ≤ 57 := by
  simp only [Char.isDigit, Bool.and_eq_true, decide_eq_true_eq] at h
  exact ⟨h.1, h.2⟩

theorem digitVal_of_isDigit {c : Char} (h : c.isDigit = true) :
    digitVal c = c.toNat - 48 ∧ digitVal c < 10 := by
  have hb := isDigit_bounds h
  have h0 : '0' ≤ c ∧ c ≤ '9' := by
    constructor
    · show (48 : Nat) ≤ c.toNat
      exact hb.1
    · show c.toNat ≤ 57
      exact hb.2
  unfold digitVal
  rw [if_pos h0]
  constructor
  · rfl
  · show c.toNat - 48 < 10
    omega

theorem isspace_false_of_isDigit {c : Char} (h : c.isDigit = true) : isspace c = false := by
  have hb := isDigit_bounds h
  simp only [isspace, Bool.or_eq_false_iff, beq_eq_false_iff_ne, ne_eq]
  refine ⟨⟨⟨⟨⟨?_, ?_⟩, ?_⟩, ?_⟩, ?_⟩, ?_⟩ <;> (intro hc; subst hc; revert hb; decide)

theorem isDigits_iff (t : Str) : isDigits t = true ↔ t ≠ [] ∧ ∀ c ∈ t, c.isDigit = true := by
  cases t <;> simp [isDigits]

theorem stoulBase_digits (t : Str) (h : ∀ c ∈ t, c.isDigit = true) : stoulBase t 10 = (10, t) := by
  unfold stoulBase
  split
  · next x hh r =>
    have hx : x.isDigit = true := h x (by simp)
    have : ¬ (x = 'x' ∨ x = 'X') := by
      have hb := isDigit_bounds hx
      rintro (hc | hc) <;> (subst hc; revert hb; decide)
    simp [this]
  · simp
  · simp

theorem foldl_digitVal_eq (t : Str) (h : ∀ c ∈ t, c.isDigit = true) (a : Nat) :
    t.foldl (fun acc c => acc * 10 + digitVal c) a =
      t.foldl (fun acc c => acc * 10 + (c.toNat - 48)) a := by
  induction t generalizing a with
  | nil => rfl
  | cons x xs ih =>
    simp only [List.foldl_cons]
    rw [(digitVal_of_isDigit (h x (List.mem_cons_self _ _))).1]
    exact ih (fun c hc => h c (List.mem_cons_of_mem _ hc)) _

/-- `std::stoul` in base 10 on a run of decimal digits is its decimal value, when that fits
64 bits. -/
theorem stoul_digits (t : Str) (h : isDigits t = true) (hv : decVal t < 2 ^ 64) :
    stoul t 10 = .ok (decVal t) := by
  obtain ⟨hne, hall⟩ := (isDigits_iff t).1 h
  cases t with
  | nil => exact absurd rfl hne
  | cons x xs =>
    have hx : x.isDigit = true := hall x (List.mem_cons_self _ _)
    have hsp := isspace_false_of_isDigit hx
    have hb := isDigit_bounds hx
    have h1 : (x :: xs).dropWhile isspace = x :: xs := by simp [List.dropWhile_cons, hsp]
    have hm : x ≠ '-' := by intro hc; subst hc; revert hb; decide
    have hp : x ≠ '+' := by intro hc; subst hc; revert hb; decide
    have h2 : (match (x :: xs : Str) with
        | '-' :: r => (true, r)
        | '+' :: r => (false, r)
        | _ => ((false, x :: xs) : Bool × Str)) = (false, x :: xs) := by
      split
      · next r heq => simp only [List.cons.injEq] at heq; exact absurd heq.1 hm
      · next r heq => simp only [List.cons.injEq] at heq; exact absurd heq.1 hp
      · rfl
    have h3 : (x :: xs).takeWhile (fun c => decide (digitVal c < 10)) = x :: xs := by
      rw [List.takeWhile_eq_self_iff]
      intro c hc
      simpa using (digitVal_of_isDigit (hall c hc)).2
    unfold stoul
    simp only [h1, h2, stoulBase_digits (x :: xs) hall, h3, List.isEmpty_cons,
      Bool.false_eq_true, if_false, foldl_digitVal_eq (x :: xs) hall]
    have hv2 : ¬ (List.foldl (fun acc c => acc * 10 + (c.toNat - 48)) 0 (x :: xs) ≥ 2 ^ 64) := by
      unfold decVal at hv; omega
    rw [if_neg hv2]
    rfl

/-! ## The scale/offset pair -/

theorem takeWhile_run (p : Char → Bool) (t r : Str) (ht : ∀ c ∈ t, p c = true)
    (hr : ∀ c, r.head? = some c → p c = false) : (t ++ r).takeWhile p = t := by
  induction t with
  | nil =>
    cases r with
    | nil => rfl
    | cons c r => simp [List.takeWhile_cons, hr c rfl]
  | cons x xs ih =>
    simp only [List.cons_append, List.takeWhile_cons, ht x (List.mem_cons_self _ _), if_true]
    rw [ih (fun c hc => ht c (List.mem_cons_of_mem _ hc))]

theorem dropWhile_run (p : Char → Bool) (t r : Str) (ht : ∀ c ∈ t, p c = true)
    (hr : ∀ c, r.head? = some c → p c = false) : (t ++ r).dropWhile p = r := by
  rw [List.dropWhile_append_of_pos ht]
  cases r with
  | nil => rfl
  | cons c r => simp [List.dropWhile_cons, hr c rfl]

theorem isNumClass_props {c : Char} (h : isNumClass c = true) :
    isspace c = false ∧ c ≠ '(' ∧ c ≠ ')' ∧ c ≠ ',' ∧ c ≠ '-' ∧ c ≠ '+' := by
  simp only [isNumClass, Bool.or_eq_true, beq_iff_eq] at h
  rcases h with ((h | h) | h) | h
  · have hb := isDigit_bounds h
    refine ⟨isspace_false_of_isDigit h, ?_, ?_, ?_, ?_, ?_⟩ <;>
      (intro hc; subst hc; revert hb; decide)
  · subst h; decide
  · subst h; decide
  · subst h; decide

/-- What a number token is made of: a non-empty text whose characters are a sign or belong
to the class, none of them a blank, a parenthesis or a comma. -/
theorem isNumberToken_props (t : Str) (h : isNumberToken t = true) :
    t ≠ [] ∧ ∀ c ∈ t, isspace c = false ∧ c ≠ '(' ∧ c ≠ ')' ∧ c ≠ ',' := by
  cases t with
  | nil => simp [isNumberToken] at h
  | cons x xs =>
    refine ⟨by simp, ?_⟩
    unfold isNumberToken at h
    simp only at h
    split at h
    · next hsign =>
      simp only [Bool.and_eq_true, List.all_eq_true] at h
      intro c hc
      rcases List.mem_cons.1 hc with hc | hc
      · subst hc
        rcases hsign with hs | hs <;> (subst hs; decide)
      · have := isNumClass_props (h.2 c hc)
        exact ⟨this.1, this.2.1, this.2.2.1, this.2.2.2.1⟩
    · simp only [List.all_eq_true] at h
      intro c hc
      have := isNumClass_props (h c hc)
      exact ⟨this.1, this.2.1, this.2.2.1, this.2.2.2.1⟩

theorem re_number_token (t r : Str) (h : isNumberToken t = true)
    (hr : ∀ c, r.head? = some c → isNumClass c = false) :
    re_number (t ++ r) = some (t, r) := by
  cases t with
  | nil => simp [isNumberToken] at h
  | cons x xs =>
    unfold isNumberToken at h
    simp only at h
    unfold re_number
    simp only [List.cons_append]
    split at h
    · next hsign =>
      simp only [Bool.and_eq_true, List.all_eq_true] at h
      simp only [hsign, if_true]
      rw [takeWhile_run isNumClass xs r h.2 hr, dropWhile_run isNumClass xs r h.2 hr]
      have : xs.isEmpty = false := by simpa using h.1
      simp [this]
    · next hsign =>
      simp only [List.all_eq_true] at h
      simp only [hsign, if_false]
      have e : x :: (xs ++ r) = (x :: xs) ++ r := rfl
      rw [e, takeWhile_run isNumClass (x :: xs) r h hr, dropWhile_run isNumClass (x :: xs) r h hr]
      simp

theorem dropWhile_isspace_token (t r : Str) (hne : t ≠ [])
    (ht : ∀ c ∈ t, isspace c = false) : (t ++ r).dropWhile isspace = t ++ r := by
  cases t with
  | nil => exact absurd rfl hne
  | cons x xs => simp [List.dropWhile_cons, ht x (List.mem_cons_self _ _)]

theorem re_match_here_pair (sc off tail : Str) (hsc : isNumberToken sc = true)
    (hoff : isNumberToken off = true) :
    re_match_here ('(' :: (sc ++ ',' :: (off ++ ')' :: tail))) = some (sc, off) := by
  obtain ⟨hsc1, hsc2⟩ := isNumberToken_props sc hsc
  obtain ⟨hoff1, hoff2⟩ := isNumberToken_props off hoff
  unfold re_match_here
  simp only
  rw [dropWhile_isspace_token sc _ hsc1 (fun c hc => (hsc2 c hc).1),
    re_number_token sc _ hsc (by intro c hc; simp at hc; subst hc; decide)]
  simp only
  have h1 : (',' :: (off ++ ')' :: tail)).dropWhile isspace = ',' :: (off ++ ')' :: tail) := by
    simp [List.dropWhile_cons, isspace]
  rw [h1]
  simp only
  rw [dropWhile_isspace_token off _ hoff1 (fun c hc => (hoff2 c hc).1),
    re_number_token off _ hoff (by intro c hc; simp at hc; subst hc; decide)]
  simp only
  have h2 : (')' :: tail).dropWhile isspace = ')' :: tail := by
    simp [List.dropWhile_cons, isspace]
  rw [h2]
  rfl

theorem regex_search_skip (pre s : Str) (hpre : ∀ c ∈ pre, c ≠ '(') :
    regex_search (pre ++ s) = regex_search s := by
  induction pre with
  | nil => rfl
  | cons x xs ih =>
    have hx := hpre x (List.mem_cons_self _ _)
    have hm : re_match_here (x :: (xs ++ s)) = none := by
      unfold re_match_here
      split
      · next r heq => simp only [List.cons.injEq] at heq; exact absurd heq.1 hx
      · rfl
    show regex_search (x :: (xs ++ s)) = _
    rw [regex_search, hm]
    exact ih (fun c hc => hpre c (List.mem_cons_of_mem _ hc))

theorem isPlainToken_props (t : Str) (h : isPlainToken t = true) :
    t ≠ [] ∧ ∀ c ∈ t, isspace c = false ∧ c ≠ '(' ∧ c ≠ ')' ∧ c ≠ ',' := by
  unfold isPlainToken at h
  simp only [Bool.and_eq_true, Bool.not_eq_true', List.all_eq_true, bne_iff_ne, ne_eq] at h
  refine ⟨by intro hc; rw [hc] at h; simp at h, ?_⟩
  intro c hc
  have := h.2 c hc
  exact ⟨this.1.1.1, this.1.1.2, this.1.2, this.2⟩

/-- The scale and offset read from a text whose first parenthesis opens a pair of plain
tokens that `std::stod` converts: the two converted values. The regex fallback, which runs
when they compare equal to the defaults, finds the same pair when both tokens have the shape
the regex recognises. -/
theorem parse_scale_offset_pair (stod : Str → Option Float) (pre sc off tail : Str) (x y : Float)
    (hpre : ∀ c ∈ pre, c ≠ '(')
    (hsc : isPlainToken sc = true) (hoff : isPlainToken off = true)
    (hx : stod sc = some x) (hy : stod off = some y)
    (hfb : (isNumberToken sc = true ∧ isNumberToken off = true) ∨
      (x == 1.0 && y == 0.0) = false) :
    parse_scale_offset stod (pre ++ '(' :: (sc ++ ',' :: (off ++ ')' :: tail))) = (x, y) := by
  obtain ⟨hsc1, hsc2⟩ := isPlainToken_props sc hsc
  obtain ⟨hoff1, hoff2⟩ := isPlainToken_props off hoff
  have hl : find '(' (pre ++ '(' :: (sc ++ ',' :: (off ++ ')' :: tail))) = some pre.length :=
    find_append '(' pre _ hpre
  have hdrop : (pre ++ '(' :: (sc ++ ',' :: (off ++ ')' :: tail))).drop (pre.length + 1) =
      sc ++ ',' :: (off ++ ')' :: tail) := by
    have e : pre ++ '(' :: (sc ++ ',' :: (off ++ ')' :: tail)) =
        (pre ++ ['(']) ++ (sc ++ ',' :: (off ++ ')' :: tail)) := by simp
    have hlen : (pre ++ ['(']).length = pre.length + 1 := by simp
    rw [e, ← hlen, List.drop_left]
  have hr : findFrom ')' (pre ++ '(' :: (sc ++ ',' :: (off ++ ')' :: tail))) (pre.length + 1) =
      some ((sc ++ ',' :: off).length + (pre.length + 1)) := by
    unfold findFrom
    rw [hdrop]
    have e : sc ++ ',' :: (off ++ ')' :: tail) = (sc ++ ',' :: off) ++ ')' :: tail := by simp
    rw [e, find_append ')' (sc ++ ',' :: off) tail
      (by
        intro c hc
        simp only [List.mem_append, List.mem_cons] at hc
        rcases hc with h | h | h
        · exact (hsc2 c h).2.2.1
        · subst h; decide
        · exact (hoff2 c h).2.2.1)]
    rfl
  have hgt : (sc ++ ',' :: off).length + (pre.length + 1) > pre.length + 1 := by
    have : 0 < (sc ++ ',' :: off).length := by simp
    omega
  have hso : substr (pre ++ '(' :: (sc ++ ',' :: (off ++ ')' :: tail))) (pre.length + 1)
      ((sc ++ ',' :: off).length + (pre.length + 1) - pre.length - 1) = sc ++ ',' :: off := by
    unfold substr
    rw [hdrop]
    have e : sc ++ ',' :: (off ++ ')' :: tail) = (sc ++ ',' :: off) ++ ')' :: tail := by simp
    have e2 : (sc ++ ',' :: off).length + (pre.length + 1) - pre.length - 1 =
        (sc ++ ',' :: off).length := by omega
    rw [e, e2, List.take_left]
  have hcomma : find ',' (sc ++ ',' :: off) = some sc.length :=
    find_append ',' sc off (fun c hc => (hsc2 c hc).2.2.2)
  have hs1 : substr (sc ++ ',' :: off) 0 sc.length = sc := by
    unfold substr; rw [List.drop_zero, List.take_left]
  have hs2 : (sc ++ ',' :: off).drop (sc.length + 1) = off := by
    have e : sc ++ ',' :: off = (sc ++ [',']) ++ off := by simp
    have hlen : (sc ++ [',']).length = sc.length + 1 := by simp
    rw [e, ← hlen, List.drop_left]
  unfold parse_scale_offset
  simp only [hl, hr, hgt, if_true, hso, hcomma, hs1, hs2,
    trim_eq_self sc (fun c hc => (hsc2 c hc).1), trim_eq_self off (fun c hc => (hoff2 c hc).1),
    hx, hy]
  rcases hfb with ⟨hn1, hn2⟩ | hdef
  · have hre : regex_search (pre ++ '(' :: (sc ++ ',' :: (off ++ ')' :: tail))) =
        some (sc, off) := by
      rw [regex_search_skip pre _ hpre, regex_search, re_match_here_pair sc off tail hn1 hn2]
    simp only [hre, hx, hy]
    split <;> rfl
  · simp only [hdef, Bool.false_eq_true, if_false]

/-! ## Lines of the grammar -/

theorem trim_sgLine (lead name mid bitspec rest : Str)
    (hlead : ∀ c ∈ lead, isTrimChar c = true)
    (hb : bitspec ≠ []) (hb2 : ∀ c ∈ bitspec, isspace c = false) :
    trim (lead ++ sgLine name mid bitspec rest) =
      sgLine name mid bitspec (rest.rdropWhile isTrimChar) := by
  have hne : "SG_ ".toList ++ (name ++ (mid ++ (':' :: ' ' :: bitspec))) ≠ [] := by simp
  have hlast : ("SG_ ".toList ++ (name ++ (mid ++ (':' :: ' ' :: bitspec)))).getLast hne =
      bitspec.getLast hb := by
    simp [List.getLast_append, hb]
  have := trim_shape lead ("SG_ ".toList ++ (name ++ (mid ++ (':' :: ' ' :: bitspec)))) rest
    hlead hne (by intro c hc; simp at hc; subst hc; decide)
    (by rw [hlast]; exact not_isTrimChar_of_not_isspace (hb2 _ (List.getLast_mem hb)))
  simpa [sgLine] using this

theorem parse_line_sgLine (stod : Str → Option Float) (st : PState)
    (lead name mid bitspec rest : Str)
    (hlead : ∀ c ∈ lead, isTrimChar c = true)
    (hb : bitspec ≠ []) (hb2 : ∀ c ∈ bitspec, isspace c = false) :
    parse_line stod st (lead ++ sgLine name mid bitspec rest) =
      .ok (parse_sg stod st (sgLine name mid bitspec (rest.rdropWhile isTrimChar))) := by
  unfold parse_line
  rw [trim_sgLine lead name mid bitspec rest hlead hb hb2]
  have h1 : (sgLine name mid bitspec (rest.rdropWhile isTrimChar)).isEmpty = false := by
    simp [sgLine]
  have h2 : starts_with (sgLine name mid bitspec (rest.rdropWhile isTrimChar)) "BO_".toList
      = false := by
    simp [sgLine, starts_with, List.isPrefixOf]
  have h3 : starts_with (sgLine name mid bitspec (rest.rdropWhile isTrimChar)) "SG_".toList
      = true := by
    simp [sgLine, starts_with, List.isPrefixOf]
  simp only [h1, h2, h3, Bool.false_eq_true, if_false, if_true]

theorem isDigits_plain (t : Str) (h : isDigits t = true) :
    ∀ c ∈ t, isspace c = false ∧ c ≠ '|' ∧ c ≠ '@' ∧ c ≠ '(' := by
  intro c hc
  have hd := ((isDigits_iff t).1 h).2 c hc
  have hb := isDigit_bounds hd
  refine ⟨isspace_false_of_isDigit hd, ?_, ?_, ?_⟩ <;>
    (intro hx; subst hx; revert hb; decide)

/-- A well-formed signal line parses to the signal it denotes. -/
theorem parse_sg_fields_wf (stod : Str → Option Float) (l : SgLineSpec)
    (h : l.WellFormed stod) :
    parse_sg_fields stod (sgLine l.name l.mid (bitSpec l.startTxt l.lenTxt l.e l.s)
      ((' ' :: '(' :: (l.sc ++ ',' :: (l.off ++ ')' :: l.tail))).rdropWhile isTrimChar)) =
      some (l.signal stod) := by
  have he : isspace l.e = false ∧ l.e ≠ '(' := by
    rcases h.endian_flag with h1 | h1 <;> (rw [h1]; decide)
  have hs : isspace l.s = false ∧ l.s ≠ '(' := by
    rcases h.sign_flag with h1 | h1 <;> (rw [h1]; decide)
  have hst := isDigits_plain l.startTxt h.start_digits
  have hlen := isDigits_plain l.lenTxt h.len_digits
  have hrest : AtBreak (' ' :: '(' :: (l.sc ++ ',' :: (l.off ++ ')' :: l.tail))) :=
    atBreak_cons _ (by decide)
  have hfields := parse_sg_fields_sgLine stod l.name l.mid l.startTxt l.lenTxt
    ((' ' :: '(' :: (l.sc ++ ',' :: (l.off ++ ')' :: l.tail))).rdropWhile isTrimChar) l.e l.s
    h.name_ne h.name_plain h.mid_break h.mid_plain
    (fun c hc => ⟨(hst c hc).1, (hst c hc).2.1, (hst c hc).2.2.1⟩)
    (fun c hc => ⟨(hlen c hc).1, (hlen c hc).2.2.1⟩) he.1 hs.1
    (atBreak_rdropWhile _ _ hrest)
  rw [hfields, List.rdropWhile_idempotent,
    stoul_digits l.startTxt h.start_digits (lt_trans h.start_fits (by norm_num)),
    stoul_digits l.lenTxt h.len_digits (lt_trans h.len_fits (by norm_num))]
  obtain ⟨x, hx⟩ := Option.isSome_iff_exists.1 h.scale_conv
  obtain ⟨y, hy⟩ := Option.isSome_iff_exists.1 h.offset_conv
  have hcore : (' ' :: '(' :: (l.sc ++ ',' :: (l.off ++ [')']))) ≠ [] := by simp
  have hrd : (' ' :: '(' :: (l.sc ++ ',' :: (l.off ++ ')' :: l.tail))).rdropWhile isTrimChar =
      ' ' :: '(' :: (l.sc ++ ',' :: (l.off ++ ')' :: l.tail.rdropWhile isTrimChar)) := by
    have := rdropWhile_append_of_last isTrimChar (' ' :: '(' :: (l.sc ++ ',' :: (l.off ++ [')'])))
      l.tail hcore (by
        have e : (' ' :: '(' :: (l.sc ++ ',' :: (l.off ++ [')']))) =
            (' ' :: '(' :: (l.sc ++ ',' :: l.off)) ++ [')'] := by simp
        simp only [e, List.getLast_append_singleton]
        decide)
    simpa using this
  have hpre : ∀ c ∈ bitSpec l.startTxt l.lenTxt l.e l.s ++ [' '], c ≠ '(' := by
    intro c hc
    simp only [bitSpec, List.mem_append, List.mem_cons, List.mem_singleton, List.not_mem_nil,
      or_false] at hc
    rcases hc with (h1 | h1 | h1 | h1 | h1 | h1) | h1
    · exact (hst c h1).2.2.2
    · subst h1; decide
    · exact (hlen c h1).2.2.2
    · subst h1; decide
    · subst h1; exact he.2
    · subst h1; exact hs.2
    · subst h1; decide
  have hso := parse_scale_offset_pair stod (bitSpec l.startTxt l.lenTxt l.e l.s ++ [' '])
    l.sc l.off (l.tail.rdropWhile isTrimChar) x y hpre h.scale_plain h.offset_plain hx hy
    (by have := h.fallback_safe; rw [hx, hy] at this; exact this)
  have e2 : bitSpec l.startTxt l.lenTxt l.e l.s ++
      (' ' :: '(' :: (l.sc ++ ',' :: (l.off ++ ')' :: l.tail))).rdropWhile isTrimChar =
      (bitSpec l.startTxt l.lenTxt l.e l.s ++ [' ']) ++
        '(' :: (l.sc ++ ',' :: (l.off ++ ')' :: l.tail.rdropWhile isTrimChar)) := by
    rw [hrd]; simp
  rw [e2, hso]
  simp only [SgLineSpec.signal, hx, hy, Option.getD_some]
  have m1 : decVal l.startTxt % 2 ^ 16 = decVal l.startTxt := Nat.mod_eq_of_lt h.start_fits
  have m2 : decVal l.lenTxt % 2 ^ 16 = decVal l.lenTxt := Nat.mod_eq_of_lt h.len_fits
  rw [m1, m2]

theorem bitSpec_wf_plain (stod : Str → Option Float) (l : SgLineSpec) (h : l.WellFormed stod) :
    ∀ c ∈ bitSpec l.startTxt l.lenTxt l.e l.s, isspace c = false := by
  have he : isspace l.e = false := by
    rcases h.endian_flag with h1 | h1 <;> (rw [h1]; decide)
  have hs : isspace l.s = false := by
    rcases h.sign_flag with h1 | h1 <;> (rw [h1]; decide)
  exact bitSpec_not_space _ _ _ _ (fun c hc => (isDigits_plain _ h.start_digits c hc).1)
    (fun c hc => (isDigits_plain _ h.len_digits c hc).1) he hs

/-- The loop iteration on a well-formed signal line: with a current message the signal is
appended to it, without one the state is unchanged. -/
theorem parse_line_sg_wf (stod : Str → Option Float) (st : PState) (l : SgLineSpec)
    (h : l.WellFormed stod) :
    parse_line stod st l.text =
      .ok (match st.current with
        | none => st
        | some cur => { st with net := st.net.push_signal cur (l.signal stod) }) := by
  unfold SgLineSpec.text
  rw [parse_line_sgLine stod st l.lead l.name l.mid _ _ h.lead_blank (bitSpec_ne_nil _ _ _ _)
    (bitSpec_wf_plain stod l h)]
  unfold parse_sg
  rw [parse_sg_fields_wf stod l h]

/-- The loop iteration on a well-formed message line: the entry of its identifier is
replaced by a fresh message without signals, which becomes the current message. -/
theorem parse_line_bo_wf (stod : Str → Option Float) (st : PState) (b : BoLineSpec) (id : Nat)
    (h : b.WellFormed id) :
    parse_line stod st b.text =
      .ok ⟨st.net.assign id (b.message id), some id⟩ := by
  unfold BoLineSpec.text
  rw [parse_line_boLine stod st b.lead b.idTxt b.name b.dlcTxt b.rest h.lead_blank h.id_ne
    h.id_plain h.name_plain h.dlc_ne h.dlc_plain h.rest_break]
  have hc := h.id_conv
  cases hs : stoul b.idTxt 0 with
  | error e => rw [hs] at hc; simp [Except.toOption] at hc
  | ok v =>
    rw [hs] at hc
    simp only [Except.toOption, Option.map_some', Option.some.injEq] at hc
    simp only [hc, BoLineSpec.message, BoLineSpec.dlc]
/-! ## The loop over the lines -/

theorem parse_lines_append (stod : Str → Option Float) (l1 l2 : List Str) :
    ∀ st, parse_lines stod st (l1 ++ l2) =
      match parse_lines stod st l1 with
      | .error e => .error e
      | .ok st2 => parse_lines stod st2 l2 := by
  induction l1 with
  | nil => intro st; rfl
  | cons l ls ih =>
    intro st
    simp only [List.cons_append, parse_lines]
    cases parse_line stod st l with
    | error e => rfl
    | ok st2 => exact ih st2

theorem push_signal_same (net : Network) (cur : Nat) (m : Message) (s : Signal)
    (hm : net.msgs cur = some m) :
    (net.push_signal cur s).msgs cur = some { m with signals := m.signals ++ [s] } := by
  simp [Network.push_signal, hm]

theorem push_signal_other (net : Network) (cur k : Nat) (s : Signal) (hk : k ≠ cur) :
    (net.push_signal cur s).msgs k = net.msgs k := by
  simp [Network.push_signal, hk]

theorem assign_same (net : Network) (id : Nat) (m : Message) :
    (net.assign id m).msgs id = some m := by
  simp [Network.assign]

theorem assign_other (net : Network) (id k : Nat) (m : Message) (hk : k ≠ id) :
    (net.assign id m).msgs k = net.msgs k := by
  simp [Network.assign, hk]

/-- A run of well-formed signal lines under a current message appends their signals to it,
in order, and touches no other entry. -/
theorem parse_lines_sg_wf (stod : Str → Option Float) (ls : List SgLineSpec)
    (hwf : ∀ l ∈ ls, l.WellFormed stod) :
    ∀ (st : PState) (cur : Nat) (m : Message), st.current = some cur →
      st.net.msgs cur = some m →
      ∃ st2, parse_lines stod st (ls.map SgLineSpec.text) = .ok st2 ∧
        st2.current = some cur ∧
        st2.net.msgs cur =
          some { m with signals := m.signals ++ ls.map (SgLineSpec.signal stod) } ∧
        ∀ k, k ≠ cur → st2.net.msgs k = st.net.msgs k := by
  induction ls with
  | nil =>
    intro st cur m hcur hm
    exact ⟨st, rfl, hcur, by simpa using hm, fun _ _ => rfl⟩
  | cons l ls ih =>
    intro st cur m hcur hm
    have hl := parse_line_sg_wf stod st l (hwf l (List.mem_cons_self _ _))
    rw [hcur] at hl
    obtain ⟨st2, h1, h2, h3, h4⟩ := ih (fun x hx => hwf x (List.mem_cons_of_mem _ hx))
      ⟨st.net.push_signal cur (l.signal stod), some cur⟩ cur
      { m with signals := m.signals ++ [l.signal stod] } rfl
      (push_signal_same st.net cur m _ hm)
    refine ⟨st2, ?_, h2, ?_, ?_⟩
    · simp only [List.map_cons, parse_lines, hl]
      exact h1
    · rw [h3]; simp
    · intro k hk
      rw [h4 k hk]
      exact push_signal_other st.net cur k _ hk

theorem starts_with_sg (line : Str) (h : starts_with line "SG_".toList = true) :
    line.isEmpty = false ∧ starts_with line "BO_".toList = false := by
  rcases line with _ | ⟨a, _ | ⟨b, _ | ⟨c, r⟩⟩⟩
  · simp [starts_with, List.isPrefixOf] at h
  · simp [starts_with, List.isPrefixOf] at h
  · simp [starts_with, List.isPrefixOf] at h
  · simp only [starts_with, String.toList, List.isPrefixOf, Bool.and_eq_true, beq_iff_eq] at h
    obtain ⟨ha, hb, hc, -⟩ := h
    subst ha; subst hb; subst hc
    exact ⟨rfl, by simp [starts_with, List.isPrefixOf]⟩

theorem starts_with_bo (line : Str) (h : starts_with line "BO_".toList = true) :
    line.isEmpty = false := by
  cases line with
  | nil => simp [starts_with, List.isPrefixOf] at h
  | cons a r => rfl

/-- A line that is neither a message nor a signal record leaves the loop state as it is. -/
theorem parse_line_other (stod : Str → Option Float) (st : PState) (raw : Str)
    (hbo : starts_with (trim raw) "BO_".toList = false)
    (hsg : starts_with (trim raw) "SG_".toList = false) :
    parse_line stod st raw = .ok st := by
  unfold parse_line
  simp only [hbo, hsg, Bool.false_eq_true, if_false]
  split <;> rfl

theorem parse_line_sg_no_current (stod : Str → Option Float) (st : PState) (raw : Str)
    (hcur : st.current = none) (hsg : starts_with (trim raw) "SG_".toList = true) :
    parse_line stod st raw = .ok st := by
  obtain ⟨h1, h2⟩ := starts_with_sg _ hsg
  unfold parse_line
  simp only [h1, h2, hsg, Bool.false_eq_true, if_false, if_true]
  unfold parse_sg
  rw [hcur]

theorem parse_line_bo_skipped (stod : Str → Option Float) (st : PState) (raw : Str)
    (hbo : starts_with (trim raw) "BO_".toList = true)
    (hmiss : (bo_tokens (trim raw)).1 = [] ∨ (bo_tokens (trim raw)).2.1 = [] ∨
      (bo_tokens (trim raw)).2.2 = []) :
    parse_line stod st raw = .ok { st with current := none } := by
  have h1 := starts_with_bo _ hbo
  unfold parse_line
  simp only [h1, hbo, Bool.false_eq_true, if_false, if_true]
  unfold parse_bo
  rcases hb : bo_tokens (trim raw) with ⟨a, b, c⟩
  rw [hb] at hmiss
  simp only at hmiss
  have : (a.isEmpty || b.isEmpty || c.isEmpty) = true := by
    rcases hmiss with h | h | h <;> simp [h]
  simp only [this, if_true]

theorem boMsg256_wf : boMsg256.WellFormed 256 :=
  ⟨by decide, by decide, by decide, by decide, by decide, by decide,
    atBreak_cons _ (by decide), by decide⟩

theorem boMsg512_wf : boMsg512.WellFormed 512 :=
  ⟨by decide, by decide, by decide, by decide, by decide, by decide,
    atBreak_cons _ (by decide), by decide⟩

theorem sgSigLE_wf : sgSigLE.WellFormed stod_dec :=
  ⟨by decide, by decide, by decide, atBreak_cons _ (by decide), by decide, by decide, by decide,
    by decide, by decide, by decide, by decide, by decide, by decide, by rfl, by rfl,
    Or.inl ⟨by decide, by decide⟩⟩

theorem sgSigBE_wf : sgSigBE.WellFormed stod_dec :=
  ⟨by decide, by decide, by decide, atBreak_cons _ (by decide), by decide, by decide, by decide,
    by decide, by decide, by decide, by decide, by decide, by decide, by rfl, by rfl,
    Or.inl ⟨by decide, by decide⟩⟩

theorem sgMuxA_wf : sgMuxA.WellFormed stod_dec :=
  ⟨by decide, by decide, by decide, atBreak_cons _ (by decide), by decide, by decide, by decide,
    by decide, by decide, by decide, by decide, by decide, by decide, by rfl, by rfl,
    Or.inl ⟨by decide, by decide⟩⟩
/-! ## The range of `bit_len` -/

theorem parse_sg_fields_bit_len (stod : Str → Option Float) (line : Str) (s : Signal)
    (h : parse_sg_fields stod line = some s) : s.bit_len < 2 ^ 16 := by
  unfold parse_sg_fields at h
  split at h
  · exact Option.noConfusion h
  · simp only at h
    split at h
    · split at h
      · exact Option.noConfusion h
      · split at h
        · simp only [Option.some.injEq] at h
          rw [← h]
          exact Nat.mod_lt _ (by norm_num)
        · exact Option.noConfusion h
    · exact Option.noConfusion h

theorem assign_bounded (net : Network) (id : Nat) (m : Message) (hnet : net.BitLenBounded)
    (hm : ∀ s ∈ m.signals, s.bit_len < 2 ^ 16) : (net.assign id m).BitLenBounded := by
  intro k m2 s hk hs
  by_cases hki : k = id
  · subst hki
    rw [assign_same] at hk
    simp only [Option.some.injEq] at hk
    subst hk
    exact hm s hs
  · rw [assign_other _ _ _ _ hki] at hk
    exact hnet k m2 s hk hs

theorem push_signal_bounded (net : Network) (cur : Nat) (sig : Signal)
    (hnet : net.BitLenBounded) (hsig : sig.bit_len < 2 ^ 16) :
    (net.push_signal cur sig).BitLenBounded := by
  intro k m2 s hk hs
  by_cases hkc : k = cur
  · subst hkc
    cases hm : net.msgs k with
    | none => simp [Network.push_signal, hm] at hk
    | some m =>
      rw [push_signal_same net k m sig hm] at hk
      simp only [Option.some.injEq] at hk
      subst hk
      simp only [List.mem_append, List.mem_singleton] at hs
      rcases hs with hs | hs
      · exact hnet k m s hm hs
      · subst hs; exact hsig
  · rw [push_signal_other _ _ _ _ hkc] at hk
    exact hnet k m2 s hk hs

theorem parse_bo_bounded (st st2 : PState) (line : Str) (hnet : st.net.BitLenBounded)
    (h : parse_bo st line = .ok st2) : st2.net.BitLenBounded := by
  unfold parse_bo at h
  rcases bo_tokens line with ⟨a, b, c⟩
  simp only at h
  split at h
  · simp only [Except.ok.injEq] at h
    subst h
    exact hnet
  · split at h
    · exact Except.noConfusion h
    · simp only [Except.ok.injEq] at h
      subst h
      exact assign_bounded _ _ _ hnet (by intro s hs; simp at hs)

theorem parse_sg_bounded (stod : Str → Option Float) (st : PState) (line : Str)
    (hnet : st.net.BitLenBounded) : (parse_sg stod st line).net.BitLenBounded := by
  unfold parse_sg
  split
  · exact hnet
  · split
    · exact hnet
    · next s hs =>
      exact push_signal_bounded _ _ _ hnet (parse_sg_fields_bit_len stod line s hs)

theorem parse_line_bounded (stod : Str → Option Float) (st st2 : PState) (raw : Str)
    (hnet : st.net.BitLenBounded) (h : parse_line stod st raw = .ok st2) :
    st2.net.BitLenBounded := by
  unfold parse_line at h
  simp only at h
  split at h
  · simp only [Except.ok.injEq] at h; subst h; exact hnet
  · split at h
    · exact parse_bo_bounded st st2 _ hnet h
    · split at h
      · simp only [Except.ok.injEq] at h; subst h
        exact parse_sg_bounded stod st _ hnet
      · simp only [Except.ok.injEq] at h; subst h; exact hnet

theorem parse_lines_bounded (stod : Str → Option Float) (lines : List Str) :
    ∀ (st st2 : PState), st.net.BitLenBounded → parse_lines stod st lines = .ok st2 →
      st2.net.BitLenBounded := by
  induction lines with
  | nil =>
    intro st st2 hnet h
    simp only [parse_lines, Except.ok.injEq] at h
    subst h
    exact hnet
  | cons l ls ih =>
    intro st st2 hnet h
    rw [parse_lines] at h
    cases hl : parse_line stod st l with
    | error e => rw [hl] at h; exact Except.noConfusion h
    | ok st1 =>
      rw [hl] at h
      exact ih st1 st2 (parse_line_bounded stod st st1 l hnet hl) h

/-- The parse of the two-line database of the tests, `BO_ 256 Msg: 8 ECU` followed by the
signal line of `SigLE`. -/
theorem parse_msg256_sigLE :
    parse_dbc_file stod_dec "db.dbc".toList (some [boMsg256.text, sgSigLE.text]) Network.empty =
      .ok ⟨true, (Network.empty.assign 256 (boMsg256.message 256)).push_signal 256
        (sgSigLE.signal stod_dec), []⟩ := by
  have h1 := parse_line_bo_wf stod_dec ⟨Network.empty, none⟩ boMsg256 256 boMsg256_wf
  have h2 := parse_line_sg_wf stod_dec
    ⟨Network.empty.assign 256 (boMsg256.message 256), some 256⟩ sgSigLE sgSigLE_wf
  simp only [parse_dbc_file, parse_lines, h1, h2]
/-! ## The identifier token -/

theorem isHexDigit_props {c : Char} (h : isHexDigit c = true) :
    isspace c = false ∧ digitVal c = hexDigitVal c ∧ digitVal c < 16 := by
  simp only [isHexDigit, Bool.or_eq_true, Bool.and_eq_true, decide_eq_true_eq] at h
  have hsp : isspace c = false := by
    simp only [isspace, Bool.or_eq_false_iff, beq_eq_false_iff_ne, ne_eq]
    refine ⟨⟨⟨⟨⟨?_, ?_⟩, ?_⟩, ?_⟩, ?_⟩, ?_⟩ <;> (intro hc; subst hc; revert h; decide)
  refine ⟨hsp, ?_⟩
  rcases h with (h | h) | h
  · have h0 : '0' ≤ c ∧ c ≤ '9' := ⟨h.1, h.2⟩
    have hv : digitVal c = c.toNat - 48 := by
      unfold digitVal; rw [if_pos h0]; rfl
    have hh : hexDigitVal c = c.toNat - 48 := by
      unfold hexDigitVal; rw [if_pos h.2]
    rw [hv, hh]; exact ⟨rfl, by omega⟩
  · have h0 : ¬ ('0' ≤ c ∧ c ≤ '9') := by
      intro hc
      have : c.toNat ≤ 57 := hc.2
      omega
    have h1 : 'a' ≤ c ∧ c ≤ 'z' := by
      constructor
      · show (97 : Nat) ≤ c.toNat
        exact h.1
      · show c.toNat ≤ 122
        omega
    have hv : digitVal c = c.toNat - 97 + 10 := by
      unfold digitVal; rw [if_neg h0, if_pos h1]; rfl
    have hh : hexDigitVal c = c.toNat - 87 := by
      unfold hexDigitVal; rw [if_neg (by omega), if_pos h.1]
    rw [hv, hh]; exact ⟨by omega, by omega⟩
  · have h0 : ¬ ('0' ≤ c ∧ c ≤ '9') := by
      intro hc
      have : c.toNat ≤ 57 := hc.2
      omega
    have h1 : ¬ ('a' ≤ c ∧ c ≤ 'z') := by
      intro hc
      have : (97 : Nat) ≤ c.toNat := hc.1
      omega
    have h2 : 'A' ≤ c ∧ c ≤ 'Z' := by
      constructor
      · show (65 : Nat) ≤ c.toNat
        exact h.1
      · show c.toNat ≤ 90
        omega
    have hv : digitVal c = c.toNat - 65 + 10 := by
      unfold digitVal; rw [if_neg h0, if_neg h1, if_pos h2]; rfl
    have hh : hexDigitVal c = c.toNat - 55 := by
      unfold hexDigitVal; rw [if_neg (by omega), if_neg (by omega)]
    rw [hv, hh]; exact ⟨by omega, by omega⟩

theorem foldl_hex_eq (t : Str) (h : ∀ c ∈ t, isHexDigit c = true) (a : Nat) :
    t.foldl (fun acc c => acc * 16 + digitVal c) a =
      t.foldl (fun acc c => acc * 16 + hexDigitVal c) a := by
  induction t generalizing a with
  | nil => rfl
  | cons x xs ih =>
    simp only [List.foldl_cons]
    rw [(isHexDigit_props (h x (List.mem_cons_self _ _))).2.1]
    exact ih (fun c hc => h c (List.mem_cons_of_mem _ hc)) _

/-- `std::stoul` in base 0 on `0x` followed by hexadecimal digits is their hexadecimal value,
when that fits 64 bits. -/
theorem stoul_hex (hs : Str) (h : isHexDigits hs = true) (hv : hexVal hs < 2 ^ 64) :
    stoul ('0' :: 'x' :: hs) 0 = .ok (hexVal hs) := by
  have hne : hs ≠ [] ∧ ∀ c ∈ hs, isHexDigit c = true := by
    cases hs <;> simp_all [isHexDigits]
  obtain ⟨hne, hall⟩ := hne
  cases hs with
  | nil => exact absurd rfl hne
  | cons x xs =>
    have hx := isHexDigit_props (hall x (List.mem_cons_self _ _))
    have h1 : ('0' :: 'x' :: x :: xs).dropWhile isspace = '0' :: 'x' :: x :: xs := by
      simp [List.dropWhile_cons, isspace]
    have h3 : (x :: xs).takeWhile (fun c => decide (digitVal c < 16)) = x :: xs := by
      rw [List.takeWhile_eq_self_iff]
      intro c hc
      simpa using (isHexDigit_props (hall c hc)).2.2
    have hb : stoulBase ('0' :: 'x' :: x :: xs) 0 = (16, x :: xs) := by
      simp [stoulBase, hx.2.2]
    have h2 : (match ('0' :: 'x' :: x :: xs : Str) with
        | '-' :: r => (true, r)
        | '+' :: r => (false, r)
        | _ => ((false, '0' :: 'x' :: x :: xs) : Bool × Str)) = (false, '0' :: 'x' :: x :: xs) := by
      rfl
    unfold stoul
    simp only [h1, h2, hb, h3, List.isEmpty_cons, Bool.false_eq_true, if_false,
      foldl_hex_eq (x :: xs) hall]
    have hv2 : ¬ (List.foldl (fun acc c => acc * 16 + hexDigitVal c) 0 (x :: xs) ≥ 2 ^ 64) := by
      unfold hexVal at hv; omega
    rw [if_neg hv2]
    rfl

/-- `std::stoul` in base 0 on a decimal numeral without a leading zero is its decimal value,
when that fits 64 bits. -/
theorem stoul_decimal_auto (t : Str) (h : isDigits t = true)
    (hz : t.head? ≠ some '0' ∨ t = ['0']) (hv : decVal t < 2 ^ 64) :
    stoul t 0 = .ok (decVal t) := by
  rcases hz with hz | hz
  · obtain ⟨hne, hall⟩ := (isDigits_iff t).1 h
    cases t with
    | nil => exact absurd rfl hne
    | cons x xs =>
      have hx : x.isDigit = true := hall x (List.mem_cons_self _ _)
      have hsp := isspace_false_of_isDigit hx
      have hb := isDigit_bounds hx
      have hx0 : x ≠ '0' := by
        intro hc; apply hz; rw [hc]; rfl
      have h1 : (x :: xs).dropWhile isspace = x :: xs := by simp [List.dropWhile_cons, hsp]
      have hm : x ≠ '-' := by intro hc; subst hc; revert hb; decide
      have hp : x ≠ '+' := by intro hc; subst hc; revert hb; decide
      have h2 : (match (x :: xs : Str) with
          | '-' :: r => (true, r)
          | '+' :: r => (false, r)
          | _ => ((false, x :: xs) : Bool × Str)) = (false, x :: xs) := by
        split
        · next r heq => simp only [List.cons.injEq] at heq; exact absurd heq.1 hm
        · next r heq => simp only [List.cons.injEq] at heq; exact absurd heq.1 hp
        · rfl
      have hbase : stoulBase (x :: xs) 0 = (10, x :: xs) := by
        unfold stoulBase
        split
        · next a b c d heq => simp only [List.cons.injEq] at heq; exact absurd heq.1 hx0
        · next a heq => simp only [List.cons.injEq] at heq; exact absurd heq.1 hx0
        · simp
      have h3 : (x :: xs).takeWhile (fun c => decide (digitVal c < 10)) = x :: xs := by
        rw [List.takeWhile_eq_self_iff]
        intro c hc
        simpa using (digitVal_of_isDigit (hall c hc)).2
      unfold stoul
      simp only [h1, h2, hbase, h3, List.isEmpty_cons, Bool.false_eq_true, if_false,
        foldl_digitVal_eq (x :: xs) hall]
      have hv2 : ¬ (List.foldl (fun acc c => acc * 10 + (c.toNat - 48)) 0 (x :: xs) ≥ 2 ^ 64) := by
        unfold decVal at hv; omega
      rw [if_neg hv2]
      rfl
  · subst hz
    rfl

theorem idTokenValue_stoul (t : Str) (v : Nat) (h : idTokenValue t = some v) (hv : v < 2 ^ 32) :
    stoul t 0 = .ok v ∧ t ≠ [] ∧ ∀ c ∈ t, isspace c = false := by
  have h64 : v < 2 ^ 64 := lt_trans hv (by norm_num)
  unfold idTokenValue at h
  split at h
  · next hs =>
    split at h
    · next hhex =>
      simp only [Option.some.injEq] at h
      subst h
      refine ⟨stoul_hex hs hhex h64, by simp, ?_⟩
      have hall : ∀ c ∈ hs, isHexDigit c = true := by
        cases hs <;> simp_all [isHexDigits]
      intro c hc
      simp only [List.mem_cons] at hc
      rcases hc with hc | hc | hc
      · subst hc; decide
      · subst hc; decide
      · exact (isHexDigit_props (hall c hc)).1
    · exact Option.noConfusion h
  · split at h
    · next hcond =>
      simp only [Option.some.injEq] at h
      subst h
      simp only [Bool.and_eq_true, Bool.or_eq_true, bne_iff_ne, ne_eq, beq_iff_eq] at hcond
      refine ⟨stoul_decimal_auto t hcond.1 hcond.2 h64, ((isDigits_iff t).1 hcond.1).1, ?_⟩
      intro c hc
      exact isspace_false_of_isDigit (((isDigits_iff t).1 hcond.1).2 c hc)
    · exact Option.noConfusion h

theorem boMsgHex705_shaped : boMsgHex705.Shaped :=
  ⟨by decide, by decide, by decide, by decide, atBreak_cons _ (by decide)⟩

theorem boMsg256_shaped : boMsg256.Shaped :=
  ⟨by decide, by decide, by decide, by decide, atBreak_cons _ (by decide)⟩
/-! ## Payload access, zero bytes -/

theorem readByte_inside (data : List Nat) (i : Nat) (h : i < data.length) :
    readByte data (i : Int) = some (data.getD i 0) := by
  unfold readByte
  rw [if_pos (Int.ofNat_nonneg i)]
  simp [List.getD_eq_getElem?_getD, List.getElem?_eq_getElem h]

theorem extract_le_step_checked_eq (data : List Nat) (start r k : Nat) :
    extract_le_step_checked data start (some r) k = some (extract_le_step data start r k) := by
  unfold extract_le_step_checked extract_le_step
  simp only
  by_cases hb : (start + k) % 2 ^ 32 / 8 < data.length
  · rw [if_pos hb, if_pos hb, readByte_inside data _ hb]
  · rw [if_neg hb, if_neg hb]

theorem extract_le_checked_fold (data : List Nat) (start : Nat) (ks : List Nat) :
    ∀ r, ks.foldl (extract_le_step_checked data start) (some r) =
      some (ks.foldl (extract_le_step data start) r) := by
  induction ks with
  | nil => intro r; rfl
  | cons k ks ih =>
    intro r
    simp only [List.foldl_cons, extract_le_step_checked_eq, ih]

theorem extract_be_step_checked_eq (data : List Nat) (st : Nat × (Int × Int)) :
    extract_be_step_checked data (some st) = some (extract_be_step data st) := by
  unfold extract_be_step_checked extract_be_step
  simp only
  by_cases hg : st.2.1 ≥ 0 ∧ st.2.1.toNat < data.length ∧ st.2.2 ≥ 0 ∧ st.2.2 ≤ 7
  · have hr : readByte data st.2.1 = some (data.getD st.2.1.toNat 0) := by
      have := readByte_inside data st.2.1.toNat hg.2.1
      rwa [Int.toNat_of_nonneg hg.1] at this
    rw [if_pos hg, if_pos hg, hr]
    simp only [Option.map_some']
    split <;> rfl
  · rw [if_neg hg, if_neg hg]
    simp only
    split <;> rfl

theorem extract_be_checked_iter (data : List Nat) (n : Nat) :
    ∀ st, (extract_be_step_checked data)^[n] (some st) =
      some ((extract_be_step data)^[n] st) := by
  induction n with
  | zero => intro st; rfl
  | succ n ih =>
    intro st
    rw [Function.iterate_succ_apply, Function.iterate_succ_apply, extract_be_step_checked_eq, ih]

theorem getD_append_zeros (data : List Nat) (z i : Nat) :
    (data ++ List.replicate z 0).getD i 0 = data.getD i 0 := by
  simp only [List.getD_eq_getElem?_getD]
  by_cases h : i < data.length
  · rw [List.getElem?_append_left h]
  · have h2 : data.length ≤ i := Nat.le_of_not_lt h
    rw [List.getElem?_append_right h2, List.getElem?_eq_none h2]
    by_cases h3 : i - data.length < z
    · simp [List.getElem?_replicate, h3]
    · simp [List.getElem?_replicate, h3]

theorem getD_all_zero (data : List Nat) (hz : ∀ b ∈ data, b = 0) (i : Nat) :
    data.getD i 0 = 0 := by
  simp only [List.getD_eq_getElem?_getD]
  cases h : data[i]? with
  | none => rfl
  | some x =>
    have hmem : x ∈ data := List.mem_iff_getElem?.2 ⟨i, h⟩
    simp [hz x hmem]

theorem extract_le_step_zero_byte (data : List Nat) (start r k : Nat)
    (h : data.getD ((start + k) % 2 ^ 32 / 8) 0 = 0) :
    extract_le_step data start r k = r := by
  unfold extract_le_step
  simp only [h]
  split <;> simp

theorem extract_le_step_append_zeros (data : List Nat) (z start r k : Nat) :
    extract_le_step (data ++ List.replicate z 0) start r k = extract_le_step data start r k := by
  by_cases hb : (start + k) % 2 ^ 32 / 8 < data.length
  · unfold extract_le_step
    simp only [getD_append_zeros]
    have hb2 : (start + k) % 2 ^ 32 / 8 < (data ++ List.replicate z 0).length := by
      rw [List.length_append]; omega
    rw [if_pos hb, if_pos hb2]
  · have h0 : data.getD ((start + k) % 2 ^ 32 / 8) 0 = 0 := by
      simp only [List.getD_eq_getElem?_getD]
      rw [List.getElem?_eq_none (Nat.le_of_not_lt hb)]
      rfl
    rw [extract_le_step_zero_byte data start r k h0,
      extract_le_step_zero_byte _ start r k (by rw [getD_append_zeros]; exact h0)]

theorem extract_le_append_zeros (data : List Nat) (z start length : Nat) :
    extract_le (data ++ List.replicate z 0) start length = extract_le data start length := by
  unfold extract_le
  congr 1
  funext r k
  exact extract_le_step_append_zeros data z start r k

theorem extract_be_step_zero_byte (data : List Nat) (st : Nat × (Int × Int))
    (h : data.getD st.2.1.toNat 0 = 0) :
    extract_be_step data st =
      (if st.2.2 - 1 < 0 then (((st.1 <<< 1) % 2 ^ 64, (st.2.1 - 1, 7)) : Nat × (Int × Int))
       else ((st.1 <<< 1) % 2 ^ 64, (st.2.1, st.2.2 - 1))) := by
  unfold extract_be_step
  simp only [h]
  have hv : (if st.2.1 ≥ 0 ∧ st.2.1.toNat < data.length ∧ st.2.2 ≥ 0 ∧ st.2.2 ≤ 7 then
      (0 >>> st.2.2.toNat) &&& 1 else 0) = 0 := by
    split <;> simp
  rw [hv]
  simp

theorem extract_be_step_append_zeros (data : List Nat) (z : Nat) (st : Nat × (Int × Int)) :
    extract_be_step (data ++ List.replicate z 0) st = extract_be_step data st := by
  by_cases hb : st.2.1.toNat < data.length
  · unfold extract_be_step
    simp only [getD_append_zeros]
    have hb2 : st.2.1.toNat < (data ++ List.replicate z 0).length := by
      rw [List.length_append]; omega
    simp only [hb, hb2]
  · have h0 : data.getD st.2.1.toNat 0 = 0 := by
      simp only [List.getD_eq_getElem?_getD]
      rw [List.getElem?_eq_none (Nat.le_of_not_lt hb)]
      rfl
    rw [extract_be_step_zero_byte data st h0,
      extract_be_step_zero_byte _ st (by rw [getD_append_zeros]; exact h0)]

theorem extract_be_append_zeros (data : List Nat) (z start length : Nat) :
    extract_be (data ++ List.replicate z 0) start length = extract_be data start length := by
  unfold extract_be
  congr 2
  funext st
  exact extract_be_step_append_zeros data z st

theorem extract_le_all_zero (data : List Nat) (hz : ∀ b ∈ data, b = 0) (start length : Nat) :
    extract_le data start length = 0 := by
  unfold extract_le
  have : ∀ ks : List Nat, ks.foldl (extract_le_step data start) 0 = 0 := by
    intro ks
    induction ks with
    | nil => rfl
    | cons k ks ih =>
      rw [List.foldl_cons, extract_le_step_zero_byte data start 0 k (getD_all_zero data hz _)]
      exact ih
  exact this _

theorem extract_be_all_zero (data : List Nat) (hz : ∀ b ∈ data, b = 0) (start length : Nat) :
    extract_be data start length = 0 := by
  unfold extract_be
  have : ∀ (n : Nat) (pos : Int × Int), ((extract_be_step data)^[n] (0, pos)).1 = 0 := by
    intro n
    induction n with
    | zero => intro pos; rfl
    | succ n ih =>
      intro pos
      rw [Function.iterate_succ_apply,
        extract_be_step_zero_byte data (0, pos) (getD_all_zero data hz _)]
      simp only [Nat.zero_shiftLeft, Nat.zero_mod]
      split <;> exact ih _
  exact this _ _
/-! ## Writing bits into a payload -/

theorem writeBit_testBit (x bit : Nat) (b : Bool) (j : Nat) :
    (writeBit x bit b).testBit j = if j = bit then b else x.testBit j := by
  unfold writeBit
  by_cases h : x.testBit bit = b
  · rw [if_pos h]
    by_cases hj : j = bit
    · rw [if_pos hj, hj, h]
    · rw [if_neg hj]
  · rw [if_neg h, Nat.testBit_xor, Nat.testBit_two_pow]
    by_cases hj : j = bit
    · subst hj
      rw [if_pos rfl]
      cases hx : x.testBit j <;> cases b <;> simp_all
    · rw [if_neg hj]
      have : ¬ bit = j := fun e => hj e.symm
      simp [this]

theorem setPayloadBit_length (data : List Nat) (byte bit : Nat) (b : Bool) :
    (setPayloadBit data byte bit b).length = data.length := by
  simp [setPayloadBit]

theorem payloadBit_set (data : List Nat) (byte bit : Nat) (b : Bool) (byte2 bit2 : Nat) :
    payloadBit (setPayloadBit data byte bit b) byte2 bit2 =
      if byte2 = byte ∧ bit2 = bit ∧ byte < data.length then b
      else payloadBit data byte2 bit2 := by
  unfold payloadBit
  rw [setPayloadBit_length]
  by_cases hlen : byte2 < data.length
  · simp only [hlen, if_true]
    by_cases hb : byte2 = byte
    · subst hb
      have hg : (setPayloadBit data byte2 bit b).getD byte2 0 =
          writeBit (data.getD byte2 0) bit b := by
        simp [setPayloadBit, List.getD_eq_getElem?_getD, List.getElem?_set, hlen]
      rw [hg, writeBit_testBit]
      by_cases hbit : bit2 = bit
      · simp [hbit, hlen]
      · simp [hbit]
    · have hg : (setPayloadBit data byte bit b).getD byte2 0 = data.getD byte2 0 := by
        have : ¬ byte = byte2 := fun e => hb e.symm
        simp [setPayloadBit, List.getD_eq_getElem?_getD, List.getElem?_set, this]
      rw [hg]
      simp [hb]
  · simp only [hlen, if_false]
    by_cases hb : byte2 = byte
    · subst hb; simp [hlen]
    · simp [hb]

theorem encode_le_length (data : List Nat) (s v : Nat) :
    ∀ n, (encode_le data s n v).length = data.length := by
  intro n
  induction n with
  | zero => rfl
  | succ n ih =>
    unfold encode_le at ih ⊢
    rw [List.range_succ, List.foldl_append, List.foldl_cons, List.foldl_nil,
      setPayloadBit_length, ih]

/-- After the little-endian encoder the payload bit at absolute index `s + j` is bit `j` of
`v` when `j < n` and the byte exists, and the bit of the original payload otherwise. -/
theorem encode_le_payloadBit (data : List Nat) (s v : Nat) :
    ∀ n j, payloadBit (encode_le data s n v) ((s + j) / 8) ((s + j) % 8) =
      if j < n ∧ (s + j) / 8 < data.length then v.testBit j
      else payloadBit data ((s + j) / 8) ((s + j) % 8) := by
  intro n
  induction n with
  | zero => intro j; simp [encode_le]
  | succ n ih =>
    intro j
    have hstep : encode_le data s (n + 1) v =
        setPayloadBit (encode_le data s n v) ((s + n) / 8) ((s + n) % 8) (v.testBit n) := by
      unfold encode_le
      rw [List.range_succ, List.foldl_append, List.foldl_cons, List.foldl_nil]
    rw [hstep, payloadBit_set, encode_le_length, ih j]
    by_cases hjn : j = n
    · subst hjn
      by_cases hlen : (s + j) / 8 < data.length
      · simp [hlen]
      · simp [hlen, payloadBit]
    · have hpos : ¬ ((s + j) / 8 = (s + n) / 8 ∧ (s + j) % 8 = (s + n) % 8 ∧
          (s + n) / 8 < data.length) := by
        intro h
        apply hjn
        have := Nat.div_add_mod (s + j) 8
        have := Nat.div_add_mod (s + n) 8
        omega
      rw [if_neg hpos]
      by_cases hlt : j < n
      · have : j < n + 1 := by omega
        simp [hlt, this]
      · have : ¬ j < n + 1 := by omega
        simp [hlt, this]

/-! ## The Motorola walk in closed form -/

/-- The linear index `8 * byte + bit` falls by one at every step of the walk. -/
theorem be_pos_linear (s : Nat) : ∀ i,
    8 * (be_pos s i).1 + (be_pos s i).2 =
      8 * ((s / 8 : Nat) : Int) + 7 - ((s % 8 : Nat) : Int) - (i : Int) := by
  intro i
  induction i with
  | zero => simp only [be_pos, Function.iterate_zero, id]; omega
  | succ i ih =>
    have hr := be_pos_bit_range s i
    rw [be_pos_succ]
    unfold be_dec
    split
    · next h0 => simp only; push_cast; omega
    · simp only; push_cast; omega

theorem be_pos_injective (s i j : Nat) (h : be_pos s i = be_pos s j) : i = j := by
  have hi := be_pos_linear s i
  have hj := be_pos_linear s j
  rw [h] at hi
  omega

theorem payloadBitAt_eq_payloadBit (data : List Nat) (pos : Int × Int) (h : 0 ≤ pos.1) :
    payloadBitAt data pos = payloadBit data pos.1.toNat pos.2.toNat := by
  unfold payloadBitAt payloadBit
  by_cases hl : pos.1.toNat < data.length
  · rw [if_pos ⟨h, hl⟩, if_pos hl]
  · rw [if_neg (fun hc => hl hc.2), if_neg hl]

theorem setPayloadBitAt_length (data : List Nat) (pos : Int × Int) (b : Bool) :
    (setPayloadBitAt data pos b).length = data.length := by
  unfold setPayloadBitAt
  split
  · exact setPayloadBit_length _ _ _ _
  · rfl

theorem payloadBitAt_set (data : List Nat) (pos pos2 : Int × Int) (b : Bool)
    (hr : 0 ≤ pos.2) (hr2 : 0 ≤ pos2.2) :
    payloadBitAt (setPayloadBitAt data pos b) pos2 =
      if pos2 = pos ∧ 0 ≤ pos.1 ∧ pos.1.toNat < data.length then b
      else payloadBitAt data pos2 := by
  by_cases h2 : 0 ≤ pos2.1
  · by_cases h1 : 0 ≤ pos.1
    · rw [payloadBitAt_eq_payloadBit _ _ h2, payloadBitAt_eq_payloadBit _ _ h2]
      unfold setPayloadBitAt
      rw [if_pos h1, payloadBit_set]
      have hiff : (pos2.1.toNat = pos.1.toNat ∧ pos2.2.toNat = pos.2.toNat ∧
          pos.1.toNat < data.length) ↔ (pos2 = pos ∧ 0 ≤ pos.1 ∧ pos.1.toNat < data.length) := by
        constructor
        · rintro ⟨a, b2, c⟩
          refine ⟨?_, h1, c⟩
          apply Prod.ext <;> omega
        · rintro ⟨a, -, c⟩
          rw [a]
          exact ⟨rfl, rfl, c⟩
      by_cases hc : pos2 = pos ∧ 0 ≤ pos.1 ∧ pos.1.toNat < data.length
      · rw [if_pos hc, if_pos (hiff.2 hc)]
      · rw [if_neg hc, if_neg (fun h => hc (hiff.1 h))]
    · have hne : ¬ (pos2 = pos ∧ 0 ≤ pos.1 ∧ pos.1.toNat < data.length) := fun h => h1 h.2.1
      rw [if_neg hne]
      unfold setPayloadBitAt
      rw [if_neg h1]
  · have hne : ¬ (pos2 = pos ∧ 0 ≤ pos.1 ∧ pos.1.toNat < data.length) := by
      rintro ⟨a, b2, -⟩
      rw [a] at h2
      exact h2 b2
    rw [if_neg hne]
    unfold payloadBitAt
    rw [if_neg (fun hc => h2 hc.1), if_neg (fun hc => h2 hc.1)]

theorem encode_be_upto_length (data : List Nat) (s n v : Nat) :
    ∀ m, (encode_be_upto data s n v m).length = data.length := by
  intro m
  induction m with
  | zero => rfl
  | succ m ih =>
    unfold encode_be_upto at ih ⊢
    rw [List.range_succ, List.foldl_append, List.foldl_cons, List.foldl_nil,
      setPayloadBitAt_length, ih]

/-- After the first `m` writes of the big-endian encoder the payload bit at the `j`-th
position of the walk is bit `n - 1 - j` of `v` when `j < m` and the position is inside the
payload, and the bit of the original payload otherwise. -/
theorem encode_be_upto_payloadBitAt (data : List Nat) (s n v : Nat) :
    ∀ m j, payloadBitAt (encode_be_upto data s n v m) (be_pos s j) =
      if j < m ∧ 0 ≤ (be_pos s j).1 ∧ (be_pos s j).1.toNat < data.length
        then v.testBit (n - 1 - j)
      else payloadBitAt data (be_pos s j) := by
  intro m
  induction m with
  | zero => intro j; simp [encode_be_upto]
  | succ m ih =>
    intro j
    have hstep : encode_be_upto data s n v (m + 1) =
        setPayloadBitAt (encode_be_upto data s n v m) (be_pos s m) (v.testBit (n - 1 - m)) := by
      unfold encode_be_upto
      rw [List.range_succ, List.foldl_append, List.foldl_cons, List.foldl_nil]
    rw [hstep, payloadBitAt_set _ _ _ _ (be_pos_bit_range s m).1 (be_pos_bit_range s j).1,
      encode_be_upto_length, ih j]
    by_cases hjm : j = m
    · subst hjm
      by_cases hin : 0 ≤ (be_pos s j).1 ∧ (be_pos s j).1.toNat < data.length
      · simp [hin]
      · have h1 : ¬ (be_pos s j = be_pos s j ∧ 0 ≤ (be_pos s j).1 ∧
            (be_pos s j).1.toNat < data.length) := fun h => hin h.2
        have h2 : ¬ (j < j ∧ 0 ≤ (be_pos s j).1 ∧ (be_pos s j).1.toNat < data.length) :=
          fun h => hin h.2
        have h3 : ¬ (j < j + 1 ∧ 0 ≤ (be_pos s j).1 ∧ (be_pos s j).1.toNat < data.length) :=
          fun h => hin h.2
        rw [if_neg h1, if_neg h2, if_neg h3]
    · have hpos : ¬ (be_pos s j = be_pos s m ∧ 0 ≤ (be_pos s m).1 ∧
          (be_pos s m).1.toNat < data.length) := fun h => hjm (be_pos_injective s j m h.1)
      rw [if_neg hpos]
      by_cases hlt : j < m
      · have : j < m + 1 := by omega
        simp [hlt, this]
      · have : ¬ j < m + 1 := by omega
        simp [hlt, this]
/-! ## Extraction from a payload prefix, and the walk as an absolute bit index -/

theorem getD_append_left (a rest : List Nat) (i : Nat) (h : i < a.length) :
    (a ++ rest).getD i 0 = a.getD i 0 := by
  simp only [List.getD_eq_getElem?_getD]
  rw [List.getElem?_append_left h]

theorem extract_le_step_prefix (a rest : List Nat) (start r k : Nat)
    (h : (start + k) % 2 ^ 32 / 8 < a.length) :
    extract_le_step (a ++ rest) start r k = extract_le_step a start r k := by
  unfold extract_le_step
  have h2 : (start + k) % 2 ^ 32 / 8 < (a ++ rest).length := by
    rw [List.length_append]; omega
  simp only [h, h2, if_true, getD_append_left a rest _ h]

/-- `extract_le` looks only at the bytes it addresses: bytes after them do not matter. -/
theorem extract_le_prefix (a rest : List Nat) (start : Nat) :
    ∀ n, (∀ k, k < n → (start + k) % 2 ^ 32 / 8 < a.length) →
      extract_le (a ++ rest) start n = extract_le a start n := by
  intro n
  induction n with
  | zero => intro _; rfl
  | succ n ih =>
    intro h
    have ih2 := ih (fun k hk => h k (by omega))
    unfold extract_le at ih2 ⊢
    rw [List.range_succ, List.foldl_append, List.foldl_append, ih2]
    simp only [List.foldl_cons, List.foldl_nil]
    exact extract_le_step_prefix a rest start _ n (h n (by omega))

theorem extract_be_step_prefix (a rest : List Nat) (st : Nat × (Int × Int))
    (h : st.2.1 < (a.length : Int)) :
    extract_be_step (a ++ rest) st = extract_be_step a st ∧
      (extract_be_step a st).2.1 < (a.length : Int) := by
  constructor
  · by_cases h0 : st.2.1 ≥ 0
    · have hl : st.2.1.toNat < a.length := by omega
      have hl2 : st.2.1.toNat < (a ++ rest).length := by
        rw [List.length_append]; omega
      unfold extract_be_step
      simp only [hl, hl2, getD_append_left a rest _ hl]
    · unfold extract_be_step
      simp only [h0, false_and, if_false]
  · unfold extract_be_step
    simp only
    split <;> simp only <;> omega

/-- `extract_be` only walks towards lower byte indices: bytes after the start byte do not
matter. -/
theorem extract_be_prefix (a rest : List Nat) (start n : Nat) (h : start / 8 < a.length) :
    extract_be (a ++ rest) start n = extract_be a start n := by
  have key : ∀ (m : Nat) (st : Nat × (Int × Int)), st.2.1 < (a.length : Int) →
      (extract_be_step (a ++ rest))^[m] st = (extract_be_step a)^[m] st := by
    intro m
    induction m with
    | zero => intro st _; rfl
    | succ m ih =>
      intro st hst
      obtain ⟨e1, e2⟩ := extract_be_step_prefix a rest st hst
      rw [Function.iterate_succ_apply, Function.iterate_succ_apply, e1]
      exact ih _ e2
  unfold extract_be
  rw [key n _ (by simp only; omega)]

/-- The `i`-th position of the walk from `s`, while it has not left the payload at the low
end, is the absolute bit index `p - i`, where `p = 8 * (s / 8) + 7 - s % 8`. -/
theorem payloadBitAt_be_pos (data : List Nat) (s i : Nat)
    (hi : i ≤ 8 * (s / 8) + 7 - s % 8) :
    payloadBitAt data (be_pos s i) =
      payloadBit data ((8 * (s / 8) + 7 - s % 8 - i) / 8) ((8 * (s / 8) + 7 - s % 8 - i) % 8) := by
  have hlin := be_pos_linear s i
  have hr := be_pos_bit_range s i
  have hm := Nat.mod_lt s (show 0 < 8 by decide)
  have hb : 0 ≤ (be_pos s i).1 := by omega
  rw [payloadBitAt_eq_payloadBit data _ hb]
  have e1 : (be_pos s i).1.toNat = (8 * (s / 8) + 7 - s % 8 - i) / 8 := by omega
  have e2 : (be_pos s i).2.toNat = (8 * (s / 8) + 7 - s % 8 - i) % 8 := by omega
  rw [e1, e2]

/-- The big-endian extractor is the little-endian extractor at the start bit
`p + 1 - length`. -/
theorem extract_be_eq_extract_le (data : List Nat) (s n : Nat)
    (hs : s < 2 ^ 16) (h1 : 1 ≤ n) (h64 : n ≤ 64) (hp : n ≤ 8 * (s / 8) + 7 - s % 8 + 1) :
    extract_be data s n = extract_le data (8 * (s / 8) + 7 - s % 8 + 1 - n) n := by
  have hm := Nat.mod_lt s (show 0 < 8 by decide)
  have hstart : 8 * (s / 8) + 7 - s % 8 + 1 - n < 2 ^ 16 := by
    have := Nat.div_add_mod s 8
    norm_num at hs ⊢
    omega
  apply Nat.eq_of_testBit_eq
  intro j
  rw [extract_le_testBit data _ hstart n h64 j]
  unfold extract_be
  rw [(extract_be_iter data s n h64).2 j]
  by_cases hj : j < n
  · rw [payloadBitAt_be_pos data s (n - 1 - j) (by omega)]
    have e : 8 * (s / 8) + 7 - s % 8 - (n - 1 - j) = 8 * (s / 8) + 7 - s % 8 + 1 - n + j := by
      omega
    rw [e]
  · simp [hj]

theorem extract_le_lt (data : List Nat) (s n : Nat) (hs : s < 2 ^ 16) (h64 : n ≤ 64) :
    extract_le data s n < 2 ^ n := by
  apply Nat.lt_pow_two_of_testBit
  intro j hj
  rw [extract_le_testBit data s hs n h64 j]
  have : ¬ j < n := by omega
  simp [this]

theorem extract_be_lt (data : List Nat) (s n : Nat) (h64 : n ≤ 64) :
    extract_be data s n < 2 ^ n := by
  apply Nat.lt_pow_two_of_testBit
  intro j hj
  unfold extract_be
  rw [(extract_be_iter data s n h64).2 j]
  have : ¬ j < n := by omega
  simp [this]
/-! ## Signal lines without a condition on the scale/offset pair -/

/-- The scale and offset read from a text whose first parenthesis opens a pair of plain
tokens that `std::stod` converts to `x` and `y`: when `x` and `y` compare equal to the
defaults the result is taken from the leftmost match of the fallback regex in the whole
text, otherwise it is `(x, y)`. -/
theorem parse_scale_offset_shape (stod : Str → Option Float) (pre sc off tail : Str)
    (x y : Float) (hpre : ∀ c ∈ pre, c ≠ '(')
    (hsc : isPlainToken sc = true) (hoff : isPlainToken off = true)
    (hx : stod sc = some x) (hy : stod off = some y) :
    parse_scale_offset stod (pre ++ '(' :: (sc ++ ',' :: (off ++ ')' :: tail))) =
      if (x == 1.0 && y == 0.0) = true then
        match regex_search (pre ++ '(' :: (sc ++ ',' :: (off ++ ')' :: tail))) with
        | none => (x, y)
        | some (g1, g2) =>
          match stod g1 with
          | none => (x, y)
          | some sc2 =>
            match stod g2 with
            | none => (sc2, y)
            | some off2 => (sc2, off2)
      else (x, y) := by
  obtain ⟨hsc1, hsc2⟩ := isPlainToken_props sc hsc
  obtain ⟨hoff1, hoff2⟩ := isPlainToken_props off hoff
  have hl : find '(' (pre ++ '(' :: (sc ++ ',' :: (off ++ ')' :: tail))) = some pre.length :=
    find_append '(' pre _ hpre
  have hdrop : (pre ++ '(' :: (sc ++ ',' :: (off ++ ')' :: tail))).drop (pre.length + 1) =
      sc ++ ',' :: (off ++ ')' :: tail) := by
    have e : pre ++ '(' :: (sc ++ ',' :: (off ++ ')' :: tail)) =
        (pre ++ ['(']) ++ (sc ++ ',' :: (off ++ ')' :: tail)) := by simp
    have hlen : (pre ++ ['(']).length = pre.length + 1 := by simp
    rw [e, ← hlen, List.drop_left]
  have hr : findFrom ')' (pre ++ '(' :: (sc ++ ',' :: (off ++ ')' :: tail))) (pre.length + 1) =
      some ((sc ++ ',' :: off).length + (pre.length + 1)) := by
    unfold findFrom
    rw [hdrop]
    have e : sc ++ ',' :: (off ++ ')' :: tail) = (sc ++ ',' :: off) ++ ')' :: tail := by simp
    rw [e, find_append ')' (sc ++ ',' :: off) tail
      (by
        intro c hc
        simp only [List.mem_append, List.mem_cons] at hc
        rcases hc with h | h | h
        · exact (hsc2 c h).2.2.1
        · subst h; decide
        · exact (hoff2 c h).2.2.1)]
    rfl
  have hgt : (sc ++ ',' :: off).length + (pre.length + 1) > pre.length + 1 := by
    have : 0 < (sc ++ ',' :: off).length := by simp
    omega
  have hso : substr (pre ++ '(' :: (sc ++ ',' :: (off ++ ')' :: tail))) (pre.length + 1)
      ((sc ++ ',' :: off).length + (pre.length + 1) - pre.length - 1) = sc ++ ',' :: off := by
    unfold substr
    rw [hdrop]
    have e : sc ++ ',' :: (off ++ ')' :: tail) = (sc ++ ',' :: off) ++ ')' :: tail := by simp
    have e2 : (sc ++ ',' :: off).length + (pre.length + 1) - pre.length - 1 =
        (sc ++ ',' :: off).length := by omega
    rw [e, e2, List.take_left]
  have hcomma : find ',' (sc ++ ',' :: off) = some sc.length :=
    find_append ',' sc off (fun c hc => (hsc2 c hc).2.2.2)
  have hs1 : substr (sc ++ ',' :: off) 0 sc.length = sc := by
    unfold substr; rw [List.drop_zero, List.take_left]
  have hs2 : (sc ++ ',' :: off).drop (sc.length + 1) = off := by
    have e : sc ++ ',' :: off = (sc ++ [',']) ++ off := by simp
    have hlen : (sc ++ [',']).length = sc.length + 1 := by simp
    rw [e, ← hlen, List.drop_left]
  unfold parse_scale_offset
  simp only [hl, hr, hgt, if_true, hso, hcomma, hs1, hs2,
    trim_eq_self sc (fun c hc => (hsc2 c hc).1), trim_eq_self off (fun c hc => (hoff2 c hc).1),
    hx, hy]

/-- The loop iteration on a signal line of the shape `SgLineSpec.Shaped`: under a current
message the signal appended has the name of the line, start and length the converted
numerals cast to `uint16_t`, the flags compared with `1` and `-`, and the scale and offset
that the scale/offset part of the branch reads from the text after the colon. -/
theorem parse_line_sg_shaped (stod : Str → Option Float) (st : PState) (l : SgLineSpec)
    (h : l.Shaped) :
    parse_line stod st l.text =
      .ok (match st.current with
        | none => st
        | some cur => { st with net := st.net.push_signal cur (l.stored stod) }) := by
  have he : isspace l.e = false := by
    rcases h.endian_flag with h1 | h1 <;> (rw [h1]; decide)
  have hs : isspace l.s = false := by
    rcases h.sign_flag with h1 | h1 <;> (rw [h1]; decide)
  have hst := isDigits_plain l.startTxt h.start_digits
  have hlen := isDigits_plain l.lenTxt h.len_digits
  have hrest : AtBreak (' ' :: '(' :: (l.sc ++ ',' :: (l.off ++ ')' :: l.tail))) :=
    atBreak_cons _ (by decide)
  unfold SgLineSpec.text
  rw [parse_line_sgLine stod st l.lead l.name l.mid _ _ h.lead_blank (bitSpec_ne_nil _ _ _ _)
    (bitSpec_not_space _ _ _ _ (fun c hc => (hst c hc).1) (fun c hc => (hlen c hc).1) he hs)]
  unfold parse_sg
  rw [parse_sg_fields_sgLine stod l.name l.mid l.startTxt l.lenTxt
    ((' ' :: '(' :: (l.sc ++ ',' :: (l.off ++ ')' :: l.tail))).rdropWhile isTrimChar) l.e l.s
    h.name_ne h.name_plain h.mid_break h.mid_plain
    (fun c hc => ⟨(hst c hc).1, (hst c hc).2.1, (hst c hc).2.2.1⟩)
    (fun c hc => ⟨(hlen c hc).1, (hlen c hc).2.2.1⟩) he hs
    (atBreak_rdropWhile _ _ hrest),
    List.rdropWhile_idempotent,
    stoul_digits l.startTxt h.start_digits h.start_conv,
    stoul_digits l.lenTxt h.len_digits h.len_conv]
  rfl

/-- A run of signal lines of the shape `SgLineSpec.Shaped` under a current message appends
one signal per line, in order, with `bit_len` the length numeral cast to `uint16_t`. -/
theorem parse_lines_sg_shaped (stod : Str → Option Float) (ls : List SgLineSpec)
    (hsh : ∀ l ∈ ls, l.Shaped) :
    ∀ (st : PState) (cur : Nat) (m : Message), st.current = some cur →
      st.net.msgs cur = some m →
      ∃ st2 m2, parse_lines stod st (ls.map SgLineSpec.text) = .ok st2 ∧
        st2.current = some cur ∧ st2.net.msgs cur = some m2 ∧
        m2.signals.map (fun s => s.bit_len) =
          m.signals.map (fun s => s.bit_len) ++ ls.map (fun l => decVal l.lenTxt % 2 ^ 16) ∧
        m2.signals.map (fun s => s.name) =
          m.signals.map (fun s => s.name) ++ ls.map (fun l => l.name) := by
  induction ls with
  | nil =>
    intro st cur m hcur hm
    exact ⟨st, m, rfl, hcur, hm, by simp, by simp⟩
  | cons l ls ih =>
    intro st cur m hcur hm
    have hl := parse_line_sg_shaped stod st l (hsh l (List.mem_cons_self _ _))
    rw [hcur] at hl
    obtain ⟨st2, m2, h1, h2, h3, h4, h5⟩ := ih (fun x hx => hsh x (List.mem_cons_of_mem _ hx))
      ⟨st.net.push_signal cur (l.stored stod), some cur⟩ cur
      { m with signals := m.signals ++ [l.stored stod] } rfl
      (push_signal_same st.net cur m _ hm)
    refine ⟨st2, m2, ?_, h2, h3, ?_, ?_⟩
    · simp only [List.map_cons, parse_lines, hl]
      exact h1
    · rw [h4]; simp [SgLineSpec.stored]
    · rw [h5]; simp [SgLineSpec.stored]

theorem sgFallback_shaped : sgFallback.Shaped :=
  ⟨by decide, by decide, by decide, atBreak_cons _ (by decide), by decide, by decide, by decide,
    by decide, by decide, by decide, by decide⟩

theorem sgWide_shaped : sgWide.Shaped :=
  ⟨by decide, by decide, by decide, atBreak_cons _ (by decide), by decide, by decide, by decide,
    by decide, by decide, by decide, by decide⟩

theorem shaped_of_wellFormed (stod : Str → Option Float) (l : SgLineSpec)
    (h : l.WellFormed stod) : l.Shaped :=
  ⟨h.lead_blank, h.name_ne, h.name_plain, h.mid_break, h.mid_plain, h.start_digits,
    lt_trans h.start_fits (by norm_num), h.len_digits, lt_trans h.len_fits (by norm_num),
    h.endian_flag, h.sign_flag⟩

/-! ## Claims -/

/-- C1: for every payload, every 16-bit `start` and every `length` in 1..64, bit `k < length`
of `extract_le data start length` is bit `(start + k) % 8` of payload byte `(start + k) / 8`
when that byte index is inside the payload and 0 otherwise, and every bit at a position
`k ≥ length` is 0. -/
theorem extract_le_bits (data : List Nat) (start length : Nat)
    (hs : start < 2 ^ 16) (_h1 : 1 ≤ length) (h64 : length ≤ 64) :
    (∀ k, k < length →
      (extract_le data start length).testBit k =
        (if (start + k) / 8 < data.length
          then (data.getD ((start + k) / 8) 0).testBit ((start + k) % 8) else false)) ∧
    (∀ k, length ≤ k → (extract_le data start length).testBit k = false) := by
  constructor
  · intro k hk
    rw [extract_le_testBit data start hs length h64 k]
    simp [hk, payloadBit]
  · intro k hk
    rw [extract_le_testBit data start hs length h64 k]
    have : ¬ k < length := by omega
    simp [this]

theorem extract_le_bits_witness :
    (∀ k, k < 16 →
      (extract_le [0x2C, 0x01] 0 16).testBit k =
        (if (0 + k) / 8 < [0x2C, 0x01].length
          then (([0x2C, 0x01] : List Nat).getD ((0 + k) / 8) 0).testBit ((0 + k) % 8) else false)) ∧
    (∀ k, 16 ≤ k → (extract_le [0x2C, 0x01] 0 16).testBit k = false) :=
  extract_le_bits [0x2C, 0x01] 0 16 (by decide) (by decide) (by decide)

/-- C2: for every payload, every `start` and every `length` in 1..64, the most significant
bit (bit `length - 1`) of `extract_be data start length` is bit `7 - start % 8` of byte
`start / 8`; bit `length - 1 - i` is the payload bit reached from there by `i` decrements of
the bit index, each wrapping from bit 0 to bit 7 of the previous byte; a position whose byte
index is negative or past the end of the payload contributes 0; bits at positions
`≥ length` are 0. -/
theorem extract_be_bits (data : List Nat) (start length : Nat)
    (_h1 : 1 ≤ length) (h64 : length ≤ 64) :
    be_pos start 0 = (((start / 8 : Nat) : Int), 7 - ((start % 8 : Nat) : Int)) ∧
    (∀ i, i < length →
      (extract_be data start length).testBit (length - 1 - i) =
        payloadBitAt data (be_dec^[i] (be_pos start 0))) ∧
    (∀ k, length ≤ k → (extract_be data start length).testBit k = false) := by
  have h := (extract_be_iter data start length h64).2
  refine ⟨rfl, ?_, ?_⟩
  · intro i hi
    unfold extract_be
    rw [h (length - 1 - i)]
    have e : length - 1 - (length - 1 - i) = i := by omega
    have hlt : length - 1 - i < length := by omega
    rw [e]
    simp [hlt, be_pos]
  · intro k hk
    unfold extract_be
    rw [h k]
    have : ¬ k < length := by omega
    simp [this]

theorem extract_be_bits_witness :
    be_pos 0 0 = (((0 / 8 : Nat) : Int), 7 - ((0 % 8 : Nat) : Int)) ∧
    (∀ i, i < 12 →
      (extract_be [0xFF, 0x0F] 0 12).testBit (12 - 1 - i) =
        payloadBitAt [0xFF, 0x0F] (be_dec^[i] (be_pos 0 0))) ∧
    (∀ k, 12 ≤ k → (extract_be [0xFF, 0x0F] 0 12).testBit k = false) :=
  extract_be_bits [0xFF, 0x0F] 0 12 (by decide) (by decide)

/-- C3: for every signal with `1 ≤ bit_len ≤ 64` and every payload, `decode_signal_phys`
returns `toDouble(v) * scale + offset`, where `u` is the extracted raw value masked to
`bit_len` bits (`bit_len = 64` uses the full-width mask `2 ^ 64 - 1`), `v = u` for an unsigned
signal or when `u < 2 ^ (bit_len - 1)`, and `v = u - 2 ^ bit_len` for a signed signal whose top
bit is set; for a signed signal `-2 ^ (bit_len - 1) ≤ v < 2 ^ (bit_len - 1)`. -/
theorem decode_signal_phys_spec (sig : Signal) (data : List Nat)
    (h1 : 1 ≤ sig.bit_len) (h64 : sig.bit_len ≤ 64) :
    decode_signal_phys sig data = Float.ofInt (rawValue sig data) * sig.scale + sig.offset ∧
    rawUnsigned sig data =
      (if sig.little_endian then extract_le data sig.start_bit sig.bit_len
       else extract_be data sig.start_bit sig.bit_len) &&& mask_nbits sig.bit_len ∧
    mask_nbits 64 = 2 ^ 64 - 1 ∧
    (sig.is_signed = true →
      -(2 : Int) ^ (sig.bit_len - 1) ≤ rawValue sig data ∧
        rawValue sig data < 2 ^ (sig.bit_len - 1)) := by
  have hmask := mask_nbits_eq sig.bit_len h64
  have hraw : (if sig.little_endian then extract_le data sig.start_bit sig.bit_len
       else extract_be data sig.start_bit sig.bit_len) &&& mask_nbits sig.bit_len =
      rawUnsigned sig data := by
    rw [hmask, Nat.and_pow_two_sub_one_eq_mod]; rfl
  have hu : rawUnsigned sig data < 2 ^ sig.bit_len := Nat.mod_lt _ (Nat.two_pow_pos _)
  have hhalf : 2 ^ sig.bit_len = 2 * 2 ^ (sig.bit_len - 1) := by
    rw [← Nat.pow_succ']; congr 1; omega
  have h63 : 2 ^ (sig.bit_len - 1) ≤ 2 ^ 63 := Nat.pow_le_pow_right (by decide) (by omega)
  refine ⟨?_, hraw.symm, rfl, ?_⟩
  · unfold decode_signal_phys
    simp only [hraw]
    cases hsg : sig.is_signed with
    | false =>
      simp [rawValue, hsg, Float.ofInt]
    | true =>
      simp only [if_true]
      have hsb : (1 <<< (sig.bit_len - 1)) % 2 ^ 64 = 2 ^ (sig.bit_len - 1) := by
        rw [Nat.one_shiftLeft, Nat.mod_eq_of_lt (by omega)]
      rw [hsb, hmask]
      by_cases htop : 2 ^ (sig.bit_len - 1) ≤ rawUnsigned sig data
      · have hne : rawUnsigned sig data &&& 2 ^ (sig.bit_len - 1) ≠ 0 :=
          (and_two_pow_ne_zero_iff _ _).2 ((testBit_top_iff _ _ h1 hu).2 htop)
        rw [if_pos hne, sign_extend_eq _ _ h1 h64 hu htop]
        simp [rawValue, hsg, htop]
      · have hne : ¬ (rawUnsigned sig data &&& 2 ^ (sig.bit_len - 1) ≠ 0) := by
          intro h
          exact htop ((testBit_top_iff _ _ h1 hu).1 ((and_two_pow_ne_zero_iff _ _).1 h))
        rw [if_neg hne, toInt64_small _ (by omega)]
        simp [rawValue, hsg, htop]
  · intro hsg
    unfold rawValue
    by_cases htop : 2 ^ (sig.bit_len - 1) ≤ rawUnsigned sig data
    · rw [if_pos ⟨hsg, htop⟩]
      have e : ((2 : Int) ^ sig.bit_len) = 2 * 2 ^ (sig.bit_len - 1) := by exact_mod_cast hhalf
      have a : ((2 ^ (sig.bit_len - 1) : Nat) : Int) ≤ (rawUnsigned sig data : Int) := by exact_mod_cast htop
      have b : ((rawUnsigned sig data : Nat) : Int) < ((2 ^ sig.bit_len : Nat) : Int) := by exact_mod_cast hu
      push_cast at a b
      constructor <;> linarith
    · rw [if_neg (fun h => htop h.2)]
      have a : ((rawUnsigned sig data : Nat) : Int) < ((2 ^ (sig.bit_len - 1) : Nat) : Int) := by
        exact_mod_cast (Nat.lt_of_not_le htop)
      push_cast at a
      have c : (0 : Int) ≤ (rawUnsigned sig data : Int) := Int.ofNat_nonneg _
      have d : (0 : Int) < 2 ^ (sig.bit_len - 1) := by positivity
      constructor <;> linarith

theorem decode_signal_phys_spec_witness :
    decode_signal_phys ⟨[], 0, 12, false, true, 1.0, 0.0⟩ [0xFF, 0x0F] =
      Float.ofInt (rawValue ⟨[], 0, 12, false, true, 1.0, 0.0⟩ [0xFF, 0x0F]) * 1.0 + 0.0 ∧
    rawUnsigned ⟨[], 0, 12, false, true, 1.0, 0.0⟩ [0xFF, 0x0F] =
      (if false = true then extract_le [0xFF, 0x0F] 0 12
       else extract_be [0xFF, 0x0F] 0 12) &&& mask_nbits 12 ∧
    mask_nbits 64 = 2 ^ 64 - 1 ∧
    (true = true →
      -(2 : Int) ^ (12 - 1) ≤ rawValue ⟨[], 0, 12, false, true, 1.0, 0.0⟩ [0xFF, 0x0F] ∧
        rawValue ⟨[], 0, 12, false, true, 1.0, 0.0⟩ [0xFF, 0x0F] < 2 ^ (12 - 1)) :=
  decode_signal_phys_spec ⟨[], 0, 12, false, true, 1.0, 0.0⟩ [0xFF, 0x0F] (by decide) (by decide)

/-- C4, as stated, fails: in the multiplexing scenario (switch `Sw` in byte 0, `A` declared
`m0`, `B` declared `m1`) the core frame decoder emits all three signals for a payload whose
switch byte is 0 and for one whose switch byte is 1, whereas the claim has `B` left out for
switch value 0 and `A` left out for switch value 1. -/
theorem mux_selection_counterexample :
    rawOf (parse_dbc_file stod_dec "db.dbc".toList (some muxDb) Network.empty) 256
        "Sw".toList [0, 7] = some 0 ∧
    emittedNames (parse_dbc_file stod_dec "db.dbc".toList (some muxDb) Network.empty) 256 [0, 7] =
      some (3, ["Sw".toList, "A".toList, "B".toList]) ∧
    rawOf (parse_dbc_file stod_dec "db.dbc".toList (some muxDb) Network.empty) 256
        "Sw".toList [1, 7] = some 1 ∧
    emittedNames (parse_dbc_file stod_dec "db.dbc".toList (some muxDb) Network.empty) 256 [1, 7] =
      some (3, ["Sw".toList, "A".toList, "B".toList]) := by
  refine ⟨?_, ?_, ?_, ?_⟩ <;> decide

theorem decode_frame_fold (timestamp : Float) (data : List Nat) (sigs : List Signal) :
    ∀ (n : Nat) (os : List OutLine),
      sigs.foldl
        (fun (acc : Nat × List OutLine) sig =>
          (acc.1 + 1, acc.2 ++ [⟨timestamp, sig.name, decode_signal_phys sig data⟩]))
        (n, os) =
      (n + sigs.length,
        os ++ sigs.map (fun sig => ⟨timestamp, sig.name, decode_signal_phys sig data⟩)) := by
  induction sigs with
  | nil => intro n os; simp
  | cons s ss ih =>
    intro n os
    simp only [List.foldl_cons, ih, List.length_cons, List.map_cons, List.append_assoc,
      List.singleton_append]
    congr 1
    omega

/-- C4 (amended): the core frame decoder applies no multiplex selection. For every catalog,
every identifier known to it and every payload, `decode_frame_and_write` writes one line for
every signal of the message, in the order of the message's signal list, each with the value
`decode_signal_phys` gives, and returns the number of signals of the message: a signal
declared with a multiplex marker is emitted whatever the switch value is. -/
theorem decode_frame_emits_every_signal (net : Network) (can_id : Nat) (msg : Message)
    (timestamp : Float) (data : List Nat) (os : List OutLine)
    (hmsg : net.msgs can_id = some msg) :
    decode_frame_and_write net can_id timestamp data os =
      (msg.signals.length,
        os ++ msg.signals.map (fun sig => ⟨timestamp, sig.name, decode_signal_phys sig data⟩)) := by
  unfold decode_frame_and_write
  rw [hmsg]
  simp only
  rw [decode_frame_fold timestamp data msg.signals 0 os]
  simp

theorem decode_frame_emits_every_signal_witness :
    decode_frame_and_write (Network.empty.assign 256 ⟨256, "Msg".toList, 8, [sgMuxA.signal stod_dec]⟩)
        256 0.0 [1, 7] [] =
      (([sgMuxA.signal stod_dec] : List Signal).length,
        [] ++ ([sgMuxA.signal stod_dec] : List Signal).map
          (fun sig => ⟨0.0, sig.name, decode_signal_phys sig [1, 7]⟩)) :=
  decode_frame_emits_every_signal
    (Network.empty.assign 256 ⟨256, "Msg".toList, 8, [sgMuxA.signal stod_dec]⟩) 256
    ⟨256, "Msg".toList, 8, [sgMuxA.signal stod_dec]⟩ 0.0 [1, 7] [] (assign_same _ _ _)

/-- C5 (failing input): on a database whose only line is `BO_ abc Msg: 8 ECU` the parse does
not return: the conversion of the identifier token throws `std::invalid_argument`, for every
`std::stod` and every catalog passed in. -/
theorem parse_bad_identifier_throws (stod : Str → Option Float) (path : Str) (out : Network) :
    parse_dbc_file stod path (some ["BO_ abc Msg: 8 ECU".toList]) out =
      .error .invalid_argument := by
  rfl

/-- C6 (failing input): after the message `BO_ 256 Msg: 8 ECU` with its signal `SigLE`, the
transmitter-list line `BO_TX_BU_ 256 : ECU;` replaces the catalog entry 256 by a message
with an empty name and no signals. -/
theorem transmitter_list_overwrites_message :
    catalogEntry (parse_dbc_file stod_dec "db.dbc".toList
        (some [boMsg256.text, sgSigLE.text]) Network.empty) 256 =
      some ("Msg".toList, 8, ["SigLE".toList]) ∧
    catalogEntry (parse_dbc_file stod_dec "db.dbc".toList
        (some [boMsg256.text, sgSigLE.text, "BO_TX_BU_ 256 : ECU;".toList]) Network.empty) 256 =
      some ([], 8, []) := by
  constructor <;> decide

/-- C7, as stated, fails: a signal line whose scale does not parse (`(abc,0)`), and one whose
endian and sign flags do not parse (`@xy`), are kept; the message ends with two signals, not
only the well-formed one. -/
theorem malformed_signal_kept_counterexample :
    catalogEntry (parse_dbc_file stod_dec "db.dbc".toList
        (some ["BO_ 256 Msg: 8 ECU".toList, " SG_ Bad : 0|8@1+ (abc,0) [0|1] \"\" ECU".toList,
          sgSigLE.text]) Network.empty) 256 =
      some ("Msg".toList, 8, ["Bad".toList, "SigLE".toList]) ∧
    catalogEntry (parse_dbc_file stod_dec "db.dbc".toList
        (some ["BO_ 256 Msg: 8 ECU".toList, " SG_ Bad : 0|8@xy (1,0) [0|1] \"\" ECU".toList,
          sgSigLE.text]) Network.empty) 256 =
      some ("Msg".toList, 8, ["Bad".toList, "SigLE".toList]) := by
  constructor <;> decide

/-- C7 (amended): a signal record whose start or length field `std::stoul` cannot convert is
discarded and does not stop the load. For every database made of a well-formed message line,
a signal line `SG_ <name><mid>: <start>|<length>@<e><s><rest>` whose start or length
conversion throws, and a well-formed signal line, `parse_dbc_file` returns true and the
message's signal list is exactly the well-formed signal. -/
theorem unparseable_start_or_length_discarded (stod : Str → Option Float) (path : Str)
    (out : Network) (b : BoLineSpec) (id : Nat) (good : SgLineSpec)
    (lead name mid startTxt lenTxt rest : Str) (e s : Char)
    (hb : b.WellFormed id) (hgood : good.WellFormed stod)
    (hlead : ∀ c ∈ lead, isTrimChar c = true)
    (hne : name ≠ []) (hname : ∀ c ∈ name, isspace c = false ∧ c ≠ ':')
    (hmid : AtBreak mid) (hmid2 : ∀ c ∈ mid, c ≠ ':')
    (hst : ∀ c ∈ startTxt, isspace c = false ∧ c ≠ '|' ∧ c ≠ '@')
    (hlen : ∀ c ∈ lenTxt, isspace c = false ∧ c ≠ '@')
    (he : isspace e = false) (hs : isspace s = false) (hrest : AtBreak rest)
    (hbad : (stoul startTxt 10).toOption = none ∨ (stoul lenTxt 10).toOption = none) :
    ∃ o, parse_dbc_file stod path
        (some [b.text, lead ++ sgLine name mid (bitSpec startTxt lenTxt e s) rest, good.text])
        out = .ok o ∧
      o.ok = true ∧
      o.out.msgs id = some ⟨id, b.name, b.dlc, [good.signal stod]⟩ := by
  have h1 := parse_line_bo_wf stod ⟨out, none⟩ b id hb
  have hbs := bitSpec_not_space startTxt lenTxt e s (fun c hc => (hst c hc).1)
    (fun c hc => (hlen c hc).1) he hs
  have hfields := parse_sg_fields_sgLine stod name mid startTxt lenTxt
    (rest.rdropWhile isTrimChar) e s hne hname hmid hmid2 hst hlen he hs
    (atBreak_rdropWhile _ _ hrest)
  have hnone : parse_sg_fields stod (sgLine name mid (bitSpec startTxt lenTxt e s)
      (rest.rdropWhile isTrimChar)) = none := by
    rw [hfields]
    rcases hbad with h | h
    · cases hs1 : stoul startTxt 10 with
      | error e1 => rfl
      | ok v => rw [hs1] at h; simp [Except.toOption] at h
    · cases hs2 : stoul lenTxt 10 with
      | error e1 => cases stoul startTxt 10 <;> rfl
      | ok v => rw [hs2] at h; simp [Except.toOption] at h
  have h2 : parse_line stod ⟨out.assign id (b.message id), some id⟩
      (lead ++ sgLine name mid (bitSpec startTxt lenTxt e s) rest) =
      .ok ⟨out.assign id (b.message id), some id⟩ := by
    rw [parse_line_sgLine stod _ lead name mid _ rest hlead (bitSpec_ne_nil _ _ _ _) hbs]
    unfold parse_sg
    simp only [hnone]
  have h3 := parse_line_sg_wf stod ⟨out.assign id (b.message id), some id⟩ good hgood
  refine ⟨⟨true, (out.assign id (b.message id)).push_signal id (good.signal stod), []⟩, ?_, rfl, ?_⟩
  · simp only [parse_dbc_file, parse_lines, h1, h2, h3]
  · simp only
    rw [push_signal_same _ id (b.message id) _ (assign_same _ _ _)]
    simp [BoLineSpec.message]

theorem unparseable_start_or_length_discarded_witness :
    ∃ o, parse_dbc_file stod_dec "db.dbc".toList
        (some [boMsg256.text,
          " ".toList ++ sgLine "Bad".toList " ".toList (bitSpec "x".toList "8".toList '1' '+')
            " (1,0) [0|1] \"\" ECU".toList,
          sgSigLE.text])
        Network.empty = .ok o ∧
      o.ok = true ∧
      o.out.msgs 256 = some ⟨256, boMsg256.name, boMsg256.dlc, [sgSigLE.signal stod_dec]⟩ :=
  unparseable_start_or_length_discarded stod_dec "db.dbc".toList Network.empty boMsg256 256
    sgSigLE " ".toList "Bad".toList " ".toList "x".toList "8".toList
    " (1,0) [0|1] \"\" ECU".toList '1' '+' boMsg256_wf sgSigLE_wf
    (by decide) (by decide) (by decide) (atBreak_cons _ (by decide)) (by decide) (by decide)
    (by decide) (by decide) (by decide) (atBreak_cons _ (by decide)) (Or.inl (by decide))

/-- The fields of a signal line on which the fallback cannot replace the pair (the pair is
written in the notation of the fallback regex, or does not compare equal to the defaults):
a line `SG_ <name><mid>: <start>|<length>@<endian><sign> (<scale>,<offset>)<tail>` read
while a message is current appends to that message, and to no other, the signal with that
name, `start_bit = <start>`, `bit_len = <length>`, `little_endian` true iff `<endian>` is
`1`, `is_signed` true iff `<sign>` is `-`, and scale and offset the conversions of the two
numbers of the pair; what stands between the name and the colon (`mid`: a blank, or a
multiplex marker between blanks) does not enter the signal. -/
theorem signal_line_fields (stod : Str → Option Float) (st : PState) (cur : Nat) (m : Message)
    (l : SgLineSpec) (x y : Float)
    (hl : l.WellFormed stod) (hcur : st.current = some cur) (hm : st.net.msgs cur = some m)
    (hx : stod l.sc = some x) (hy : stod l.off = some y) :
    ∃ st2, parse_line stod st l.text = .ok st2 ∧
      st2.current = some cur ∧
      st2.net.msgs cur =
        some { m with signals := m.signals ++
          [⟨l.name, decVal l.startTxt, decVal l.lenTxt, l.e == '1', l.s == '-', x, y⟩] } ∧
      ∀ k, k ≠ cur → st2.net.msgs k = st.net.msgs k := by
  have h := parse_line_sg_wf stod st l hl
  rw [hcur] at h
  refine ⟨⟨st.net.push_signal cur (l.signal stod), some cur⟩, h, rfl, ?_, ?_⟩
  · simp only
    rw [push_signal_same st.net cur m _ hm]
    simp [SgLineSpec.signal, hx, hy]
  · intro k hk
    exact push_signal_other st.net cur k _ hk

theorem signal_line_fields_witness :
    ∃ st2, parse_line stod_dec ⟨Network.empty.assign 256 (boMsg256.message 256), some 256⟩
        sgSigLE.text = .ok st2 ∧
      st2.current = some 256 ∧
      st2.net.msgs 256 =
        some { boMsg256.message 256 with signals := (boMsg256.message 256).signals ++
          [⟨sgSigLE.name, decVal sgSigLE.startTxt, decVal sgSigLE.lenTxt, sgSigLE.e == '1',
            sgSigLE.s == '-', Float.ofScientific 1 true 1, Float.ofScientific 0 false 0⟩] } ∧
      ∀ k, k ≠ 256 → st2.net.msgs k =
        (Network.empty.assign 256 (boMsg256.message 256)).msgs k :=
  signal_line_fields stod_dec ⟨Network.empty.assign 256 (boMsg256.message 256), some 256⟩ 256
    (boMsg256.message 256) sgSigLE (Float.ofScientific 1 true 1) (Float.ofScientific 0 false 0)
    sgSigLE_wf rfl (assign_same _ _ _) (by rfl) (by rfl)

/-- C8 (failing input): the database `BO_ 256 Msg: 8 ECU`,
` SG_ S : 0|8@1+ (1e+0,0) [0|1] "(2,3)" ECU`. With `a`, `b`, `c`, `d` the conversions of
`1e+0`, `0`, `2`, `3` by `std::stod`, the direct parse reads the pair `(a, b)` of the line;
the test `scale == 1.0 && offset == 0.0` then decides: when it holds (as it does for the
values 1 and 0) the fallback regex is searched in the text after the colon, does not match
at `(1e+0,0)` and matches `(2,3)` inside the unit text, and the signal is stored with scale
`c` and offset `d` instead of `a` and `b`. -/
theorem fallback_replaces_parsed_pair (stod : Str → Option Float) (path : Str)
    (a b c d : Float)
    (ha : stod "1e+0".toList = some a) (hb : stod "0".toList = some b)
    (hc : stod "2".toList = some c) (hd : stod "3".toList = some d) :
    sgFallback.text = " SG_ S : 0|8@1+ (1e+0,0) [0|1] \"(2,3)\" ECU".toList ∧
    sgFallback.right = "0|8@1+ (1e+0,0) [0|1] \"(2,3)\" ECU".toList ∧
    re_match_here "(1e+0,0) [0|1] \"(2,3)\" ECU".toList = none ∧
    regex_search sgFallback.right = some ("2".toList, "3".toList) ∧
    parse_scale_offset stod sgFallback.right =
      (if (a == 1.0 && b == 0.0) = true then (c, d) else (a, b)) ∧
    parse_dbc_file stod path (some [boMsg256.text, sgFallback.text]) Network.empty =
      .ok ⟨true, (Network.empty.assign 256 (boMsg256.message 256)).push_signal 256
        ⟨"S".toList, 0, 8, true, false,
          (if (a == 1.0 && b == 0.0) = true then (c, d) else (a, b)).1,
          (if (a == 1.0 && b == 0.0) = true then (c, d) else (a, b)).2⟩, []⟩ := by
  have hright : sgFallback.right = "0|8@1+ (1e+0,0) [0|1] \"(2,3)\" ECU".toList := by decide
  have hre : regex_search sgFallback.right = some ("2".toList, "3".toList) := by decide
  have hsplit : sgFallback.right = "0|8@1+ ".toList ++
      '(' :: ("1e+0".toList ++ ',' :: ("0".toList ++ ')' :: " [0|1] \"(2,3)\" ECU".toList)) := by
    decide
  have hpso : parse_scale_offset stod sgFallback.right =
      (if (a == 1.0 && b == 0.0) = true then (c, d) else (a, b)) := by
    have h := parse_scale_offset_shape stod "0|8@1+ ".toList "1e+0".toList "0".toList
      " [0|1] \"(2,3)\" ECU".toList a b (by decide) (by decide) (by decide) ha hb
    rw [← hsplit, hre] at h
    simp only [hc, hd] at h
    exact h
  refine ⟨by decide, hright, by decide, hre, hpso, ?_⟩
  have h1 := parse_line_bo_wf stod ⟨Network.empty, none⟩ boMsg256 256 boMsg256_wf
  have h2 := parse_line_sg_shaped stod
    ⟨Network.empty.assign 256 (boMsg256.message 256), some 256⟩ sgFallback sgFallback_shaped
  simp only [parse_dbc_file, parse_lines, h1, h2, SgLineSpec.stored, hpso]
  rfl

theorem fallback_replaces_parsed_pair_witness :
    parse_dbc_file stod_dec "db.dbc".toList (some [boMsg256.text, sgFallback.text])
        Network.empty =
      .ok ⟨true, (Network.empty.assign 256 (boMsg256.message 256)).push_signal 256
        ⟨"S".toList, 0, 8, true, false,
          (if (Float.ofScientific 1 false 0 == 1.0 && Float.ofScientific 0 false 0 == 0.0) = true
            then (Float.ofScientific 2 false 0, Float.ofScientific 3 false 0)
            else (Float.ofScientific 1 false 0, Float.ofScientific 0 false 0)).1,
          (if (Float.ofScientific 1 false 0 == 1.0 && Float.ofScientific 0 false 0 == 0.0) = true
            then (Float.ofScientific 2 false 0, Float.ofScientific 3 false 0)
            else (Float.ofScientific 1 false 0, Float.ofScientific 0 false 0)).2⟩, []⟩ :=
  (fallback_replaces_parsed_pair stod_dec "db.dbc".toList (Float.ofScientific 1 false 0)
    (Float.ofScientific 0 false 0) (Float.ofScientific 2 false 0) (Float.ofScientific 3 false 0)
    rfl rfl rfl rfl).2.2.2.2.2

/-- C9: signal records attach to the most recent message record. For a database made of a
well-formed message line, a run of well-formed signal lines, a second well-formed message
line with another identifier and a second run of well-formed signal lines,
`parse_dbc_file` returns true, the entry of the first identifier holds exactly the signals of
the first run in the order of their lines, and the entry of the second identifier exactly
those of the second run. -/
theorem signals_attach_to_latest_message (stod : Str → Option Float) (path : Str)
    (out : Network) (b1 b2 : BoLineSpec) (id1 id2 : Nat) (sgs1 sgs2 : List SgLineSpec)
    (h1 : b1.WellFormed id1) (h2 : b2.WellFormed id2) (hne : id1 ≠ id2)
    (hs1 : ∀ l ∈ sgs1, l.WellFormed stod) (hs2 : ∀ l ∈ sgs2, l.WellFormed stod) :
    ∃ o, parse_dbc_file stod path
        (some (b1.text :: sgs1.map SgLineSpec.text ++ b2.text :: sgs2.map SgLineSpec.text))
        out = .ok o ∧
      o.ok = true ∧
      o.out.msgs id1 = some ⟨id1, b1.name, b1.dlc, sgs1.map (SgLineSpec.signal stod)⟩ ∧
      o.out.msgs id2 = some ⟨id2, b2.name, b2.dlc, sgs2.map (SgLineSpec.signal stod)⟩ := by
  have e1 := parse_line_bo_wf stod ⟨out, none⟩ b1 id1 h1
  obtain ⟨sa, ha1, ha2, ha3, -⟩ := parse_lines_sg_wf stod sgs1 hs1
    ⟨out.assign id1 (b1.message id1), some id1⟩ id1 (b1.message id1) rfl (assign_same _ _ _)
  have e2 := parse_line_bo_wf stod sa b2 id2 h2
  obtain ⟨sb, hb1, -, hb3, hb4⟩ := parse_lines_sg_wf stod sgs2 hs2
    ⟨sa.net.assign id2 (b2.message id2), some id2⟩ id2 (b2.message id2) rfl (assign_same _ _ _)
  refine ⟨⟨true, sb.net, []⟩, ?_, rfl, ?_, ?_⟩
  · have hrun : parse_lines stod ⟨out, none⟩
        (b1.text :: (sgs1.map SgLineSpec.text ++ b2.text :: sgs2.map SgLineSpec.text)) =
        .ok sb := by
      rw [parse_lines, e1]
      simp only
      rw [parse_lines_append, ha1]
      simp only
      rw [parse_lines, e2]
      exact hb1
    simp only [parse_dbc_file, List.cons_append]
    rw [hrun]
  · simp only
    rw [hb4 id1 hne, assign_other _ _ _ _ hne, ha3]
    simp [BoLineSpec.message]
  · simp only
    rw [hb3]
    simp [BoLineSpec.message]

theorem signals_attach_to_latest_message_witness :
    ∃ o, parse_dbc_file stod_dec "db.dbc".toList
        (some (boMsg256.text :: [sgSigLE, sgMuxA].map SgLineSpec.text ++
          boMsg512.text :: [sgSigBE].map SgLineSpec.text))
        Network.empty = .ok o ∧
      o.ok = true ∧
      o.out.msgs 256 = some ⟨256, boMsg256.name, boMsg256.dlc,
        [sgSigLE, sgMuxA].map (SgLineSpec.signal stod_dec)⟩ ∧
      o.out.msgs 512 = some ⟨512, boMsg512.name, boMsg512.dlc,
        [sgSigBE].map (SgLineSpec.signal stod_dec)⟩ :=
  signals_attach_to_latest_message stod_dec "db.dbc".toList Network.empty boMsg256 boMsg512
    256 512 [sgSigLE, sgMuxA] [sgSigBE] boMsg256_wf boMsg512_wf (by decide)
    (by
      intro l hl
      simp only [List.mem_cons, List.mem_singleton, List.not_mem_nil, or_false] at hl
      rcases hl with rfl | rfl
      · exact sgSigLE_wf
      · exact sgMuxA_wf)
    (by
      intro l hl
      simp only [List.mem_singleton] at hl
      subst hl
      exact sgSigBE_wf)

/-- C10: a signal record with no current message context is discarded. A line whose trimmed
text starts with `SG_` leaves a loop state without current message unchanged; a database
that consists of such a line leaves the catalog passed in unchanged; and after a
`BO_` line skipped as malformed (its identifier, name or length token is missing) a
following `SG_` line leaves the catalog unchanged, whatever message was current before. -/
theorem signal_without_context_discarded (stod : Str → Option Float) (path : Str)
    (st0 st : PState) (out : Network) (boRaw sgRaw : Str)
    (hcur : st0.current = none)
    (hsg : starts_with (trim sgRaw) "SG_".toList = true)
    (hbo : starts_with (trim boRaw) "BO_".toList = true)
    (hmiss : (bo_tokens (trim boRaw)).1 = [] ∨ (bo_tokens (trim boRaw)).2.1 = [] ∨
      (bo_tokens (trim boRaw)).2.2 = []) :
    parse_line stod st0 sgRaw = .ok st0 ∧
    (∃ o, parse_dbc_file stod path (some [sgRaw]) out = .ok o ∧ o.ok = true ∧
      o.out.msgs = out.msgs) ∧
    (∃ st2, parse_lines stod st [boRaw, sgRaw] = .ok st2 ∧ st2.net.msgs = st.net.msgs ∧
      st2.current = none) := by
  refine ⟨parse_line_sg_no_current stod st0 sgRaw hcur hsg, ?_, ?_⟩
  · refine ⟨⟨true, out, []⟩, ?_, rfl, rfl⟩
    simp only [parse_dbc_file, parse_lines,
      parse_line_sg_no_current stod ⟨out, none⟩ sgRaw rfl hsg]
  · refine ⟨{ st with current := none }, ?_, rfl, rfl⟩
    simp only [parse_lines, parse_line_bo_skipped stod st boRaw hbo hmiss,
      parse_line_sg_no_current stod { st with current := none } sgRaw rfl hsg]

theorem signal_without_context_discarded_witness :
    parse_line stod_dec ⟨Network.empty.assign 256 (boMsg256.message 256), none⟩ sgSigLE.text =
      .ok ⟨Network.empty.assign 256 (boMsg256.message 256), none⟩ ∧
    (∃ o, parse_dbc_file stod_dec "db.dbc".toList (some [sgSigLE.text])
        (Network.empty.assign 256 (boMsg256.message 256)) = .ok o ∧ o.ok = true ∧
      o.out.msgs = (Network.empty.assign 256 (boMsg256.message 256)).msgs) ∧
    (∃ st2, parse_lines stod_dec ⟨Network.empty.assign 256 (boMsg256.message 256), some 256⟩
        ["BO_ 512 Msg:".toList, sgSigLE.text] = .ok st2 ∧
      st2.net.msgs = (Network.empty.assign 256 (boMsg256.message 256)).msgs ∧
      st2.current = none) :=
  signal_without_context_discarded stod_dec "db.dbc".toList
    ⟨Network.empty.assign 256 (boMsg256.message 256), none⟩
    ⟨Network.empty.assign 256 (boMsg256.message 256), some 256⟩
    (Network.empty.assign 256 (boMsg256.message 256)) "BO_ 512 Msg:".toList sgSigLE.text
    rfl (by decide) (by decide) (Or.inr (Or.inr (by decide)))
/-- C14: for every catalog, payload, timestamp and output stream, `decode_frame_and_write`
called with an identifier that is not a key of the catalog returns 0 and leaves the output
stream as it was. -/
theorem decode_frame_unknown_id (net : Network) (can_id : Nat) (timestamp : Float)
    (data : List Nat) (os : List OutLine) (hnone : net.msgs can_id = none) :
    decode_frame_and_write net can_id timestamp data os = (0, os) := by
  unfold decode_frame_and_write
  rw [hnone]

theorem decode_frame_unknown_id_witness :
    decode_frame_and_write (Network.empty.assign 256 (boMsg256.message 256)) 512 0.0
      [1, 2, 3] [] = (0, []) :=
  decode_frame_unknown_id (Network.empty.assign 256 (boMsg256.message 256)) 512 0.0
    [1, 2, 3] [] (by rfl)

/-- C15: for every catalog, known identifier and payload, the lines `decode_frame_and_write`
appends to the output are as many as the message has signals, and the `i`-th of them carries
the timestamp, the name of the `i`-th signal of the message's signal list and the value
`decode_signal_phys` gives for that signal and the payload: the emitted names are the
signal names in parse order. -/
theorem decode_frame_output_order (net : Network) (can_id : Nat) (msg : Message)
    (timestamp : Float) (data : List Nat) (os : List OutLine)
    (hmsg : net.msgs can_id = some msg) :
    ∃ written : List OutLine,
      (decode_frame_and_write net can_id timestamp data os).2 = os ++ written ∧
      written.length = msg.signals.length ∧
      written.map (fun l => l.name) = msg.signals.map (fun s => s.name) ∧
      ∀ (i : Nat) (sig : Signal), msg.signals[i]? = some sig →
        written[i]? = some (⟨timestamp, sig.name, decode_signal_phys sig data⟩ : OutLine) := by
  refine ⟨msg.signals.map (fun sig => ⟨timestamp, sig.name, decode_signal_phys sig data⟩),
    ?_, ?_, ?_, ?_⟩
  · unfold decode_frame_and_write
    rw [hmsg]
    simp only
    rw [decode_frame_fold timestamp data msg.signals 0 os]
  · simp
  · simp [Function.comp]
  · intro i sig hi
    simp [List.getElem?_map, hi]

theorem decode_frame_output_order_witness :
    ∃ written : List OutLine,
      (decode_frame_and_write
        (Network.empty.assign 256
          ⟨256, "Msg".toList, 8, [sgSigLE.signal stod_dec, sgMuxA.signal stod_dec]⟩)
        256 0.0 [1, 7] []).2 = [] ++ written ∧
      written.length =
        ([sgSigLE.signal stod_dec, sgMuxA.signal stod_dec] : List Signal).length ∧
      written.map (fun l => l.name) =
        ([sgSigLE.signal stod_dec, sgMuxA.signal stod_dec] : List Signal).map (fun s => s.name) ∧
      ∀ (i : Nat) (sig : Signal),
        ([sgSigLE.signal stod_dec, sgMuxA.signal stod_dec] : List Signal)[i]? = some sig →
        written[i]? = some (⟨0.0, sig.name, decode_signal_phys sig [1, 7]⟩ : OutLine) :=
  decode_frame_output_order
    (Network.empty.assign 256
      ⟨256, "Msg".toList, 8, [sgSigLE.signal stod_dec, sgMuxA.signal stod_dec]⟩)
    256 ⟨256, "Msg".toList, 8, [sgSigLE.signal stod_dec, sgMuxA.signal stod_dec]⟩ 0.0 [1, 7] []
    (assign_same _ _ _)

/-- C13, as stated, fails: a database whose signal line ` SG_ Bad : x|8@1+ (1,0)` is
discarded (the message ends without signals) is parsed with success and with an empty
error detail string. -/
theorem err_detail_empty_after_discard_counterexample :
    errOf (parse_dbc_file stod_dec "db.dbc".toList
        (some [boMsg256.text, " SG_ Bad : x|8@1+ (1,0) [0|1] \"\" ECU".toList])
        Network.empty) = some (true, []) ∧
    catalogEntry (parse_dbc_file stod_dec "db.dbc".toList
        (some [boMsg256.text, " SG_ Bad : x|8@1+ (1,0) [0|1] \"\" ECU".toList])
        Network.empty) 256 = some ("Msg".toList, 8, []) := by
  constructor <;> decide

/-- C13 (amended): when `parse_dbc_file` returns true the error detail string is empty,
whether the parse was clean or records were discarded; the only non-empty error detail is
`Failed to open <path>`, returned with false when the source cannot be opened. -/
theorem err_detail_on_return (stod : Str → Option Float) (path : Str)
    (file : Option (List Str)) (out : Network) (o : ParseOutcome)
    (hret : parse_dbc_file stod path file out = .ok o) :
    (o.ok = true → o.err = []) ∧
    (o.ok = false → file = none ∧ o.err = "Failed to open ".toList ++ path) ∧
    (file = none → o.ok = false) := by
  unfold parse_dbc_file at hret
  cases file with
  | none =>
    simp only [Except.ok.injEq] at hret
    subst hret
    simp
  | some lines =>
    simp only at hret
    cases hl : parse_lines stod ⟨out, none⟩ lines with
    | error e => rw [hl] at hret; simp at hret
    | ok st =>
      rw [hl] at hret
      simp only [Except.ok.injEq] at hret
      subst hret
      simp

theorem err_detail_on_return_witness :
    ((⟨true, Network.empty.assign 256 (boMsg256.message 256), []⟩ : ParseOutcome).ok = true →
      (⟨true, Network.empty.assign 256 (boMsg256.message 256), []⟩ : ParseOutcome).err = []) ∧
    ((⟨true, Network.empty.assign 256 (boMsg256.message 256), []⟩ : ParseOutcome).ok = false →
      some [boMsg256.text, " SG_ Bad : x|8@1+ (1,0) [0|1] \"\" ECU".toList] = none ∧
      (⟨true, Network.empty.assign 256 (boMsg256.message 256), []⟩ : ParseOutcome).err =
        "Failed to open ".toList ++ "db.dbc".toList) ∧
    (some [boMsg256.text, " SG_ Bad : x|8@1+ (1,0) [0|1] \"\" ECU".toList] = none →
      (⟨true, Network.empty.assign 256 (boMsg256.message 256), []⟩ : ParseOutcome).ok = false) :=
  err_detail_on_return stod_dec "db.dbc".toList
    (some [boMsg256.text, " SG_ Bad : x|8@1+ (1,0) [0|1] \"\" ECU".toList]) Network.empty
    ⟨true, Network.empty.assign 256 (boMsg256.message 256), []⟩ (by rfl)

/-- C12, as stated, fails: the signal lines ` SG_ Z : 0|0@1+ (1,0)` and
` SG_ W : 0|65@1+ (1,0)` are accepted, and the catalog holds signals with `bit_len` 0 and
65. -/
theorem bit_len_range_counterexample :
    bitLens (parse_dbc_file stod_dec "db.dbc".toList
        (some [boMsg256.text, " SG_ Z : 0|0@1+ (1,0) [0|1] \"\" ECU".toList,
          " SG_ W : 0|65@1+ (1,0) [0|1] \"\" ECU".toList])
        Network.empty) 256 = some [0, 65] := by
  decide

/-- C12 (amended): `parse_dbc_file` does not check the range of the length field: it stores
the converted length cast to `uint16_t`. For a database made of a well-formed message line
followed by signal lines `SG_ <name> : <start>|<length>@<e><s> (..)..` whose start and
length are decimal numerals that `std::stoul` converts, the `bit_len` values stored under
the message are, line by line, `<length> mod 2 ^ 16`: the length itself when it is below
`2 ^ 16`, whether or not it lies in 1..64. Hence, when the catalog passed in has only
signals with `bit_len ≤ 65535` (the empty catalog in particular) and the call returns, every
signal of every message of the returned catalog has `0 ≤ bit_len ≤ 65535`, for every
database text. -/
theorem bit_len_is_cast_length (stod : Str → Option Float) (path : Str)
    (file : Option (List Str)) (out : Network) (o : ParseOutcome)
    (b : BoLineSpec) (id : Nat) (ls : List SgLineSpec) (out2 : Network)
    (hout : out.BitLenBounded)
    (hret : parse_dbc_file stod path file out = .ok o)
    (hb : b.WellFormed id) (hls : ∀ l ∈ ls, l.Shaped) :
    bitLens (parse_dbc_file stod path (some (b.text :: ls.map SgLineSpec.text)) out2) id =
        some (ls.map (fun l => decVal l.lenTxt % 2 ^ 16)) ∧
      ((∀ l ∈ ls, decVal l.lenTxt < 2 ^ 16) →
        bitLens (parse_dbc_file stod path (some (b.text :: ls.map SgLineSpec.text)) out2) id =
          some (ls.map (fun l => decVal l.lenTxt))) ∧
      (∀ k m s, o.out.msgs k = some m → s ∈ m.signals →
        0 ≤ s.bit_len ∧ s.bit_len ≤ 65535) := by
  have hcast : bitLens
      (parse_dbc_file stod path (some (b.text :: ls.map SgLineSpec.text)) out2) id =
      some (ls.map (fun l => decVal l.lenTxt % 2 ^ 16)) := by
    have e1 := parse_line_bo_wf stod ⟨out2, none⟩ b id hb
    obtain ⟨st2, m2, h1, -, h3, h4, -⟩ := parse_lines_sg_shaped stod ls hls
      ⟨out2.assign id (b.message id), some id⟩ id (b.message id) rfl (assign_same _ _ _)
    have hrun : parse_lines stod ⟨out2, none⟩ (b.text :: ls.map SgLineSpec.text) = .ok st2 := by
      rw [parse_lines, e1]
      exact h1
    simp only [parse_dbc_file, hrun, bitLens, h3, Option.map_some']
    rw [h4]
    simp [BoLineSpec.message]
  refine ⟨hcast, ?_, ?_⟩
  · intro hsmall
    rw [hcast]
    congr 1
    apply List.map_congr_left
    intro l hl
    exact Nat.mod_eq_of_lt (hsmall l hl)
  · have hbd : o.out.BitLenBounded := by
      unfold parse_dbc_file at hret
      cases file with
      | none =>
        simp only [Except.ok.injEq] at hret
        subst hret
        exact hout
      | some lines =>
        simp only at hret
        cases hl : parse_lines stod ⟨out, none⟩ lines with
        | error e => rw [hl] at hret; exact Except.noConfusion hret
        | ok st =>
          rw [hl] at hret
          simp only [Except.ok.injEq] at hret
          subst hret
          exact parse_lines_bounded stod lines ⟨out, none⟩ st hout hl
    intro k m s hm hs
    have := hbd k m s hm hs
    exact ⟨Nat.zero_le _, by norm_num at this; omega⟩

theorem bit_len_is_cast_length_witness :
    bitLens (parse_dbc_file stod_dec "db.dbc".toList
        (some (boMsg256.text :: [sgWide, sgSigLE].map SgLineSpec.text)) Network.empty) 256 =
      some [70000 % 2 ^ 16, 16] :=
  (bit_len_is_cast_length stod_dec "db.dbc".toList (some [boMsg256.text, sgSigLE.text])
    Network.empty
    ⟨true, (Network.empty.assign 256 (boMsg256.message 256)).push_signal 256
      (sgSigLE.signal stod_dec), []⟩
    boMsg256 256 [sgWide, sgSigLE] Network.empty
    (by intro id m s h; exact Option.noConfusion h) parse_msg256_sigLE boMsg256_wf
    (by
      intro l hl
      simp only [List.mem_cons, List.mem_singleton, List.not_mem_nil, or_false] at hl
      rcases hl with rfl | rfl
      · exact sgWide_shaped
      · exact shaped_of_wellFormed stod_dec _ sgSigLE_wf)).1

/-- C11, as stated, fails: the decimal numeral `0123` is read as octal and the message is
stored under 83, not under 123; the token `0x100000000` is stored under 0, its value cast to
`uint32_t`, not under its hexadecimal value 4294967296. -/
theorem identifier_value_counterexample :
    decVal "0123".toList = 123 ∧
    catalogEntry (parse_dbc_file stod_dec "db.dbc".toList
        (some ["BO_ 0123 Msg: 8 ECU".toList]) Network.empty) 123 = none ∧
    catalogEntry (parse_dbc_file stod_dec "db.dbc".toList
        (some ["BO_ 0123 Msg: 8 ECU".toList]) Network.empty) 83 = some ("Msg".toList, 8, []) ∧
    hexVal "100000000".toList = 4294967296 ∧
    catalogEntry (parse_dbc_file stod_dec "db.dbc".toList
        (some ["BO_ 0x100000000 Msg: 8 ECU".toList]) Network.empty) 4294967296 = none ∧
    catalogEntry (parse_dbc_file stod_dec "db.dbc".toList
        (some ["BO_ 0x100000000 Msg: 8 ECU".toList]) Network.empty) 0 =
      some ("Msg".toList, 8, []) := by
  refine ⟨?_, ?_, ?_, ?_, ?_, ?_⟩ <;> decide

/-- C11 (amended): for every message line whose identifier token is a decimal numeral
without a leading zero (the numeral `0` included) with value below `2 ^ 32`, or `0x` followed
by hexadecimal digits with value below `2 ^ 32`, the message is stored under that decimal,
respectively hexadecimal, value and becomes the current message. -/
theorem message_identifier_value (stod : Str → Option Float) (st : PState) (b : BoLineSpec)
    (v : Nat) (hb : b.Shaped) (hid : idTokenValue b.idTxt = some v) (hv : v < 2 ^ 32) :
    ∃ st2, parse_line stod st b.text = .ok st2 ∧
      st2.current = some v ∧
      st2.net.msgs v = some ⟨v, b.name, b.dlc, []⟩ := by
  obtain ⟨hs, hne, hplain⟩ := idTokenValue_stoul b.idTxt v hid hv
  have hwf : b.WellFormed v :=
    ⟨hb.lead_blank, hne, hplain, hb.name_plain, hb.dlc_ne, hb.dlc_plain, hb.rest_break,
      by rw [hs]; simp only [Except.toOption, Option.map_some']; rw [Nat.mod_eq_of_lt hv]⟩
  refine ⟨⟨st.net.assign v (b.message v), some v⟩, parse_line_bo_wf stod st b v hwf, rfl, ?_⟩
  simp only
  rw [assign_same]
  rfl

theorem message_identifier_value_witness :
    (∃ st2, parse_line stod_dec ⟨Network.empty, none⟩ boMsgHex705.text = .ok st2 ∧
      st2.current = some 0x705 ∧
      st2.net.msgs 0x705 = some ⟨0x705, boMsgHex705.name, boMsgHex705.dlc, []⟩) ∧
    (∃ st2, parse_line stod_dec ⟨Network.empty, none⟩ boMsg256.text = .ok st2 ∧
      st2.current = some 256 ∧
      st2.net.msgs 256 = some ⟨256, boMsg256.name, boMsg256.dlc, []⟩) :=
  ⟨message_identifier_value stod_dec ⟨Network.empty, none⟩ boMsgHex705 0x705
      boMsgHex705_shaped (by decide) (by decide),
    message_identifier_value stod_dec ⟨Network.empty, none⟩ boMsg256 256
      boMsg256_shaped (by decide) (by decide)⟩

/-- C18: for every payload (the empty one included), every `start` and every `length`, the
two extractors run with checked payload access never read outside the payload: the checked
runs finish, with the results of `extract_le` and `extract_be`. Every `data[byte]` is
reached only under its guard, with `0 ≤ byte < data.size()`. -/
theorem extractors_stay_in_bounds (data : List Nat) (start length : Nat) :
    extract_le_checked data start length = some (extract_le data start length) ∧
    extract_be_checked data start length = some (extract_be data start length) := by
  constructor
  · unfold extract_le_checked extract_le
    exact extract_le_checked_fold data start _ 0
  · unfold extract_be_checked extract_be
    rw [extract_be_checked_iter]
    rfl

/-- C19: for every payload, every number `z` of appended `0x00` bytes and every signal, each
extractor returns the same value on the payload and on the payload with the zero bytes
appended, and so do the masked raw value and `decode_signal_phys`. -/
theorem zero_extension_invariance (sig : Signal) (data : List Nat) (z : Nat) :
    extract_le (data ++ List.replicate z 0) sig.start_bit sig.bit_len =
      extract_le data sig.start_bit sig.bit_len ∧
    extract_be (data ++ List.replicate z 0) sig.start_bit sig.bit_len =
      extract_be data sig.start_bit sig.bit_len ∧
    rawUnsigned sig (data ++ List.replicate z 0) = rawUnsigned sig data ∧
    decode_signal_phys sig (data ++ List.replicate z 0) = decode_signal_phys sig data := by
  refine ⟨extract_le_append_zeros _ _ _ _, extract_be_append_zeros _ _ _ _, ?_, ?_⟩
  · unfold rawUnsigned
    rw [extract_le_append_zeros, extract_be_append_zeros]
  · unfold decode_signal_phys
    rw [extract_le_append_zeros, extract_be_append_zeros]

/-- C20: for every payload all of whose bytes are 0 (of any length, the empty payload
included), every `start` and every `length`, both extractors return 0, and so the raw value
of every signal is 0. -/
theorem all_zero_payload_raw_zero (data : List Nat) (sig : Signal) (start length : Nat)
    (hz : ∀ b ∈ data, b = 0) :
    extract_le data start length = 0 ∧
    extract_be data start length = 0 ∧
    rawUnsigned sig data = 0 := by
  refine ⟨extract_le_all_zero data hz _ _, extract_be_all_zero data hz _ _, ?_⟩
  unfold rawUnsigned
  rw [extract_le_all_zero data hz, extract_be_all_zero data hz]
  simp

theorem all_zero_payload_raw_zero_witness :
    extract_le [0, 0, 0] 5 12 = 0 ∧
    extract_be [0, 0, 0] 5 12 = 0 ∧
    rawUnsigned (sgSigBE.signal stod_dec) [0, 0, 0] = 0 :=
  all_zero_payload_raw_zero [0, 0, 0] (sgSigBE.signal stod_dec) 5 12 (by decide)

/-- C16: for every width `n` in 1..64 (1, 8, 16, 32 and 64 among them), every `v < 2 ^ n`,
every 16-bit start bit `s` and every payload that holds the bits `s .. s + n - 1`, writing bit
`k` of `v` into absolute bit `s + k` of the payload for all `k < n` and then calling
`extract_le` with `s` and `n` returns `v`, whatever the payload held before. -/
theorem le_round_trip (data : List Nat) (s n v : Nat)
    (hs : s < 2 ^ 16) (h1 : 1 ≤ n) (h64 : n ≤ 64) (hv : v < 2 ^ n)
    (hfit : (s + n - 1) / 8 < data.length) :
    extract_le (encode_le data s n v) s n = v := by
  apply Nat.eq_of_testBit_eq
  intro j
  rw [extract_le_testBit _ s hs n h64 j, encode_le_payloadBit]
  by_cases hj : j < n
  · have hin : (s + j) / 8 < data.length :=
      lt_of_le_of_lt (Nat.div_le_div_right (by omega)) hfit
    simp [hj, hin]
  · have hlt : v < 2 ^ j :=
      lt_of_lt_of_le hv (Nat.pow_le_pow_right (by decide) (by omega))
    simp [hj, Nat.testBit_lt_two_pow hlt]

theorem le_round_trip_witness :
    extract_le (encode_le [0xAA, 0x55, 0xFF] 4 16 0x1234) 4 16 = 0x1234 :=
  le_round_trip [0xAA, 0x55, 0xFF] 4 16 0x1234 (by decide) (by decide) (by decide)
    (by decide) (by decide)

/-- C17: for every width `n` in 1..64 (1, 8, 16, 32 and 64 among them), every `v < 2 ^ n`
and every start bit `s`, writing the bits of `v`, most significant first, along the Motorola
walk from `s` (byte `s / 8`, bit `7 - s % 8`, descending, wrapping to bit 7 of the previous
byte), with every position of the walk inside the payload, and then calling `extract_be` with
`s` and `n` returns `v`. -/
theorem be_round_trip (data : List Nat) (s n v : Nat)
    (_h1 : 1 ≤ n) (h64 : n ≤ 64) (hv : v < 2 ^ n)
    (hpath : ∀ i, i < n → 0 ≤ (be_pos s i).1 ∧ (be_pos s i).1.toNat < data.length) :
    extract_be (encode_be data s n v) s n = v := by
  apply Nat.eq_of_testBit_eq
  intro j
  unfold extract_be encode_be
  rw [(extract_be_iter _ s n h64).2 j, encode_be_upto_payloadBitAt]
  by_cases hj : j < n
  · have hi : n - 1 - j < n := by omega
    have hin := hpath (n - 1 - j) hi
    have e : n - 1 - (n - 1 - j) = j := by omega
    simp [hj, hi, hin, e]
  · have hlt : v < 2 ^ j :=
      lt_of_lt_of_le hv (Nat.pow_le_pow_right (by decide) (by omega))
    simp [hj, Nat.testBit_lt_two_pow hlt]

theorem be_round_trip_witness :
    extract_be (encode_be [0xAA, 0x55] 8 12 0xABC) 8 12 = 0xABC :=
  be_round_trip [0xAA, 0x55] 8 12 0xABC (by decide) (by decide) (by decide) (by decide)
theorem boMsg256b_wf : boMsg256b.WellFormed 256 :=
  ⟨by decide, by decide, by decide, by decide, by decide, by decide,
    atBreak_cons _ (by decide), by decide⟩

/-- C21: for the signal `{start_bit = 0, bit_len = 12, big-endian, signed, scale 1, offset 0}`
and every payload beginning `0xFF, 0x0F`, the extracted 12-bit field is `u = 4080 = 0xFF0`,
its top bit (bit 11) is set, the raw value is the two's-complement reading
`u - 4096 = -16 < 0`, and `decode_signal_phys` returns `toDouble(-16) * 1 + 0`, the negation
of `toDouble(16)` scaled by 1 and shifted by 0. -/
theorem sign_extension_example (name : Str) (rest : List Nat) :
    extract_be (0xFF :: 0x0F :: rest) 0 12 = 4080 ∧
    Nat.testBit 4080 11 = true ∧
    rawUnsigned ⟨name, 0, 12, false, true, 1.0, 0.0⟩ (0xFF :: 0x0F :: rest) = 4080 ∧
    rawValue ⟨name, 0, 12, false, true, 1.0, 0.0⟩ (0xFF :: 0x0F :: rest) = 4080 - 4096 ∧
    ((4080 : Int) - 4096 < 0) ∧
    decode_signal_phys ⟨name, 0, 12, false, true, 1.0, 0.0⟩ (0xFF :: 0x0F :: rest) =
      Float.ofInt (4080 - 4096) * 1.0 + 0.0 ∧
    Float.ofInt (4080 - 4096) = -Float.ofNat 16 := by
  have he : extract_be (0xFF :: 0x0F :: rest) 0 12 = 4080 := by
    have h := extract_be_prefix [0xFF, 0x0F] rest 0 12 (by decide)
    have h2 : extract_be [0xFF, 0x0F] 0 12 = 4080 := by decide
    rw [h2] at h
    exact h
  have hu : rawUnsigned ⟨name, 0, 12, false, true, 1.0, 0.0⟩ (0xFF :: 0x0F :: rest) = 4080 := by
    unfold rawUnsigned
    simp only [Bool.false_eq_true, if_false, he]
    decide
  refine ⟨he, by decide, hu, ?_, by decide, ?_, rfl⟩
  · unfold rawValue
    rw [hu]
    rfl
  · unfold decode_signal_phys
    simp only [Bool.false_eq_true, if_false, he]
    rfl

/-- C22: for the signal
`{start_bit = 0, bit_len = 16, little-endian, unsigned, scale 0.1, offset 0}` and every
payload beginning `0x2C, 0x01`, the extracted raw value is `0x012C = 300` and
`decode_signal_phys` returns `toDouble(300) * 0.1 + 0` in double arithmetic. -/
theorem scale_offset_example (name : Str) (rest : List Nat) :
    extract_le (0x2C :: 0x01 :: rest) 0 16 = 300 ∧
    (300 : Nat) = 0x012C ∧
    rawUnsigned ⟨name, 0, 16, true, false, 0.1, 0.0⟩ (0x2C :: 0x01 :: rest) = 300 ∧
    rawValue ⟨name, 0, 16, true, false, 0.1, 0.0⟩ (0x2C :: 0x01 :: rest) = 300 ∧
    decode_signal_phys ⟨name, 0, 16, true, false, 0.1, 0.0⟩ (0x2C :: 0x01 :: rest) =
      Float.ofNat 300 * 0.1 + 0.0 := by
  have he : extract_le (0x2C :: 0x01 :: rest) 0 16 = 300 := by
    have h := extract_le_prefix [0x2C, 0x01] rest 0 16 (by decide)
    have h2 : extract_le [0x2C, 0x01] 0 16 = 300 := by decide
    rw [h2] at h
    exact h
  have hu : rawUnsigned ⟨name, 0, 16, true, false, 0.1, 0.0⟩ (0x2C :: 0x01 :: rest) = 300 := by
    unfold rawUnsigned
    simp only [if_true, he]
    decide
  refine ⟨he, by decide, hu, ?_, ?_⟩
  · unfold rawValue
    rw [hu]
    rfl
  · unfold decode_signal_phys
    simp only [if_true, he]
    rfl

/-- C25: for every payload, every 16-bit `start_bit` and every `length` in 1..64, with
`p = 8 * (start_bit / 8) + 7 - start_bit % 8`, if `p + 1 ≥ length` then `extract_be` at
`start_bit` equals `extract_le` at `p + 1 - length`; bit `j` of the result is the payload bit
at absolute index `p + 1 - length + j`, so significance grows with the byte address; and for
a byte-aligned start and a whole number of bytes the field starts at byte
`start_bit / 8 + 1 - length / 8` and its most significant byte is byte `start_bit / 8`. -/
theorem be_is_le_at_shifted_start (data : List Nat) (s n : Nat)
    (hs : s < 2 ^ 16) (h1 : 1 ≤ n) (h64 : n ≤ 64) (hp : n ≤ 8 * (s / 8) + 7 - s % 8 + 1) :
    extract_be data s n = extract_le data (8 * (s / 8) + 7 - s % 8 + 1 - n) n ∧
    (∀ j, j < n → (extract_be data s n).testBit j =
      payloadBit data ((8 * (s / 8) + 7 - s % 8 + 1 - n + j) / 8)
        ((8 * (s / 8) + 7 - s % 8 + 1 - n + j) % 8)) ∧
    (s % 8 = 0 → n % 8 = 0 →
      8 * (s / 8) + 7 - s % 8 + 1 - n = 8 * (s / 8 + 1 - n / 8) ∧
      (8 * (s / 8) + 7 - s % 8 + 1 - n + (n - 1)) / 8 = s / 8) := by
  have heq := extract_be_eq_extract_le data s n hs h1 h64 hp
  have hm := Nat.mod_lt s (show 0 < 8 by decide)
  have hstart : 8 * (s / 8) + 7 - s % 8 + 1 - n < 2 ^ 16 := by
    have := Nat.div_add_mod s 8
    norm_num at hs ⊢
    omega
  refine ⟨heq, ?_, ?_⟩
  · intro j hj
    rw [heq, extract_le_testBit data _ hstart n h64 j]
    simp [hj]
  · intro h8 hn8
    have := Nat.div_add_mod n 8
    omega

theorem be_is_le_at_shifted_start_witness :
    extract_be [0x12, 0x34] 8 16 = extract_le [0x12, 0x34] (8 * (8 / 8) + 7 - 8 % 8 + 1 - 16) 16 ∧
    (∀ j, j < 16 → (extract_be [0x12, 0x34] 8 16).testBit j =
      payloadBit [0x12, 0x34] ((8 * (8 / 8) + 7 - 8 % 8 + 1 - 16 + j) / 8)
        ((8 * (8 / 8) + 7 - 8 % 8 + 1 - 16 + j) % 8)) ∧
    (8 % 8 = 0 → 16 % 8 = 0 →
      8 * (8 / 8) + 7 - 8 % 8 + 1 - 16 = 8 * (8 / 8 + 1 - 16 / 8) ∧
      (8 * (8 / 8) + 7 - 8 % 8 + 1 - 16 + (16 - 1)) / 8 = 8 / 8) :=
  be_is_le_at_shifted_start [0x12, 0x34] 8 16 (by decide) (by decide) (by decide) (by decide)

/-- C26: for every payload, every 16-bit `start_bit` and every `length` in 1..64, both
extractors return a value below `2 ^ length`, so the step
`raw_u &= mask_nbits(bit_len)` of `decode_signal_phys` leaves the extracted value
unchanged. -/
theorem extracted_value_fits_width (data : List Nat) (s n : Nat)
    (hs : s < 2 ^ 16) (_h1 : 1 ≤ n) (h64 : n ≤ 64) :
    extract_le data s n < 2 ^ n ∧
    extract_be data s n < 2 ^ n ∧
    extract_le data s n &&& mask_nbits n = extract_le data s n ∧
    extract_be data s n &&& mask_nbits n = extract_be data s n := by
  have hl := extract_le_lt data s n hs h64
  have hb := extract_be_lt data s n h64
  refine ⟨hl, hb, ?_, ?_⟩
  · rw [mask_nbits_eq n h64]
    exact Nat.and_pow_two_sub_one_of_lt_two_pow hl
  · rw [mask_nbits_eq n h64]
    exact Nat.and_pow_two_sub_one_of_lt_two_pow hb

theorem extracted_value_fits_width_witness :
    extract_le [0xFF, 0xFF, 0xFF] 3 12 < 2 ^ 12 ∧
    extract_be [0xFF, 0xFF, 0xFF] 3 12 < 2 ^ 12 ∧
    extract_le [0xFF, 0xFF, 0xFF] 3 12 &&& mask_nbits 12 = extract_le [0xFF, 0xFF, 0xFF] 3 12 ∧
    extract_be [0xFF, 0xFF, 0xFF] 3 12 &&& mask_nbits 12 = extract_be [0xFF, 0xFF, 0xFF] 3 12 :=
  extracted_value_fits_width [0xFF, 0xFF, 0xFF] 3 12 (by decide) (by decide) (by decide)

/-- C27: when a database consists of a well-formed message line, a run of well-formed signal
lines, a second well-formed message line with the same identifier and a second run of
well-formed signal lines, `parse_dbc_file` returns true and the catalog entry of that
identifier (the map holds one entry per identifier) carries the name and length of the later
line and exactly the signals of the second run: the signals attached after the earlier line
are dropped. -/
theorem duplicate_identifier_replaces (stod : Str → Option Float) (path : Str)
    (out : Network) (b1 b2 : BoLineSpec) (id : Nat) (sgs1 sgs2 : List SgLineSpec)
    (h1 : b1.WellFormed id) (h2 : b2.WellFormed id)
    (hs1 : ∀ l ∈ sgs1, l.WellFormed stod) (hs2 : ∀ l ∈ sgs2, l.WellFormed stod) :
    ∃ o, parse_dbc_file stod path
        (some (b1.text :: sgs1.map SgLineSpec.text ++ b2.text :: sgs2.map SgLineSpec.text))
        out = .ok o ∧
      o.ok = true ∧
      o.out.msgs id = some ⟨id, b2.name, b2.dlc, sgs2.map (SgLineSpec.signal stod)⟩ := by
  have e1 := parse_line_bo_wf stod ⟨out, none⟩ b1 id h1
  obtain ⟨sa, ha1, -, -, -⟩ := parse_lines_sg_wf stod sgs1 hs1
    ⟨out.assign id (b1.message id), some id⟩ id (b1.message id) rfl (assign_same _ _ _)
  have e2 := parse_line_bo_wf stod sa b2 id h2
  obtain ⟨sb, hb1, -, hb3, -⟩ := parse_lines_sg_wf stod sgs2 hs2
    ⟨sa.net.assign id (b2.message id), some id⟩ id (b2.message id) rfl (assign_same _ _ _)
  refine ⟨⟨true, sb.net, []⟩, ?_, rfl, ?_⟩
  · have hrun : parse_lines stod ⟨out, none⟩
        (b1.text :: (sgs1.map SgLineSpec.text ++ b2.text :: sgs2.map SgLineSpec.text)) =
        .ok sb := by
      rw [parse_lines, e1]
      simp only
      rw [parse_lines_append, ha1]
      simp only
      rw [parse_lines, e2]
      exact hb1
    simp only [parse_dbc_file, List.cons_append]
    rw [hrun]
  · simp only
    rw [hb3]
    simp [BoLineSpec.message]

theorem duplicate_identifier_replaces_witness :
    ∃ o, parse_dbc_file stod_dec "db.dbc".toList
        (some (boMsg256.text :: [sgSigLE, sgMuxA].map SgLineSpec.text ++
          boMsg256b.text :: [sgSigBE].map SgLineSpec.text))
        Network.empty = .ok o ∧
      o.ok = true ∧
      o.out.msgs 256 = some ⟨256, boMsg256b.name, boMsg256b.dlc,
        [sgSigBE].map (SgLineSpec.signal stod_dec)⟩ :=
  duplicate_identifier_replaces stod_dec "db.dbc".toList Network.empty boMsg256 boMsg256b
    256 [sgSigLE, sgMuxA] [sgSigBE] boMsg256_wf boMsg256b_wf
    (by
      intro l hl
      simp only [List.mem_cons, List.mem_singleton, List.not_mem_nil, or_false] at hl
      rcases hl with rfl | rfl
      · exact sgSigLE_wf
      · exact sgMuxA_wf)
    (by
      intro l hl
      simp only [List.mem_singleton] at hl
      subst hl
      exact sgSigBE_wf)
end stage4

namespace rbk

open stage4 (Str StdExn OutLine isspace stoul stoulBase digitVal isHexDigit hexDigitVal hexVal
  isDigits isHexDigits)

/-! ## The dump-line pattern -/

theorem decode_and_write_fold (pl : ParsedLine) (msg : IMessage) :
    ∀ (sigs : List ISignal) (n : Nat) (os : List OutLine),
      sigs.foldl
        (fun (acc : Nat × List OutLine) sig =>
          if take_signal msg (data_buf pl.data) sig then
            (acc.1 + 1,
              acc.2 ++ [⟨pl.timestamp, sig.Name, sig.RawToPhys (sig.Decode (data_buf pl.data))⟩])
          else acc)
        (n, os) =
      (n + ((sigs.filter (take_signal msg (data_buf pl.data))).map
          (fun sig => (⟨pl.timestamp, sig.Name,
            sig.RawToPhys (sig.Decode (data_buf pl.data))⟩ : OutLine))).length,
        os ++ (sigs.filter (take_signal msg (data_buf pl.data))).map
          (fun sig => (⟨pl.timestamp, sig.Name,
            sig.RawToPhys (sig.Decode (data_buf pl.data))⟩ : OutLine))) := by
  intro sigs
  induction sigs with
  | nil => intro n os; simp
  | cons s r ih =>
    intro n os
    rw [List.foldl_cons]
    cases ht : take_signal msg (data_buf pl.data) s with
    | true =>
      simp only [if_true, ih, List.filter_cons, ht, List.map_cons, List.length_cons,
        List.append_assoc, List.singleton_append]
      congr 1
      omega
    | false =>
      simp only [Bool.false_eq_true, if_false, ih, List.filter_cons, ht]

theorem take_signal_iff (msg : IMessage) (buf : List Nat) (sig : ISignal) :
    take_signal msg buf sig = true ↔ Selected msg buf sig := by
  unfold take_signal Selected
  by_cases hm : sig.MultiplexerIndicator = EMultiplexer.MuxValue
  · rw [if_pos hm]
    cases hx : msg.MuxSignal with
    | none => simp [hm]
    | some mux => simp [hm]
  · rw [if_neg hm]
    simp [hm]

theorem data_buf_length (data : List Nat) : (data_buf data).length = 64 := by
  unfold data_buf
  simp only [List.length_append, List.length_take, List.length_replicate]
  omega

theorem data_buf_getD (data : List Nat) (i : Nat) :
    (data_buf data).getD i 0 = if i < 64 then data.getD i 0 else 0 := by
  unfold data_buf
  simp only [List.getD_eq_getElem?_getD]
  by_cases h1 : i < (data.take 64).length
  · rw [List.getElem?_append_left h1]
    have h2 : i < 64 := by
      simp only [List.length_take] at h1
      omega
    rw [if_pos h2, List.getElem?_take_of_lt h2]
  · rw [List.getElem?_append_right (by omega)]
    simp only [List.length_take] at h1 ⊢
    by_cases h2 : i < 64
    · rw [if_pos h2]
      have h3 : data.length ≤ i := by omega
      rw [List.getElem?_eq_none h3]
      simp only [List.getElem?_replicate]
      split <;> rfl
    · rw [if_neg h2]
      simp only [List.getElem?_replicate]
      split <;> rfl

theorem data_buf_short (data : List Nat) (h : data.length ≤ 64) :
    data_buf data = data ++ List.replicate (64 - data.length) 0 := by
  unfold data_buf
  rw [List.take_of_length_le h, Nat.min_eq_left h]


/-- An identifier text whose value does not fit 32 bits: the extraction fails and stores the
largest `uint32_t`. -/
theorem read_hex_uint32_overflow_example :
    read_hex_uint32 "100000000".toList = 0xFFFFFFFF := by
  decide

/-! ## Claims about `rbk` -/

/-- C24: for an identifier known to the map, `decode_and_write` appends, in the order of the
message's signal list, one line `(timestamp, name, RawToPhys(Decode(buf)))` for every signal
that is selected, and returns the number of lines appended; `buf` is the payload padded with
zero bytes to 64 bytes. A signal is selected iff it is not a `MuxValue` signal, or the
message has a mux switch signal whose decoded value on `buf` equals the signal's multiplexer
switch value; with no mux switch signal every `MuxValue` signal is skipped, and a signal
that is not a `MuxValue` signal is always written. For an identifier unknown to the map the
call returns 0 and writes nothing. The library's `Decode` and `RawToPhys` are arbitrary
functions. -/
theorem decode_and_write_mux_filtering (pl : ParsedLine) (mmap : MsgMap) (msg : IMessage)
    (os : List OutLine) (hmsg : mmap pl.can_id = some msg) :
    decode_and_write pl mmap os =
        (((msg.Signals.filter (take_signal msg (data_buf pl.data))).map
            (fun sig => (⟨pl.timestamp, sig.Name,
              sig.RawToPhys (sig.Decode (data_buf pl.data))⟩ : OutLine))).length,
          os ++ (msg.Signals.filter (take_signal msg (data_buf pl.data))).map
            (fun sig => (⟨pl.timestamp, sig.Name,
              sig.RawToPhys (sig.Decode (data_buf pl.data))⟩ : OutLine))) ∧
      (∀ sig : ISignal, take_signal msg (data_buf pl.data) sig = true ↔
        Selected msg (data_buf pl.data) sig) ∧
      (msg.MuxSignal = none → ∀ sig : ISignal,
        sig.MultiplexerIndicator = EMultiplexer.MuxValue →
          take_signal msg (data_buf pl.data) sig = false) ∧
      (∀ sig : ISignal, sig.MultiplexerIndicator ≠ EMultiplexer.MuxValue →
        take_signal msg (data_buf pl.data) sig = true) ∧
      (data_buf pl.data).length = 64 ∧
      (∀ i : Nat, (data_buf pl.data).getD i 0 = if i < 64 then pl.data.getD i 0 else 0) ∧
      (∀ mmap2 : MsgMap, mmap2 pl.can_id = none → decode_and_write pl mmap2 os = (0, os)) := by
  refine ⟨?_, fun sig => take_signal_iff _ _ sig, ?_, ?_, data_buf_length _,
    fun i => data_buf_getD _ i, ?_⟩
  · unfold decode_and_write
    rw [hmsg]
    simp only [decode_and_write_fold pl msg msg.Signals 0 os, Nat.zero_add]
  · intro hnone sig hv
    unfold take_signal
    rw [if_pos hv, hnone]
  · intro sig hv
    unfold take_signal
    rw [if_neg hv]
  · intro mmap2 h2
    unfold decode_and_write
    rw [h2]

theorem decode_and_write_mux_filtering_witness :
    (fun id => if id = 0x100 then some exMuxMsg else none : MsgMap) 0x100 = some exMuxMsg ∧
      decode_and_write ⟨0.0, "can0".toList, 0x100, [1, 5, 9]⟩
          (fun id => if id = 0x100 then some exMuxMsg else none) [] =
        (3, [⟨0.0, "Sw".toList, Float.ofNat 1⟩, ⟨0.0, "B".toList, Float.ofNat 5⟩,
          ⟨0.0, "C".toList, Float.ofNat 9⟩]) :=
  ⟨rfl,
    (decode_and_write_mux_filtering ⟨0.0, "can0".toList, 0x100, [1, 5, 9]⟩
      (fun id => if id = 0x100 then some exMuxMsg else none) exMuxMsg [] rfl).1.trans rfl⟩

end rbk
